import Mathlib

/-!
# Chess rules engine: `Chessboard` (src/chessboard.cpp)

A shallow embedding of the board state and of the operations of
`src/chessboard.cpp`, followed by the properties proved about them.

Modelling conventions.

* Pieces are heap objects held through `std::shared_ptr<Piece>`; the same
  piece is reachable from a piece map, from `selected_piece_` and from
  `last_move_.moved_piece_`.  The embedding keeps the objects in `heap`
  and lets a pointer be an index into it (`PieceId`); a pointer that may be
  null is an `Option PieceId`.  The constructor allocates the 32 pieces and
  nothing allocates afterwards.
* `std::map` is an association list with the semantics of the members the
  source calls: `insert` keeps an existing entry, `erase` removes the key,
  `at` fails on a missing key, `count` is 0 or 1.  The list keeps the order of
  insertion, not the key order of `Position::operator<` (declared outside
  `src/`); the order only decides in which sequence `set_available_moves`
  refreshes the pieces, and no statement below depends on it.
* A call that throws `std::out_of_range` (`map::at`), dereferences a null
  `shared_ptr` or indexes `squares_` out of bounds ends in a `Fault`; nothing
  of the call's state survives it.
* The widget grid (`squares_`, pixmaps, style sheets) is presentation only:
  its contents are left out.  What is kept is whether an index into it is in
  bounds.  `Chessboard::at(position)` is `squares_[rank_ - 1][file_]` on an
  8 × 8 `std::array`, and `move` calls it with the piece's position and with
  the destination its caller passes: `move_piece` faults when one of them is
  off the board.  `castle` and the en-passant arm of `move` index it with
  squares that are on the board whenever the destination is.
  `reset_move_highlights` and `select_piece` index it with the elements of
  `highlighted_moves_`, which are the lists the piece classes compute, the
  en-passant target and the castling targets; the piece classes being
  parameters, these accesses are not modelled.
* The piece classes (`Pawn`, `Knight`, ...) are declared outside
  `src/`.  Their two entry points used here, `Piece::available_moves` and
  `Pawn::check_en_passant`, are parameters of the embedding (`PieceRules`);
  `specRules` is their model after the specification, used at concrete
  inputs.
-/

namespace Chess

/-! ## Data model -/

/-- Enumeration `File`: `A`..`H` are the values 0..7 (`(File) j`, `i == A`). -/
abbrev File := Nat

def File.A : File := 0
def File.B : File := 1
def File.C : File := 2
def File.D : File := 3
def File.E : File := 4
def File.F : File := 5
def File.G : File := 6
def File.H : File := 7

/-- Value type `Position(file, rank)` with members `file_` and `rank_`. -/
structure Position where
  file_ : Nat
  rank_ : Nat
deriving DecidableEq, Repr

inductive PieceColor where
  | WHITE
  | BLACK
deriving DecidableEq, Repr

/-- The opposing color. -/
def PieceColor.other : PieceColor → PieceColor
  | PieceColor.WHITE => PieceColor.BLACK
  | PieceColor.BLACK => PieceColor.WHITE

inductive PieceTag where
  | PAWN
  | KNIGHT
  | BISHOP
  | ROOK
  | QUEEN
  | KING
deriving DecidableEq, Repr

inductive SpecialMoveTag where
  | SHORT_CASTLING
  | LONG_CASTLING
  | EN_PASSANT
deriving DecidableEq, Repr

/-- The state of a `Piece` object that the board reads through `tag()`,
`color()`, `position()`, `moved()` and `legal_moves()`. -/
structure Piece where
  tag : PieceTag
  color : PieceColor
  position : Position
  moved : Bool
  legal_moves : List Position
deriving DecidableEq, Repr

/-- A non-null `std::shared_ptr<Piece>`: the index of the object in the heap. -/
abbrev PieceId := Nat

/-- The type `std::map<Position, std::shared_ptr<Piece>>`. -/
abbrev PieceMap := List (Position × PieceId)

/-- The struct behind `last_move_`. -/
structure LastMove where
  old_ : Position
  new_ : Position
  moved_piece_ : Option PieceId
deriving DecidableEq, Repr

/-- How a call can end without returning. -/
inductive Fault where
  | out_of_range
  | null_deref
  | out_of_bounds
deriving DecidableEq, Repr

/-- The members of `Chessboard` that carry game state. -/
structure Chessboard where
  heap : List Piece
  white_pieces_ : PieceMap
  black_pieces_ : PieceMap
  turn_ : PieceColor
  last_move_ : LastMove
  special_moves_ : List (SpecialMoveTag × Position)
  highlighted_moves_ : List Position
  selected_piece_ : Option PieceId
deriving DecidableEq, Repr

/-- The two virtual/static members of the piece classes that the board calls.
`available_moves` receives the piece and both maps (with the pieces they point
to) and yields the list it leaves in the piece's `legal_moves`;
`check_en_passant` receives the fields of `last_move_` (the moved piece
dereferenced) and the selected piece. -/
structure PieceRules where
  available_moves : Piece → List (Position × Piece) → List (Position × Piece) → List Position
  check_en_passant : Position → Position → Piece → Piece → Bool

/-! ## `std::map` members -/

namespace Map

variable {κ ν : Type} [DecidableEq κ]

/-- Member `map::at`, `none` standing for `std::out_of_range`. -/
def at? : List (κ × ν) → κ → Option ν
  | [], _ => none
  | e :: m, k => if e.1 = k then some e.2 else at? m k

/-- Member `map::count`. -/
def count (m : List (κ × ν)) (k : κ) : Nat :=
  match at? m k with
  | some _ => 1
  | none => 0

/-- Member `map::insert`: no effect when the key is present. -/
def insert (m : List (κ × ν)) (k : κ) (v : ν) : List (κ × ν) :=
  match at? m k with
  | some _ => m
  | none => m ++ [(k, v)]

/-- Member `map::erase(key)`. -/
def erase (m : List (κ × ν)) (k : κ) : List (κ × ν) :=
  m.filter (fun e => decide (e.1 ≠ k))

/-- The key set of a map. -/
def keys (m : List (κ × ν)) : List κ :=
  m.map Prod.fst

end Map

/-! ## Heap access -/

/-- The object created by the default branch of no constructor: it only
stands behind indices no pointer ever holds. -/
def Piece.blank : Piece :=
  { tag := PieceTag.PAWN, color := PieceColor.WHITE, position := ⟨0, 0⟩, moved := false,
    legal_moves := [] }

/-- Dereference of a non-null piece pointer. -/
def deref (h : List Piece) (id : PieceId) : Piece :=
  h.getD id Piece.blank

/-- The pieces a map points to, as `available_moves` sees them. -/
def resolve (h : List Piece) (m : PieceMap) : List (Position × Piece) :=
  m.map (fun e => (e.1, deref h e.2))

namespace Chessboard

/-- Accessor `piece->...` on the board's heap. -/
def piece (s : Chessboard) (id : PieceId) : Piece :=
  deref s.heap id

/-- The map of one color (`color == WHITE ? white_pieces_ : black_pieces_`). -/
def pieces (s : Chessboard) (c : PieceColor) : PieceMap :=
  match c with
  | PieceColor.WHITE => s.white_pieces_
  | PieceColor.BLACK => s.black_pieces_

/-- Assignment to the map of one color. -/
def with_pieces (s : Chessboard) (c : PieceColor) (m : PieceMap) : Chessboard :=
  match c with
  | PieceColor.WHITE => { s with white_pieces_ := m }
  | PieceColor.BLACK => { s with black_pieces_ := m }

/-! ## Operations of `src/chessboard.cpp` -/

/-- `Chessboard::is_attacked`: `attacking_pieces` is `black_pieces_` in both
arms of the conditional on `turn_`. -/
def is_attacked (s : Chessboard) (position : Position) : Bool :=
  let attacking_pieces :=
    match s.turn_ with
    | PieceColor.WHITE => s.black_pieces_
    | PieceColor.BLACK => s.black_pieces_
  attacking_pieces.any (fun pair => (s.piece pair.2).legal_moves.any (fun mv => decide (mv = position)))

/-- One iteration of a loop of `set_available_moves`:
`legal_moves().clear()` then `available_moves(white_pieces_, black_pieces_)`. -/
def refresh (R : PieceRules) (w b : PieceMap) (h : List Piece) (id : PieceId) : List Piece :=
  let h1 := h.set id { deref h id with legal_moves := [] }
  h1.set id { deref h1 id with
    legal_moves := R.available_moves (deref h1 id) (resolve h1 w) (resolve h1 b) }

/-- `Chessboard::set_available_moves`. -/
def set_available_moves (R : PieceRules) (s : Chessboard) : Chessboard :=
  let h1 := s.white_pieces_.foldl (fun h pair => refresh R s.white_pieces_ s.black_pieces_ h pair.2) s.heap
  let h2 := s.black_pieces_.foldl (fun h pair => refresh R s.white_pieces_ s.black_pieces_ h pair.2) h1
  { s with heap := h2 }

/-- `Chessboard::piece_at`: the white map first, then the black one, else a
null pointer. -/
def piece_at (s : Chessboard) (position : Position) : Option PieceId :=
  if Map.count s.white_pieces_ position > 0 then Map.at? s.white_pieces_ position
  else if Map.count s.black_pieces_ position > 0 then Map.at? s.black_pieces_ position
  else none

/-- The home rank `color == WHITE ? 1 : 8`. -/
def home_rank (color : PieceColor) : Nat :=
  match color with
  | PieceColor.WHITE => 1
  | PieceColor.BLACK => 8

/-- The king's target file in `check_castling`. -/
def castling_file (castling_style : SpecialMoveTag) : File :=
  if castling_style = SpecialMoveTag.LONG_CASTLING then File.C else File.G

/-- The rook's home file in `check_castling` and `castle`. -/
def rook_file (castling_style : SpecialMoveTag) : File :=
  if castling_style = SpecialMoveTag.LONG_CASTLING then File.A else File.H

/-- The loop of `check_castling` over `begin_iteration < end_iteration`:
`true` when some square makes it return early. -/
def castling_blocked (s : Chessboard) (rank : Nat) : Nat → Nat → Bool
  | _, 0 => false
  | begin_iteration, n + 1 =>
    let p : Position := ⟨begin_iteration, rank⟩
    if (piece_at s p).isSome || is_attacked s p then true
    else castling_blocked s rank (begin_iteration + 1) n

/-- The start of the loop of `check_castling`: `begin_iteration`. -/
def loop_begin (castling_style : SpecialMoveTag) : Nat :=
  if castling_style = SpecialMoveTag.LONG_CASTLING then File.B else File.F

/-- The number of squares the loop of `check_castling` visits:
`end_iteration - begin_iteration`. -/
def loop_count (castling_style : SpecialMoveTag) : Nat :=
  (if castling_style = SpecialMoveTag.LONG_CASTLING then File.E else File.H) - loop_begin castling_style

/-- The last two statements of `check_castling`: `push_back` on
`highlighted_moves()` and `insert` on `special_moves()`. -/
def castling_offered (s : Chessboard) (castling_style : SpecialMoveTag) (color : PieceColor) :
    Chessboard :=
  { s with
    highlighted_moves_ := s.highlighted_moves_ ++ [⟨castling_file castling_style, home_rank color⟩]
    special_moves_ :=
      Map.insert s.special_moves_ castling_style ⟨castling_file castling_style, home_rank color⟩ }

/-- `Chessboard::check_castling`. -/
def check_castling (s : Chessboard) (castling_style : SpecialMoveTag) (color : PieceColor) :
    Except Fault Chessboard :=
  match s.selected_piece_ with
  | none => Except.error Fault.null_deref
  | some sel =>
    if (s.piece sel).tag ≠ PieceTag.KING ∨ (s.piece sel).moved = true then Except.ok s
    else
      match piece_at s ⟨rook_file castling_style, home_rank color⟩ with
      | none => Except.error Fault.null_deref
      | some rook =>
        if (s.piece rook).moved = true then Except.ok s
        else if castling_blocked s (home_rank color) (loop_begin castling_style)
            (loop_count castling_style) = true then Except.ok s
        else Except.ok (castling_offered s castling_style color)

/-- `Chessboard::castle`, on the maps and the heap. -/
def castle (s : Chessboard) (castling_style : SpecialMoveTag) (color : PieceColor) :
    Except Fault Chessboard :=
  let rook_initial : Position := ⟨rook_file castling_style, home_rank color⟩
  let rook_destination : Position :=
    ⟨if castling_style = SpecialMoveTag.LONG_CASTLING then File.C else File.F, home_rank color⟩
  match Map.at? (s.pieces color) rook_initial with
  | none => Except.error Fault.out_of_range
  | some rook =>
    let pieces := Map.erase (Map.insert (s.pieces color) rook_destination rook) rook_initial
    match Map.at? pieces rook_destination with
    | none => Except.error Fault.out_of_range
    | some r =>
      Except.ok { with_pieces s color pieces with
        heap := s.heap.set r { deref s.heap r with position := rook_destination } }

/-- `Chessboard::reset_move_highlights`: besides repainting it resets
`selected_piece_`. -/
def reset_move_highlights (s : Chessboard) : Chessboard :=
  { s with selected_piece_ := none }

/-- The two assignments of `select_piece` after the lookup:
`selected_piece_ = piece` and `highlighted_moves_ = piece->legal_moves()`. -/
def with_selection (s : Chessboard) (sel : PieceId) : Chessboard :=
  { s with selected_piece_ := some sel, highlighted_moves_ := (s.piece sel).legal_moves }

/-- The body of the en-passant block of `select_piece`: `insert` on
`special_moves_` and `push_back` on `highlighted_moves_`. -/
def en_passant_offered (s : Chessboard) (pos : Position) : Chessboard :=
  { s with
    special_moves_ := Map.insert s.special_moves_ SpecialMoveTag.EN_PASSANT pos
    highlighted_moves_ := s.highlighted_moves_ ++ [pos] }

/-- The square `Position pos(last_move_.old_.file_, available_rank)` of the
en-passant block. -/
def en_passant_target (s : Chessboard) (sel : PieceId) : Position :=
  ⟨s.last_move_.old_.file_, if (s.piece sel).color = PieceColor.WHITE then 6 else 3⟩

/-- The en-passant block of `select_piece`. -/
def select_en_passant (R : PieceRules) (s : Chessboard) (sel : PieceId) : Chessboard :=
  match s.last_move_.moved_piece_ with
  | none => s
  | some last =>
    if (s.piece sel).tag = PieceTag.PAWN ∧
        R.check_en_passant s.last_move_.old_ s.last_move_.new_ (s.piece last) (s.piece sel) = true then
      en_passant_offered s (en_passant_target s sel)
    else s

/-- `Chessboard::select_piece`. -/
def select_piece (R : PieceRules) (s : Chessboard) (position : Position) (color : PieceColor) :
    Except Fault Chessboard :=
  let s0 := reset_move_highlights s
  match Map.at? (s0.pieces color) position with
  | none => Except.error Fault.out_of_range
  | some sel =>
    let s2 := select_en_passant R (with_selection s0 sel) sel
    match check_castling s2 SpecialMoveTag.LONG_CASTLING (s2.piece sel).color with
    | Except.error e => Except.error e
    | Except.ok s3 => check_castling s3 SpecialMoveTag.SHORT_CASTLING (s2.piece sel).color

/-- The rank of the pawn an en-passant capture removes: 5 in the white arm
of `move`, 4 in the black one. -/
def en_passant_rank (color : PieceColor) : Nat :=
  match color with
  | PieceColor.WHITE => 5
  | PieceColor.BLACK => 4

/-- The capture and special-move cascade of `move`.  The source writes it
once for a white mover and once for a black one; the two arms differ in the
maps (own and opponent's), in the en-passant rank and in the color handed to
`castle`. -/
def resolve_capture (s : Chessboard) (color : PieceColor) (destination : Position) :
    Except Fault Chessboard :=
  let opponent := s.pieces color.other
  if Map.count opponent destination > 0 then
    Except.ok (with_pieces s color.other (Map.erase opponent destination))
  else if Map.count s.special_moves_ SpecialMoveTag.EN_PASSANT > 0 ∧
      some destination = Map.at? s.special_moves_ SpecialMoveTag.EN_PASSANT then
    Except.ok (with_pieces s color.other
      (Map.erase opponent ⟨destination.file_, en_passant_rank color⟩))
  else if Map.count s.special_moves_ SpecialMoveTag.SHORT_CASTLING > 0 ∧
      some destination = Map.at? s.special_moves_ SpecialMoveTag.SHORT_CASTLING then
    castle s SpecialMoveTag.SHORT_CASTLING color
  else if Map.count s.special_moves_ SpecialMoveTag.LONG_CASTLING > 0 ∧
      some destination = Map.at? s.special_moves_ SpecialMoveTag.LONG_CASTLING then
    castle s SpecialMoveTag.LONG_CASTLING color
  else Except.ok s

/-- The first four statements of `move`: `last_move_` is filled in and
`piece->set_moved()` is called. -/
def record_move (s : Chessboard) (pc : PieceId) (destination : Position) : Chessboard :=
  { s with
    last_move_ := { old_ := (s.piece pc).position, new_ := destination, moved_piece_ := some pc }
    heap := s.heap.set pc { s.piece pc with moved := true } }

/-- The `erase(piece->position())` and `insert({destination, piece})` on the
mover's own map. -/
def relocate (s : Chessboard) (pc : PieceId) (destination : Position) : Chessboard :=
  with_pieces s (s.piece pc).color
    (Map.insert (Map.erase (s.pieces (s.piece pc).color) (s.piece pc).position) destination pc)

/-- The statements of `move` after the capture cascade: the turn passes to
the other color, `piece->set_position(destination)` and
`special_moves_.clear()`. -/
def settle (s : Chessboard) (pc : PieceId) (destination : Position) (color : PieceColor) :
    Chessboard :=
  { s with
    turn_ := color.other
    heap := s.heap.set pc { s.piece pc with position := destination }
    special_moves_ := [] }

/-- The end of `move`: `settle`, then `set_available_moves()`. -/
def finish_move (R : PieceRules) (s : Chessboard) (pc : PieceId) (destination : Position)
    (color : PieceColor) : Chessboard :=
  set_available_moves R (settle s pc destination color)

/-- The positions at which `Chessboard::at(position)`, that is
`squares_[position.rank_ - 1][position.file_]` on the 8 × 8 array `squares_`,
is in bounds: files A to H and ranks 1 to 8. -/
def on_board (position : Position) : Bool :=
  decide (position.file_ < 8) && (decide (1 ≤ position.rank_) && decide (position.rank_ ≤ 8))

/-- `Chessboard::move(piece, destination)` for a non-null `piece`.  After
`last_move_` is filled in, both arms start with
`at(piece->position())->setPixmap(blank_)` and
`at(destination)->setPixmap(...)`: the call faults there when one of the two
squares is off the board. -/
def move_piece (R : PieceRules) (s : Chessboard) (pc : PieceId) (destination : Position) :
    Except Fault Chessboard :=
  let s1 := record_move s pc destination
  let color := (s1.piece pc).color
  if (on_board (s1.piece pc).position && on_board destination) = true then
    match resolve_capture (relocate s1 pc destination) color destination with
    | Except.error e => Except.error e
    | Except.ok s3 => Except.ok (finish_move R s3 pc destination color)
  else Except.error Fault.out_of_bounds

/-- `Chessboard::move(destination)`: moves `selected_piece_`. -/
def move (R : PieceRules) (s : Chessboard) (destination : Position) : Except Fault Chessboard :=
  match s.selected_piece_ with
  | none => Except.error Fault.null_deref
  | some pc => move_piece R s pc destination

/-- The piece objects `std::make_shared<T>(position, color)` creates: not yet
moved, no cached moves. -/
def make_piece (tag : PieceTag) (position : Position) (color : PieceColor) : Piece :=
  { tag := tag, color := color, position := position, moved := false, legal_moves := [] }

/-- The piece kind the constructor puts on file `i` of ranks 1 and 8. -/
def back_rank_tag (i : Nat) : PieceTag :=
  if i = File.A ∨ i = File.H then PieceTag.ROOK
  else if i = File.B ∨ i = File.G then PieceTag.KNIGHT
  else if i = File.C ∨ i = File.F then PieceTag.BISHOP
  else if i = File.D then PieceTag.QUEEN
  else PieceTag.KING

/-- Allocation of one piece and `insert` of its pointer under its position. -/
def place (s : Chessboard) (p : Piece) : Chessboard :=
  match p.color with
  | PieceColor.WHITE =>
    { s with heap := s.heap ++ [p], white_pieces_ := Map.insert s.white_pieces_ p.position s.heap.length }
  | PieceColor.BLACK =>
    { s with heap := s.heap ++ [p], black_pieces_ := Map.insert s.black_pieces_ p.position s.heap.length }

/-- The body of the constructor's loop `for (int i = 0; i < 8; i++)`. -/
def setup_file (s : Chessboard) (i : Nat) : Chessboard :=
  let s1 := place s (make_piece PieceTag.PAWN ⟨i, 2⟩ PieceColor.WHITE)
  let s2 := place s1 (make_piece PieceTag.PAWN ⟨i, 7⟩ PieceColor.BLACK)
  let s3 := place s2 (make_piece (back_rank_tag i) ⟨i, 1⟩ PieceColor.WHITE)
  place s3 (make_piece (back_rank_tag i) ⟨i, 8⟩ PieceColor.BLACK)

/-- The board before the constructor's loop.  `turn_` gets its initial value in
`chessboard.h`, outside `src/`: it is the parameter `turn`.  `last_move_`
holds a null `moved_piece_`; its positions are not read while that is so. -/
def empty_board (turn : PieceColor) : Chessboard :=
  { heap := [], white_pieces_ := [], black_pieces_ := [], turn_ := turn,
    last_move_ := { old_ := ⟨0, 0⟩, new_ := ⟨0, 0⟩, moved_piece_ := none },
    special_moves_ := [], highlighted_moves_ := [], selected_piece_ := none }

/-- `Chessboard::Chessboard`: the 32 pieces, then `set_available_moves()`. -/
def construct (R : PieceRules) (turn : PieceColor) : Chessboard :=
  set_available_moves R ((List.range 8).foldl setup_file (empty_board turn))

end Chessboard

/-! ## The piece classes, after the specification -/

namespace Spec

/-- Modelled from the spec: whether a map holds a piece on `p` (occupancy,
§4.1). -/
def occupied (m : List (Position × Piece)) (p : Position) : Bool :=
  m.any (fun e => decide (e.1 = p))

/-- Modelled from the spec: the square `(file + df, rank + dr)` when it is on
the board, files A..H and ranks 1..8 (§3). -/
def shift (p : Position) (df dr : Int) : Option Position :=
  let f : Int := (p.file_ : Int) + df
  let r : Int := (p.rank_ : Int) + dr
  if 0 ≤ f ∧ f ≤ 7 ∧ 1 ≤ r ∧ r ≤ 8 then some ⟨f.toNat, r.toNat⟩ else none

/-- Modelled from the spec: knight and king take each offset that is on the
board and not occupied by a friendly piece (§4.1). -/
def step_moves (own : List (Position × Piece)) (p : Position) (offsets : List (Int × Int)) :
    List Position :=
  offsets.filterMap (fun o =>
    match shift p o.1 o.2 with
    | some q => if occupied own q then none else some q
    | none => none)

/-- Modelled from the spec: one ray of a bishop, rook or queen; it stops at
the first occupied square, included only when it holds an opponent piece
(§4.1). -/
def ray (own opp : List (Position × Piece)) (df dr : Int) : Nat → Position → List Position
  | 0, _ => []
  | n + 1, p =>
    match shift p df dr with
    | none => []
    | some q =>
      if occupied own q then []
      else if occupied opp q then [q]
      else q :: ray own opp df dr n q

/-- Modelled from the spec: the rays of a piece along the given directions. -/
def rays (own opp : List (Position × Piece)) (p : Position) (dirs : List (Int × Int)) :
    List Position :=
  dirs.flatMap (fun d => ray own opp d.1 d.2 8 p)

/-- Modelled from the spec: the 8 L-shaped offsets. -/
def knight_offsets : List (Int × Int) :=
  [(1, 2), (2, 1), (2, -1), (1, -2), (-1, -2), (-2, -1), (-2, 1), (-1, 2)]

/-- Modelled from the spec: the 8 adjacent offsets. -/
def king_offsets : List (Int × Int) :=
  [(0, 1), (1, 1), (1, 0), (1, -1), (0, -1), (-1, -1), (-1, 0), (-1, 1)]

/-- Modelled from the spec: the directions along files and ranks. -/
def rook_dirs : List (Int × Int) := [(0, 1), (1, 0), (0, -1), (-1, 0)]

/-- Modelled from the spec: the diagonal directions. -/
def bishop_dirs : List (Int × Int) := [(1, 1), (1, -1), (-1, -1), (-1, 1)]

/-- Modelled from the spec: a pawn goes one square forward if it is empty, two
squares forward from the starting rank if both squares are empty, and onto a
diagonal only when an opponent piece stands there (§4.1). -/
def pawn_moves (own opp : List (Position × Piece)) (p : Position) (color : PieceColor) :
    List Position :=
  let dir : Int := if color = PieceColor.WHITE then 1 else -1
  let start : Nat := if color = PieceColor.WHITE then 2 else 7
  let free (q : Position) : Bool := !(occupied own q) && !(occupied opp q)
  let forward : List Position :=
    match shift p 0 dir with
    | none => []
    | some q1 =>
      if free q1 then
        q1 :: (match shift p 0 (2 * dir) with
          | none => []
          | some q2 => if p.rank_ = start ∧ free q2 = true then [q2] else [])
      else []
  let captures : List Position :=
    ([(-1, dir), (1, dir)] : List (Int × Int)).filterMap (fun o =>
      match shift p o.1 o.2 with
      | some q => if occupied opp q then some q else none
      | none => none)
  forward ++ captures

/-- Modelled from the spec: `Piece::available_moves` of the six piece classes,
which are not under `src/`; written after §4.1 (Move Generator).  The own and
opponent sets are chosen by the piece's color. -/
def available_moves (pc : Piece) (white black : List (Position × Piece)) : List Position :=
  let own := if pc.color = PieceColor.WHITE then white else black
  let opp := if pc.color = PieceColor.WHITE then black else white
  match pc.tag with
  | PieceTag.PAWN => pawn_moves own opp pc.position pc.color
  | PieceTag.KNIGHT => step_moves own pc.position knight_offsets
  | PieceTag.BISHOP => rays own opp pc.position bishop_dirs
  | PieceTag.ROOK => rays own opp pc.position rook_dirs
  | PieceTag.QUEEN => rays own opp pc.position (rook_dirs ++ bishop_dirs)
  | PieceTag.KING => step_moves own pc.position king_offsets

/-- Modelled from the spec: `Pawn::check_en_passant`, which is not under
`src/`; written after §4.3: the last move was a two-square pawn advance by
the opponent that landed on the selected pawn's rank, on an adjacent file. -/
def check_en_passant (old_ new_ : Position) (moved_piece piece : Piece) : Bool :=
  decide (moved_piece.tag = PieceTag.PAWN ∧ moved_piece.color ≠ piece.color ∧
    old_.file_ = new_.file_ ∧ (old_.rank_ = new_.rank_ + 2 ∨ new_.rank_ = old_.rank_ + 2) ∧
    new_.rank_ = piece.position.rank_ ∧
    (new_.file_ = piece.position.file_ + 1 ∨ piece.position.file_ = new_.file_ + 1))

end Spec

/-- Modelled from the spec: the piece classes as §4.1 and §4.3 describe
them. -/
def specRules : PieceRules :=
  { available_moves := Spec.available_moves, check_en_passant := Spec.check_en_passant }

/-! ## Call sequences -/

/-- A call of the public interface. -/
inductive Call where
  | select (position : Position) (color : PieceColor)
  | move (destination : Position)
deriving DecidableEq, Repr

/-- One call on a board. -/
def Chessboard.step (R : PieceRules) (s : Chessboard) : Call → Except Fault Chessboard
  | Call.select position color => Chessboard.select_piece R s position color
  | Call.move destination => Chessboard.move R s destination

/-- A sequence of calls, ended by the first fault. -/
def Chessboard.run (R : PieceRules) : Chessboard → List Call → Except Fault Chessboard
  | s, [] => Except.ok s
  | s, c :: cs =>
    match Chessboard.step R s c with
    | Except.error e => Except.error e
    | Except.ok s1 => Chessboard.run R s1 cs

/-- The select-then-move pair of one ply. -/
def ply (color : PieceColor) (a b : Position) : List Call :=
  [Call.select a color, Call.move b]

/-! ## Predicates, invariants and boards used in the statements -/

/-- The fields of a piece that only `move` and `castle` write. -/
def same_core (p q : Piece) : Prop :=
  p.tag = q.tag ∧ p.color = q.color ∧ p.position = q.position ∧ p.moved = q.moved

/-- The representation invariant of a board: every pointer in a map or in
`selected_piece_` points to an allocated piece, a map holds pieces of its own
color only, every piece is stored under its own position, and a registered
castling target lies on the king's target file. -/
structure WellFormed (s : Chessboard) : Prop where
  valid : ∀ c, ∀ e ∈ s.pieces c, e.2 < s.heap.length
  sel_valid : ∀ pc, s.selected_piece_ = some pc → pc < s.heap.length
  color : ∀ c, ∀ e ∈ s.pieces c, (s.piece e.2).color = c
  pos : ∀ c, ∀ e ∈ s.pieces c, (s.piece e.2).position = e.1
  special : ∀ e ∈ s.special_moves_, e.1 ≠ SpecialMoveTag.EN_PASSANT →
    e.2.file_ = Chessboard.castling_file e.1

/-- The state of the maps while `move` runs: the moving piece `pc` of color
`c` may already be stored under `d`, its `position` still being the old
one. -/
structure Pending (s : Chessboard) (pc : PieceId) (d : Position) (c : PieceColor) : Prop where
  valid : ∀ c2, ∀ e ∈ s.pieces c2, e.2 < s.heap.length
  pc_valid : pc < s.heap.length
  pc_color : (s.piece pc).color = c
  color : ∀ c2, ∀ e ∈ s.pieces c2, (s.piece e.2).color = c2
  pos : ∀ c2, ∀ e ∈ s.pieces c2,
    (e.2 = pc ∧ e.1 = d) ∨ (e.2 ≠ pc ∧ (s.piece e.2).position = e.1)

namespace Chessboard

/-- The rook's destination in `castle`. -/
def rook_destination (style : SpecialMoveTag) (c : PieceColor) : Position :=
  ⟨if style = SpecialMoveTag.LONG_CASTLING then File.C else File.F, home_rank c⟩

/-- The rook's home square in `castle`. -/
def rook_initial (style : SpecialMoveTag) (c : PieceColor) : Position :=
  ⟨rook_file style, home_rank c⟩

end Chessboard

/-- The board a call sequence leaves, the starting board when it faults. -/
def Chessboard.after (R : PieceRules) (s : Chessboard) (calls : List Call) : Chessboard :=
  match Chessboard.run R s calls with
  | Except.ok s1 => s1
  | Except.error _ => s

/-- The opening 1. e4 d5 2. exd5 as calls. -/
def opening_calls : List Call :=
  ply PieceColor.WHITE ⟨File.E, 2⟩ ⟨File.E, 4⟩ ++ ply PieceColor.BLACK ⟨File.D, 7⟩ ⟨File.D, 5⟩ ++
    ply PieceColor.WHITE ⟨File.E, 4⟩ ⟨File.D, 5⟩

/-- No position is a key of both piece maps. -/
def DisjointKeys (s : Chessboard) : Prop :=
  ∀ p, ¬ (p ∈ Map.keys s.white_pieces_ ∧ p ∈ Map.keys s.black_pieces_)

/-- Every `select_piece` call of the sequence finds `special_moves_` empty:
no special move registered by an earlier selection is pending. -/
def Chessboard.selects_fresh (R : PieceRules) : Chessboard → List Call → Bool
  | _, [] => true
  | s, c :: cs =>
    (match c with
      | Call.select _ _ => decide (s.special_moves_ = [])
      | Call.move _ => true) &&
    (match Chessboard.step R s c with
      | Except.ok s1 => Chessboard.selects_fresh R s1 cs
      | Except.error _ => true)

/-- The invariant behind disjointness: the key sets are disjoint, and a
registered castling target was registered for the selected piece, the rook's
destination of that castling being free. -/
structure CastlingReady (s : Chessboard) : Prop where
  disjoint : DisjointKeys s
  ready : ∀ style t, style ≠ SpecialMoveTag.EN_PASSANT →
    Map.at? s.special_moves_ style = some t →
    ∃ sel, s.selected_piece_ = some sel ∧
      ∀ c2, Chessboard.rook_destination style (s.piece sel).color ∉ Map.keys (s.pieces c2)

/-- The board at the start of a game: the constructor's setup with the piece
classes of the specification, White to move. -/
def Chessboard.start : Chessboard :=
  Chessboard.construct specRules PieceColor.WHITE

/-- White clears f1 and g1 (the bishop going to f8), the white king is
selected, then a black pawn is selected and sent to g1. -/
def stale_castling_calls : List Call :=
  ply PieceColor.WHITE ⟨File.G, 1⟩ ⟨File.F, 3⟩ ++ ply PieceColor.WHITE ⟨File.F, 1⟩ ⟨File.F, 8⟩ ++
    [Call.select ⟨File.E, 1⟩ PieceColor.WHITE, Call.select ⟨File.H, 7⟩ PieceColor.BLACK,
      Call.move ⟨File.G, 1⟩]

/-- Scenario 5 of the specification: the knight on b1 is selected at the start
of a game. -/
def knight_selected : Chessboard :=
  Chessboard.after specRules Chessboard.start [Call.select ⟨File.B, 1⟩ PieceColor.WHITE]

/-- The game 1. Nc3 Nc6 2. d4 d5 3. Bf4 Bf5 4. Qd2 Qd7, then the white king is
selected. -/
def queenside_calls : List Call :=
  ply PieceColor.WHITE ⟨File.B, 1⟩ ⟨File.C, 3⟩ ++ ply PieceColor.BLACK ⟨File.B, 8⟩ ⟨File.C, 6⟩ ++
    ply PieceColor.WHITE ⟨File.D, 2⟩ ⟨File.D, 4⟩ ++ ply PieceColor.BLACK ⟨File.D, 7⟩ ⟨File.D, 5⟩ ++
    ply PieceColor.WHITE ⟨File.C, 1⟩ ⟨File.F, 4⟩ ++ ply PieceColor.BLACK ⟨File.C, 8⟩ ⟨File.F, 5⟩ ++
    ply PieceColor.WHITE ⟨File.D, 1⟩ ⟨File.D, 2⟩ ++ ply PieceColor.BLACK ⟨File.D, 8⟩ ⟨File.D, 7⟩ ++
    [Call.select ⟨File.E, 1⟩ PieceColor.WHITE]

/-- The game 1. Nf3 a6 2. e3 b6 3. Be2 c6: f1 and g1 are empty. -/
def kingside_calls : List Call :=
  ply PieceColor.WHITE ⟨File.G, 1⟩ ⟨File.F, 3⟩ ++ ply PieceColor.BLACK ⟨File.A, 7⟩ ⟨File.A, 6⟩ ++
    ply PieceColor.WHITE ⟨File.E, 2⟩ ⟨File.E, 3⟩ ++ ply PieceColor.BLACK ⟨File.B, 7⟩ ⟨File.B, 6⟩ ++
    ply PieceColor.WHITE ⟨File.F, 1⟩ ⟨File.E, 2⟩ ++ ply PieceColor.BLACK ⟨File.C, 7⟩ ⟨File.C, 6⟩

/-- The game `kingside_calls` continued by 4. a4 d6 5. Ra3 e6: the rook has
left a1. -/
def rook_lift_calls : List Call :=
  kingside_calls ++
    ply PieceColor.WHITE ⟨File.A, 2⟩ ⟨File.A, 4⟩ ++ ply PieceColor.BLACK ⟨File.D, 7⟩ ⟨File.D, 6⟩ ++
    ply PieceColor.WHITE ⟨File.A, 1⟩ ⟨File.A, 3⟩ ++ ply PieceColor.BLACK ⟨File.E, 7⟩ ⟨File.E, 6⟩

/-- The game 1. Nc3 Nc6 2. d4 Na5 3. Bf4 Nc4 4. Qd2 Na3, then the white king
is selected: b1, c1 and d1 are empty and the black knight on a3 attacks
b1. -/
def knight_a3_calls : List Call :=
  ply PieceColor.WHITE ⟨File.B, 1⟩ ⟨File.C, 3⟩ ++ ply PieceColor.BLACK ⟨File.B, 8⟩ ⟨File.C, 6⟩ ++
    ply PieceColor.WHITE ⟨File.D, 2⟩ ⟨File.D, 4⟩ ++ ply PieceColor.BLACK ⟨File.C, 6⟩ ⟨File.A, 5⟩ ++
    ply PieceColor.WHITE ⟨File.C, 1⟩ ⟨File.F, 4⟩ ++ ply PieceColor.BLACK ⟨File.A, 5⟩ ⟨File.C, 4⟩ ++
    ply PieceColor.WHITE ⟨File.D, 1⟩ ⟨File.D, 2⟩ ++ ply PieceColor.BLACK ⟨File.C, 4⟩ ⟨File.A, 3⟩ ++
    [Call.select ⟨File.E, 1⟩ PieceColor.WHITE]

/-- The files strictly between the king's file E and the rook's file: B, C, D
on the queen's side, F, G on the king's side. -/
def between_files (style : SpecialMoveTag) : List Nat :=
  if style = SpecialMoveTag.LONG_CASTLING then [File.B, File.C, File.D] else [File.F, File.G]

/-- No square between king and rook is occupied or reported attacked. -/
def CastlingFree (s : Chessboard) (style : SpecialMoveTag) (c : PieceColor) : Prop :=
  ∀ f ∈ between_files style,
    Chessboard.piece_at s ⟨f, Chessboard.home_rank c⟩ = none ∧
      Chessboard.is_attacked s ⟨f, Chessboard.home_rank c⟩ = false

/-- Scenario 4 of the specification: the white king is selected at the start
of a game, the bishop standing on f1. -/
def king_selected_at_start : Chessboard :=
  Chessboard.after specRules Chessboard.start [Call.select ⟨File.E, 1⟩ PieceColor.WHITE]

/-- The board inside `select_piece` when the white king has just become the
selected piece after `kingside_calls`. -/
def king_just_selected : Chessboard :=
  { Chessboard.after specRules Chessboard.start kingside_calls with selected_piece_ := some 18 }

/-- Scenario 2 of the specification: a black pawn stands on d4 and White has
just played e2-e4 (1... d5 2. a3 d4 3. e4, Black having moved first). -/
def en_passant_board : Chessboard :=
  Chessboard.after specRules Chessboard.start
    (ply PieceColor.BLACK ⟨File.D, 7⟩ ⟨File.D, 5⟩ ++ ply PieceColor.WHITE ⟨File.A, 2⟩ ⟨File.A, 3⟩ ++
      ply PieceColor.BLACK ⟨File.D, 5⟩ ⟨File.D, 4⟩ ++ ply PieceColor.WHITE ⟨File.E, 2⟩ ⟨File.E, 4⟩)

namespace Chessboard

/-- The board `castle` leaves, as a function of the rook it found. -/
def castled (s : Chessboard) (style : SpecialMoveTag) (c : PieceColor) (rook : PieceId) :
    Chessboard :=
  { with_pieces s c (Map.erase (Map.insert (s.pieces c) (rook_destination style c) rook)
      (rook_initial style c)) with
    heap := s.heap.set rook { deref s.heap rook with position := rook_destination style c } }

end Chessboard

/-- Every `select_piece` call of the sequence is made for the side to move:
its `color` argument is `turn_`. -/
def Chessboard.selects_side_to_move (R : PieceRules) : Chessboard → List Call → Bool
  | _, [] => true
  | s, c :: cs =>
    (match c with
      | Call.select _ color => decide (color = s.turn_)
      | Call.move _ => true) &&
    (match Chessboard.step R s c with
      | Except.ok s1 => Chessboard.selects_side_to_move R s1 cs
      | Except.error _ => true)

/-- The invariant behind disjointness when the side to move selects: the board
is well formed, the key sets are disjoint, and while a castling target is
registered the selected piece belongs to the side to move, the rook's
destination of that castling for the side to move being free. -/
structure TurnReady (s : Chessboard) : Prop where
  wf : WellFormed s
  disjoint : DisjointKeys s
  ready : ∀ e ∈ s.special_moves_, e.1 ≠ SpecialMoveTag.EN_PASSANT →
    (∃ sel, s.selected_piece_ = some sel ∧ (s.piece sel).color = s.turn_) ∧
      ∀ c2, Chessboard.rook_destination e.1 s.turn_ ∉ Map.keys (s.pieces c2)

/-- The game `kingside_calls`, after which White selects the king, then the
pawn on a2, and plays a3. -/
def reselect_calls : List Call :=
  kingside_calls ++ [Call.select ⟨File.E, 1⟩ PieceColor.WHITE,
    Call.select ⟨File.A, 2⟩ PieceColor.WHITE, Call.move ⟨File.A, 3⟩]

/-- The board `move(piece, destination)` leaves, the board itself when the
call faults. -/
def Chessboard.moved (R : PieceRules) (s : Chessboard) (pc : PieceId) (d : Position) :
    Chessboard :=
  match Chessboard.move_piece R s pc d with
  | Except.ok s1 => s1
  | Except.error _ => s

/-- The board after 1. e4 d5: the white pawn on e4 (piece 16) can take the
black pawn on d5. -/
def center_pawns_board : Chessboard :=
  Chessboard.after specRules Chessboard.start
    (ply PieceColor.WHITE ⟨File.E, 2⟩ ⟨File.E, 4⟩ ++ ply PieceColor.BLACK ⟨File.D, 7⟩ ⟨File.D, 5⟩)

/-- The order of the back rank in the words of the specification: Rook,
Knight, Bishop, Queen, King, Bishop, Knight, Rook on files A through H. -/
def Spec.back_rank_order : List PieceTag :=
  [PieceTag.ROOK, PieceTag.KNIGHT, PieceTag.BISHOP, PieceTag.QUEEN, PieceTag.KING,
    PieceTag.BISHOP, PieceTag.KNIGHT, PieceTag.ROOK]

namespace Chessboard

/-- The board the constructor's loop leaves, before `set_available_moves()`. -/
def setup (turn : PieceColor) : Chessboard :=
  (List.range 8).foldl setup_file (empty_board turn)

end Chessboard

/-- The game 1. h4 a5 2. Rh3 Ra6: both h1 and a8 are empty, the kings have
not moved. -/
def rooks_lifted_calls : List Call :=
  ply PieceColor.WHITE ⟨File.H, 2⟩ ⟨File.H, 4⟩ ++ ply PieceColor.BLACK ⟨File.A, 7⟩ ⟨File.A, 5⟩ ++
    ply PieceColor.WHITE ⟨File.H, 1⟩ ⟨File.H, 3⟩ ++ ply PieceColor.BLACK ⟨File.A, 8⟩ ⟨File.A, 6⟩

/-- The board inside `select_piece` when the black king (piece 19) has just
become the selected piece after `rooks_lifted_calls`. -/
def black_king_just_selected : Chessboard :=
  Chessboard.with_selection (Chessboard.after specRules Chessboard.start rooks_lifted_calls) 19

/-- After `kingside_calls` the white king is selected, then the rook on h1. -/
def king_then_rook_calls : List Call :=
  kingside_calls ++ [Call.select ⟨File.E, 1⟩ PieceColor.WHITE,
    Call.select ⟨File.H, 1⟩ PieceColor.WHITE]

/-- Every key of both maps is a square of the board. -/
def KeysOnBoard (s : Chessboard) : Prop :=
  ∀ c, ∀ p ∈ Map.keys (s.pieces c), Chessboard.on_board p = true

/-! ## Lemmas on the map members -/

namespace Map

variable {κ ν : Type} [DecidableEq κ]

theorem mem_of_at? {m : List (κ × ν)} {k : κ} {v : ν} (h : at? m k = some v) : (k, v) ∈ m := by
  induction m with
  | nil => simp [at?] at h
  | cons e m ih =>
    unfold at? at h
    split at h
    · rename_i hk
      cases h
      cases e
      simp at hk
      simp [hk]
    · exact List.mem_cons_of_mem _ (ih h)

theorem at?_none_iff {m : List (κ × ν)} {k : κ} : at? m k = none ↔ k ∉ keys m := by
  induction m with
  | nil => simp [at?, keys]
  | cons e m ih =>
    unfold at?
    by_cases hk : e.1 = k
    · simp [hk, keys]
    · simp only [hk, if_false, ih]
      simp [keys]
      intro _
      exact fun h => hk h.symm

theorem at?_some_of_mem_keys {m : List (κ × ν)} {k : κ} (h : k ∈ keys m) : ∃ v, at? m k = some v := by
  cases hv : at? m k with
  | none => exact absurd h (at?_none_iff.mp hv)
  | some v => exact ⟨v, rfl⟩

theorem count_pos_iff {m : List (κ × ν)} {k : κ} : count m k > 0 ↔ k ∈ keys m := by
  unfold count
  cases hv : at? m k with
  | none => simpa using at?_none_iff.mp hv
  | some v =>
    simp
    have := mem_of_at? hv
    exact List.mem_map.mpr ⟨(k, v), this, rfl⟩

theorem count_eq_zero_iff {m : List (κ × ν)} {k : κ} : ¬ count m k > 0 ↔ k ∉ keys m :=
  not_congr count_pos_iff

omit [DecidableEq κ] in
theorem mem_keys_of_mem {m : List (κ × ν)} {e : κ × ν} (h : e ∈ m) : e.1 ∈ keys m :=
  List.mem_map.mpr ⟨e, h, rfl⟩

theorem mem_erase {m : List (κ × ν)} {k : κ} {e : κ × ν} : e ∈ erase m k ↔ e ∈ m ∧ e.1 ≠ k := by
  simp [erase, List.mem_filter]

theorem mem_keys_erase {m : List (κ × ν)} {k q : κ} : q ∈ keys (erase m k) ↔ q ∈ keys m ∧ q ≠ k := by
  constructor
  · intro h
    obtain ⟨e, he, rfl⟩ := List.mem_map.mp h
    have := mem_erase.mp he
    exact ⟨mem_keys_of_mem this.1, this.2⟩
  · rintro ⟨h, hq⟩
    obtain ⟨e, he, rfl⟩ := List.mem_map.mp h
    exact mem_keys_of_mem (mem_erase.mpr ⟨he, hq⟩)

theorem mem_insert {m : List (κ × ν)} {k : κ} {v : ν} {e : κ × ν} (h : e ∈ insert m k v) :
    e ∈ m ∨ (e = (k, v) ∧ k ∉ keys m) := by
  unfold insert at h
  cases hv : at? m k with
  | some w => rw [hv] at h; exact Or.inl h
  | none =>
    rw [hv] at h
    rcases List.mem_append.mp h with h | h
    · exact Or.inl h
    · exact Or.inr ⟨by simpa using h, at?_none_iff.mp hv⟩

theorem mem_insert_of_mem {m : List (κ × ν)} {k : κ} {v : ν} {e : κ × ν} (h : e ∈ m) :
    e ∈ insert m k v := by
  unfold insert
  cases at? m k with
  | some w => exact h
  | none => exact List.mem_append.mpr (Or.inl h)

theorem mem_keys_insert {m : List (κ × ν)} {k q : κ} {v : ν} :
    q ∈ keys (insert m k v) ↔ q ∈ keys m ∨ q = k := by
  constructor
  · intro h
    obtain ⟨e, he, rfl⟩ := List.mem_map.mp h
    rcases mem_insert he with h | ⟨h, _⟩
    · exact Or.inl (mem_keys_of_mem h)
    · exact Or.inr (by rw [h])
  · rintro (h | rfl)
    · obtain ⟨e, he, rfl⟩ := List.mem_map.mp h
      exact mem_keys_of_mem (mem_insert_of_mem he)
    · unfold insert
      cases hv : at? m q with
      | some w => exact mem_keys_of_mem (mem_of_at? hv)
      | none => simp [keys]

theorem at?_erase_of_ne {m : List (κ × ν)} {k q : κ} (h : q ≠ k) : at? (erase m k) q = at? m q := by
  induction m with
  | nil => rfl
  | cons e m ih =>
    by_cases he : e.1 = k
    · have : erase (e :: m) k = erase m k := by simp [erase, he]
      rw [this, ih]
      have hq : ¬ e.1 = q := fun h2 => h (h2 ▸ he)
      simp [at?, hq]
    · have : erase (e :: m) k = e :: erase m k := by simp [erase, he]
      rw [this]
      unfold at?
      rw [ih]

theorem at?_append_of_not_mem {m : List (κ × ν)} {k : κ} {v : ν} (h : k ∉ keys m) :
    at? (m ++ [(k, v)]) k = some v := by
  induction m with
  | nil => simp [at?]
  | cons e m ih =>
    have hk : ¬ e.1 = k := fun h2 => h (by simp [keys, ← h2])
    have hm : k ∉ keys m := fun h2 => h (by simp [keys] at h2 ⊢; exact Or.inr h2)
    simp only [List.cons_append, at?, hk, if_false]
    exact ih hm

theorem at?_append_of_ne {m : List (κ × ν)} {k q : κ} {v : ν} (h : q ≠ k) :
    at? (m ++ [(k, v)]) q = at? m q := by
  induction m with
  | nil => simp [at?, Ne.symm h]
  | cons e m ih =>
    show (if e.1 = q then some e.2 else at? (m ++ [(k, v)]) q) = if e.1 = q then some e.2 else at? m q
    rw [ih]

theorem at?_insert_self {m : List (κ × ν)} {k : κ} {v : ν} (h : k ∉ keys m) :
    at? (insert m k v) k = some v := by
  unfold insert
  rw [at?_none_iff.mpr h]
  exact at?_append_of_not_mem h

theorem at?_insert_of_unique {m : List (κ × ν)} {k : κ} {v : ν}
    (h : ∀ w, at? m k = some w → w = v) : at? (insert m k v) k = some v := by
  cases hm : at? m k with
  | none => exact at?_insert_self (at?_none_iff.mp hm)
  | some w =>
    unfold insert
    rw [hm]
    simp only
    rw [hm, h w hm]

theorem at?_insert_of_ne {m : List (κ × ν)} {k q : κ} {v : ν} (h : q ≠ k) :
    at? (insert m k v) q = at? m q := by
  unfold insert
  cases at? m k with
  | some w => rfl
  | none => exact at?_append_of_ne h

end Map

/-! ## Lemmas on the heap and on `set_available_moves` -/

theorem deref_set (h : List Piece) (i j : Nat) (p : Piece) :
    deref (h.set i p) j = if i = j ∧ i < h.length then p else deref h j := by
  unfold deref
  rw [List.getD_eq_getElem?_getD, List.getD_eq_getElem?_getD, List.getElem?_set]
  by_cases hij : i = j
  · subst hij
    by_cases hl : i < h.length
    · simp [hl]
    · have : h[i]? = none := List.getElem?_eq_none (Nat.le_of_not_lt hl)
      simp [hl, this]
  · simp [hij]

theorem deref_set_self {h : List Piece} {i : Nat} (p : Piece) (hi : i < h.length) :
    deref (h.set i p) i = p := by
  rw [deref_set, if_pos ⟨rfl, hi⟩]

theorem deref_set_ne {h : List Piece} {i j : Nat} (p : Piece) (hij : i ≠ j) :
    deref (h.set i p) j = deref h j := by
  rw [deref_set, if_neg (fun hc => hij hc.1)]

theorem same_core_refl (p : Piece) : same_core p p := ⟨rfl, rfl, rfl, rfl⟩

theorem same_core_trans {p q r : Piece} (h1 : same_core p q) (h2 : same_core q r) : same_core p r :=
  ⟨h1.1.trans h2.1, h1.2.1.trans h2.2.1, h1.2.2.1.trans h2.2.2.1, h1.2.2.2.trans h2.2.2.2⟩

namespace Chessboard

theorem refresh_length (R : PieceRules) (w b : PieceMap) (h : List Piece) (id : PieceId) :
    (refresh R w b h id).length = h.length := by
  simp [refresh]

theorem refresh_core (R : PieceRules) (w b : PieceMap) (h : List Piece) (id j : PieceId) :
    same_core (deref (refresh R w b h id) j) (deref h j) := by
  unfold refresh
  simp only [deref_set, List.length_set]
  by_cases hc : id = j ∧ id < h.length
  · obtain ⟨rfl, hl⟩ := hc
    simp [hl, same_core]
  · simp [hc, same_core]

theorem foldl_refresh_length (R : PieceRules) (w b : PieceMap) (m : PieceMap) (h : List Piece) :
    (m.foldl (fun h pair => refresh R w b h pair.2) h).length = h.length := by
  induction m generalizing h with
  | nil => rfl
  | cons e m ih => simp only [List.foldl_cons]; rw [ih, refresh_length]

theorem foldl_refresh_core (R : PieceRules) (w b : PieceMap) (m : PieceMap) (h : List Piece)
    (j : PieceId) :
    same_core (deref (m.foldl (fun h pair => refresh R w b h pair.2) h) j) (deref h j) := by
  induction m generalizing h with
  | nil => exact same_core_refl _
  | cons e m ih =>
    simp only [List.foldl_cons]
    exact same_core_trans (ih _) (refresh_core R w b h e.2 j)

theorem set_available_moves_core (R : PieceRules) (s : Chessboard) (j : PieceId) :
    same_core ((set_available_moves R s).piece j) (s.piece j) := by
  unfold set_available_moves piece
  exact same_core_trans (foldl_refresh_core R _ _ _ _ j) (foldl_refresh_core R _ _ _ _ j)

theorem set_available_moves_length (R : PieceRules) (s : Chessboard) :
    (set_available_moves R s).heap.length = s.heap.length := by
  unfold set_available_moves
  simp only [foldl_refresh_length]

@[simp] theorem set_available_moves_white (R : PieceRules) (s : Chessboard) :
    (set_available_moves R s).white_pieces_ = s.white_pieces_ := rfl

@[simp] theorem set_available_moves_black (R : PieceRules) (s : Chessboard) :
    (set_available_moves R s).black_pieces_ = s.black_pieces_ := rfl

@[simp] theorem set_available_moves_turn (R : PieceRules) (s : Chessboard) :
    (set_available_moves R s).turn_ = s.turn_ := rfl

@[simp] theorem set_available_moves_last (R : PieceRules) (s : Chessboard) :
    (set_available_moves R s).last_move_ = s.last_move_ := rfl

@[simp] theorem set_available_moves_special (R : PieceRules) (s : Chessboard) :
    (set_available_moves R s).special_moves_ = s.special_moves_ := rfl

@[simp] theorem set_available_moves_highlighted (R : PieceRules) (s : Chessboard) :
    (set_available_moves R s).highlighted_moves_ = s.highlighted_moves_ := rfl

@[simp] theorem set_available_moves_selected (R : PieceRules) (s : Chessboard) :
    (set_available_moves R s).selected_piece_ = s.selected_piece_ := rfl

theorem piece_at_none_iff (s : Chessboard) (p : Position) :
    piece_at s p = none ↔ p ∉ Map.keys s.white_pieces_ ∧ p ∉ Map.keys s.black_pieces_ := by
  unfold piece_at
  by_cases hw : Map.count s.white_pieces_ p > 0
  · have hk := Map.count_pos_iff.mp hw
    obtain ⟨v, hv⟩ := Map.at?_some_of_mem_keys hk
    simp [hw, hv, hk]
  · have hk := Map.count_eq_zero_iff.mp hw
    by_cases hb : Map.count s.black_pieces_ p > 0
    · have hk2 := Map.count_pos_iff.mp hb
      obtain ⟨v, hv⟩ := Map.at?_some_of_mem_keys hk2
      simp [hw, hb, hv, hk2]
    · have hk2 := Map.count_eq_zero_iff.mp hb
      simp [hw, hb, hk, hk2]

end Chessboard

/-! ## Frame lemmas for the operations -/

namespace Chessboard

theorem other_ne (c : PieceColor) : c.other ≠ c := by cases c <;> decide

theorem pieces_with_pieces_same (s : Chessboard) (c : PieceColor) (m : PieceMap) :
    (with_pieces s c m).pieces c = m := by
  cases c <;> rfl

theorem pieces_with_pieces_other (s : Chessboard) (c c2 : PieceColor) (m : PieceMap) (h : c2 ≠ c) :
    (with_pieces s c m).pieces c2 = s.pieces c2 := by
  cases c <;> cases c2 <;> first | rfl | exact absurd rfl h

@[simp] theorem with_pieces_heap (s : Chessboard) (c : PieceColor) (m : PieceMap) :
    (with_pieces s c m).heap = s.heap := by cases c <;> rfl

@[simp] theorem with_pieces_special (s : Chessboard) (c : PieceColor) (m : PieceMap) :
    (with_pieces s c m).special_moves_ = s.special_moves_ := by cases c <;> rfl

@[simp] theorem with_pieces_selected (s : Chessboard) (c : PieceColor) (m : PieceMap) :
    (with_pieces s c m).selected_piece_ = s.selected_piece_ := by cases c <;> rfl

@[simp] theorem with_pieces_last (s : Chessboard) (c : PieceColor) (m : PieceMap) :
    (with_pieces s c m).last_move_ = s.last_move_ := by cases c <;> rfl

@[simp] theorem with_pieces_turn (s : Chessboard) (c : PieceColor) (m : PieceMap) :
    (with_pieces s c m).turn_ = s.turn_ := by cases c <;> rfl

@[simp] theorem with_pieces_highlighted (s : Chessboard) (c : PieceColor) (m : PieceMap) :
    (with_pieces s c m).highlighted_moves_ = s.highlighted_moves_ := by cases c <;> rfl

theorem castling_blocked_succ (s : Chessboard) (rank b n : Nat) :
    castling_blocked s rank b (n + 1) =
      if ((piece_at s ⟨b, rank⟩).isSome || is_attacked s ⟨b, rank⟩) = true then true
      else castling_blocked s rank (b + 1) n := rfl

/-- The squares the loop of `check_castling` visits. -/
theorem castling_blocked_iff (s : Chessboard) (rank : Nat) (b n : Nat) :
    castling_blocked s rank b n = true ↔
      ∃ f, b ≤ f ∧ f < b + n ∧ (piece_at s ⟨f, rank⟩ ≠ none ∨ is_attacked s ⟨f, rank⟩ = true) := by
  induction n generalizing b with
  | zero =>
    constructor
    · intro h; simp [castling_blocked] at h
    · rintro ⟨f, h1, h2, _⟩; omega
  | succ n ih =>
    rw [castling_blocked_succ]
    by_cases hb : ((piece_at s ⟨b, rank⟩).isSome || is_attacked s ⟨b, rank⟩) = true
    · rw [if_pos hb]
      refine ⟨fun _ => ⟨b, le_refl _, by omega, ?_⟩, fun _ => rfl⟩
      rcases Bool.or_eq_true_iff.mp hb with h | h
      · left
        intro hn
        rw [hn] at h
        simp at h
      · exact Or.inr h
    · rw [if_neg hb, ih]
      constructor
      · rintro ⟨f, h1, h2, h3⟩
        exact ⟨f, by omega, by omega, h3⟩
      · rintro ⟨f, h1, h2, h3⟩
        by_cases hf : f = b
        · subst hf
          exfalso
          apply hb
          rcases h3 with h3 | h3
          · cases hp : piece_at s ⟨f, rank⟩ with
            | none => exact absurd hp h3
            | some v => rfl
          · simp [h3]
        · exact ⟨f, by omega, by omega, h3⟩

theorem check_castling_not_king {s : Chessboard} {style : SpecialMoveTag} {c : PieceColor}
    {sel : PieceId} (hsel : s.selected_piece_ = some sel)
    (hk : (s.piece sel).tag ≠ PieceTag.KING ∨ (s.piece sel).moved = true) :
    check_castling s style c = Except.ok s := by
  unfold check_castling
  split
  · rename_i h0
    rw [hsel] at h0
    cases h0
  · rename_i sel2 h0
    rw [hsel] at h0
    cases h0
    rw [if_pos hk]

theorem check_castling_king {s : Chessboard} {style : SpecialMoveTag} {c : PieceColor}
    {sel : PieceId} (hsel : s.selected_piece_ = some sel)
    (hk : ¬ ((s.piece sel).tag ≠ PieceTag.KING ∨ (s.piece sel).moved = true)) :
    check_castling s style c =
      match piece_at s ⟨rook_file style, home_rank c⟩ with
      | none => Except.error Fault.null_deref
      | some rook =>
        if (s.piece rook).moved = true then Except.ok s
        else if castling_blocked s (home_rank c) (loop_begin style) (loop_count style) = true then
          Except.ok s
        else Except.ok (castling_offered s style c) := by
  unfold check_castling
  split
  · rename_i h0
    rw [hsel] at h0
    cases h0
  · rename_i sel2 h0
    rw [hsel] at h0
    cases h0
    rw [if_neg hk]

/-- What `check_castling` returns: the board as it was, or the board with the
castling target appended and inserted. -/
theorem check_castling_cases {s s1 : Chessboard} {style : SpecialMoveTag} {c : PieceColor}
    (h : check_castling s style c = Except.ok s1) :
    s1 = s ∨
      (∃ sel, s.selected_piece_ = some sel ∧ (s.piece sel).tag = PieceTag.KING ∧
        (s.piece sel).moved = false ∧
        castling_blocked s (home_rank c) (loop_begin style) (loop_count style) = false ∧
        s1 = castling_offered s style c) := by
  cases hsel : s.selected_piece_ with
  | none =>
    unfold check_castling at h
    split at h
    · cases h
    · rename_i sel2 h0
      rw [hsel] at h0
      cases h0
  | some sel =>
    by_cases hk : (s.piece sel).tag ≠ PieceTag.KING ∨ (s.piece sel).moved = true
    · rw [check_castling_not_king hsel hk] at h
      cases h
      exact Or.inl rfl
    · rw [check_castling_king hsel hk] at h
      cases hr : piece_at s ⟨rook_file style, home_rank c⟩ with
      | none => rw [hr] at h; cases h
      | some rook =>
        rw [hr] at h
        simp only at h
        by_cases hm : (s.piece rook).moved = true
        · rw [if_pos hm] at h
          cases h
          exact Or.inl rfl
        · rw [if_neg hm] at h
          by_cases hb : castling_blocked s (home_rank c) (loop_begin style) (loop_count style) = true
          · rw [if_pos hb] at h
            cases h
            exact Or.inl rfl
          · rw [if_neg hb] at h
            cases h
            right
            refine ⟨sel, rfl, ?_, ?_, ?_, rfl⟩
            · by_contra hne
              exact hk (Or.inl hne)
            · cases hmv : (s.piece sel).moved with
              | false => rfl
              | true => exact absurd (Or.inr hmv) hk
            · simpa using hb

theorem check_castling_frame {s s1 : Chessboard} {style : SpecialMoveTag} {c : PieceColor}
    (h : check_castling s style c = Except.ok s1) :
    s1.heap = s.heap ∧ s1.white_pieces_ = s.white_pieces_ ∧ s1.black_pieces_ = s.black_pieces_ ∧
      s1.turn_ = s.turn_ ∧ s1.last_move_ = s.last_move_ ∧ s1.selected_piece_ = s.selected_piece_ := by
  rcases check_castling_cases h with h1 | ⟨sel, _, _, _, _, h1⟩
  · rw [h1]
    exact ⟨rfl, rfl, rfl, rfl, rfl, rfl⟩
  · rw [h1]
    exact ⟨rfl, rfl, rfl, rfl, rfl, rfl⟩

theorem select_en_passant_frame (R : PieceRules) (s : Chessboard) (sel : PieceId) :
    (select_en_passant R s sel).heap = s.heap ∧
      (select_en_passant R s sel).white_pieces_ = s.white_pieces_ ∧
      (select_en_passant R s sel).black_pieces_ = s.black_pieces_ ∧
      (select_en_passant R s sel).turn_ = s.turn_ ∧
      (select_en_passant R s sel).last_move_ = s.last_move_ ∧
      (select_en_passant R s sel).selected_piece_ = s.selected_piece_ := by
  unfold select_en_passant
  split
  · exact ⟨rfl, rfl, rfl, rfl, rfl, rfl⟩
  · split
    · exact ⟨rfl, rfl, rfl, rfl, rfl, rfl⟩
    · exact ⟨rfl, rfl, rfl, rfl, rfl, rfl⟩

/-- The special moves after the en-passant block: as before, or with one
`EN_PASSANT` entry inserted. -/
theorem select_en_passant_special (R : PieceRules) (s : Chessboard) (sel : PieceId) :
    (select_en_passant R s sel).special_moves_ = s.special_moves_ ∨
      ∃ pos, (select_en_passant R s sel).special_moves_ =
        Map.insert s.special_moves_ SpecialMoveTag.EN_PASSANT pos := by
  unfold select_en_passant
  split
  · exact Or.inl rfl
  · split
    · exact Or.inr ⟨_, rfl⟩
    · exact Or.inl rfl

theorem select_piece_eq (R : PieceRules) (s : Chessboard) (position : Position)
    (color : PieceColor) :
    select_piece R s position color =
      match Map.at? (s.pieces color) position with
      | none => Except.error Fault.out_of_range
      | some sel =>
        match check_castling (select_en_passant R (with_selection s sel) sel)
            SpecialMoveTag.LONG_CASTLING (s.piece sel).color with
        | Except.error e => Except.error e
        | Except.ok s3 => check_castling s3 SpecialMoveTag.SHORT_CASTLING (s.piece sel).color := by
  have hp : pieces (reset_move_highlights s) color = s.pieces color := by
    cases color <;> rfl
  have hws : ∀ sel, with_selection (reset_move_highlights s) sel = with_selection s sel :=
    fun sel => rfl
  unfold select_piece
  simp only [hp, hws]
  cases hsel : Map.at? (s.pieces color) position with
  | none => rfl
  | some sel =>
    simp only
    have hcol : (piece (select_en_passant R (with_selection s sel) sel) sel).color
        = (s.piece sel).color := by
      unfold piece
      rw [(select_en_passant_frame R _ sel).1]
      rfl
    rw [hcol]

/-- The stages of a `select_piece` call that returns. -/
theorem select_piece_stages {R : PieceRules} {s s1 : Chessboard} {position : Position}
    {color : PieceColor} (h : select_piece R s position color = Except.ok s1) :
    ∃ sel s3, Map.at? (s.pieces color) position = some sel ∧
      check_castling
        (select_en_passant R
          (with_selection s sel) sel)
        SpecialMoveTag.LONG_CASTLING (s.piece sel).color = Except.ok s3 ∧
      check_castling s3 SpecialMoveTag.SHORT_CASTLING (s.piece sel).color = Except.ok s1 := by
  rw [select_piece_eq] at h
  cases hsel : Map.at? (s.pieces color) position with
  | none => rw [hsel] at h; cases h
  | some sel =>
    rw [hsel] at h
    simp only at h
    cases h3 : check_castling
        (select_en_passant R
          (with_selection s sel) sel)
        SpecialMoveTag.LONG_CASTLING (s.piece sel).color with
    | error e => rw [h3] at h; cases h
    | ok s3 =>
      rw [h3] at h
      exact ⟨sel, s3, rfl, h3, h⟩

theorem select_piece_frame {R : PieceRules} {s s1 : Chessboard} {position : Position}
    {color : PieceColor} (h : select_piece R s position color = Except.ok s1) :
    s1.heap = s.heap ∧ s1.white_pieces_ = s.white_pieces_ ∧ s1.black_pieces_ = s.black_pieces_ ∧
      s1.turn_ = s.turn_ ∧ s1.last_move_ = s.last_move_ ∧
      s1.selected_piece_ = Map.at? (s.pieces color) position := by
  obtain ⟨sel, s3, hsel, h3, h1⟩ := select_piece_stages h
  have f1 := check_castling_frame h1
  have f3 := check_castling_frame h3
  have f0 := select_en_passant_frame R
    (with_selection s sel) sel
  refine ⟨?_, ?_, ?_, ?_, ?_, ?_⟩
  · exact (f1.1.trans f3.1).trans f0.1
  · exact (f1.2.1.trans f3.2.1).trans f0.2.1
  · exact (f1.2.2.1.trans f3.2.2.1).trans f0.2.2.1
  · exact (f1.2.2.2.1.trans f3.2.2.2.1).trans f0.2.2.2.1
  · exact (f1.2.2.2.2.1.trans f3.2.2.2.2.1).trans f0.2.2.2.2.1
  · rw [hsel]
    exact (f1.2.2.2.2.2.trans f3.2.2.2.2.2).trans f0.2.2.2.2.2

end Chessboard

/-! ## Well-formed boards -/

namespace Chessboard

theorem mem_with_pieces {s : Chessboard} {c c2 : PieceColor} {m : PieceMap}
    {e : Position × PieceId} (h : e ∈ (with_pieces s c m).pieces c2) :
    (c2 = c ∧ e ∈ m) ∨ (c2 ≠ c ∧ e ∈ s.pieces c2) := by
  by_cases hc : c2 = c
  · subst hc
    rw [pieces_with_pieces_same] at h
    exact Or.inl ⟨rfl, h⟩
  · rw [pieces_with_pieces_other _ _ _ _ hc] at h
    exact Or.inr ⟨hc, h⟩

theorem record_move_piece (s : Chessboard) (pc j : PieceId) (d : Position) :
    ((record_move s pc d).piece j).color = (s.piece j).color ∧
      ((record_move s pc d).piece j).position = (s.piece j).position ∧
      ((record_move s pc d).piece j).tag = (s.piece j).tag := by
  unfold record_move piece
  simp only [deref_set]
  by_cases h : pc = j ∧ pc < s.heap.length
  · obtain ⟨rfl, hl⟩ := h
    simp [hl]
  · simp [h]

theorem record_move_pieces (s : Chessboard) (pc : PieceId) (d : Position) (c : PieceColor) :
    (record_move s pc d).pieces c = s.pieces c := by
  cases c <;> rfl

theorem record_move_length (s : Chessboard) (pc : PieceId) (d : Position) :
    (record_move s pc d).heap.length = s.heap.length := by
  simp [record_move]

theorem relocate_piece (s : Chessboard) (pc j : PieceId) (d : Position) :
    (relocate s pc d).piece j = s.piece j := by
  unfold relocate piece
  rw [with_pieces_heap]

theorem pending_relocate {s : Chessboard} {pc : PieceId} (d : Position) (hw : WellFormed s)
    (hsel : s.selected_piece_ = some pc) :
    Pending (relocate (record_move s pc d) pc d) pc d (s.piece pc).color := by
  have hlen : (relocate (record_move s pc d) pc d).heap.length = s.heap.length := by
    unfold relocate
    rw [with_pieces_heap, record_move_length]
  have hcol : ∀ j, ((relocate (record_move s pc d) pc d).piece j).color = (s.piece j).color :=
    fun j => by rw [relocate_piece]; exact (record_move_piece s pc j d).1
  have hpos : ∀ j, ((relocate (record_move s pc d) pc d).piece j).position = (s.piece j).position :=
    fun j => by rw [relocate_piece]; exact (record_move_piece s pc j d).2.1
  have hmem : ∀ c2, ∀ e ∈ (relocate (record_move s pc d) pc d).pieces c2,
      (e = (d, pc) ∧ c2 = (s.piece pc).color) ∨
        (e ∈ s.pieces c2 ∧ (c2 = (s.piece pc).color → e.1 ≠ (s.piece pc).position)) := by
    intro c2 e he
    unfold relocate at he
    rw [(record_move_piece s pc pc d).1, (record_move_piece s pc pc d).2.1,
      record_move_pieces] at he
    rcases mem_with_pieces he with ⟨hc, hm⟩ | ⟨hc, hm⟩
    · rcases Map.mem_insert hm with h1 | ⟨h1, _⟩
      · have := Map.mem_erase.mp h1
        right
        exact ⟨hc ▸ this.1, fun _ => this.2⟩
      · exact Or.inl ⟨h1, hc⟩
    · rw [record_move_pieces] at hm
      exact Or.inr ⟨hm, fun h => absurd h hc⟩
  refine ⟨?_, ?_, ?_, ?_, ?_⟩
  · intro c2 e he
    rw [hlen]
    rcases hmem c2 e he with ⟨rfl, _⟩ | ⟨h1, _⟩
    · exact hw.sel_valid pc hsel
    · exact hw.valid c2 e h1
  · rw [hlen]
    exact hw.sel_valid pc hsel
  · exact hcol pc
  · intro c2 e he
    rw [hcol]
    rcases hmem c2 e he with ⟨rfl, h2⟩ | ⟨h1, _⟩
    · exact h2.symm
    · exact hw.color c2 e h1
  · intro c2 e he
    rcases hmem c2 e he with ⟨rfl, _⟩ | ⟨h1, h2⟩
    · exact Or.inl ⟨rfl, rfl⟩
    · right
      have hp := hw.pos c2 e h1
      have hc := hw.color c2 e h1
      refine ⟨?_, by rw [hpos]; exact hp⟩
      intro heq
      rw [heq] at hp hc
      exact h2 hc.symm hp.symm

/-- The stages of a `castle` call that returns. -/
theorem castle_stages {s s3 : Chessboard} {style : SpecialMoveTag} {c : PieceColor}
    (h : castle s style c = Except.ok s3) :
    ∃ rook r, Map.at? (s.pieces c) (rook_initial style c) = some rook ∧
      Map.at? (Map.erase (Map.insert (s.pieces c) (rook_destination style c) rook)
        (rook_initial style c)) (rook_destination style c) = some r ∧
      s3 = { with_pieces s c (Map.erase (Map.insert (s.pieces c) (rook_destination style c) rook)
              (rook_initial style c)) with
             heap := s.heap.set r { deref s.heap r with position := rook_destination style c } } := by
  unfold castle at h
  simp only at h
  cases hr : Map.at? (s.pieces c) ⟨rook_file style, home_rank c⟩ with
  | none => rw [hr] at h; cases h
  | some rook =>
    rw [hr] at h
    simp only at h
    cases hr2 : Map.at? (Map.erase (Map.insert (s.pieces c)
        ⟨if style = SpecialMoveTag.LONG_CASTLING then File.C else File.F, home_rank c⟩ rook)
        ⟨rook_file style, home_rank c⟩)
        ⟨if style = SpecialMoveTag.LONG_CASTLING then File.C else File.F, home_rank c⟩ with
    | none => rw [hr2] at h; cases h
    | some r =>
      rw [hr2] at h
      cases h
      exact ⟨rook, r, hr, hr2, rfl⟩

/-- The four ways `resolve_capture` returns. -/
theorem resolve_capture_cases {s s3 : Chessboard} {c : PieceColor} {d : Position}
    (h : resolve_capture s c d = Except.ok s3) :
    (∃ x, s3 = with_pieces s c.other (Map.erase (s.pieces c.other) x) ∧
        d ∉ Map.keys (Map.erase (s.pieces c.other) x)) ∨
      (d ∉ Map.keys (s.pieces c.other) ∧
        ∃ style, style ≠ SpecialMoveTag.EN_PASSANT ∧ Map.at? s.special_moves_ style = some d ∧
          castle s style c = Except.ok s3) ∨
      (d ∉ Map.keys (s.pieces c.other) ∧ s3 = s) := by
  unfold resolve_capture at h
  simp only at h
  by_cases h1 : Map.count (s.pieces c.other) d > 0
  · rw [if_pos h1] at h
    cases h
    exact Or.inl ⟨_, rfl, fun hm => (Map.mem_keys_erase.mp hm).2 rfl⟩
  · rw [if_neg h1] at h
    have hk := Map.count_eq_zero_iff.mp h1
    by_cases h2 : Map.count s.special_moves_ SpecialMoveTag.EN_PASSANT > 0 ∧
        some d = Map.at? s.special_moves_ SpecialMoveTag.EN_PASSANT
    · rw [if_pos h2] at h
      cases h
      exact Or.inl ⟨_, rfl, fun hm => hk (Map.mem_keys_erase.mp hm).1⟩
    · rw [if_neg h2] at h
      by_cases h3 : Map.count s.special_moves_ SpecialMoveTag.SHORT_CASTLING > 0 ∧
          some d = Map.at? s.special_moves_ SpecialMoveTag.SHORT_CASTLING
      · rw [if_pos h3] at h
        exact Or.inr (Or.inl ⟨hk, SpecialMoveTag.SHORT_CASTLING, by decide, h3.2.symm, h⟩)
      · rw [if_neg h3] at h
        by_cases h4 : Map.count s.special_moves_ SpecialMoveTag.LONG_CASTLING > 0 ∧
            some d = Map.at? s.special_moves_ SpecialMoveTag.LONG_CASTLING
        · rw [if_pos h4] at h
          exact Or.inr (Or.inl ⟨hk, SpecialMoveTag.LONG_CASTLING, by decide, h4.2.symm, h⟩)
        · rw [if_neg h4] at h
          cases h
          exact Or.inr (Or.inr ⟨hk, rfl⟩)

theorem pending_erase {s : Chessboard} {pc : PieceId} {d x : Position} {c c3 : PieceColor}
    (hp : Pending s pc d c) :
    Pending (with_pieces s c3 (Map.erase (s.pieces c3) x)) pc d c := by
  have hmem : ∀ c2, ∀ e ∈ (with_pieces s c3 (Map.erase (s.pieces c3) x)).pieces c2,
      e ∈ s.pieces c2 := by
    intro c2 e he
    rcases mem_with_pieces he with ⟨rfl, hm⟩ | ⟨_, hm⟩
    · exact (Map.mem_erase.mp hm).1
    · exact hm
  have hpc : ∀ j, (with_pieces s c3 (Map.erase (s.pieces c3) x)).piece j = s.piece j := by
    intro j
    unfold piece
    rw [with_pieces_heap]
  refine ⟨?_, ?_, ?_, ?_, ?_⟩
  · intro c2 e he
    rw [with_pieces_heap]
    exact hp.valid c2 e (hmem c2 e he)
  · rw [with_pieces_heap]
    exact hp.pc_valid
  · rw [hpc]
    exact hp.pc_color
  · intro c2 e he
    rw [hpc]
    exact hp.color c2 e (hmem c2 e he)
  · intro c2 e he
    rw [hpc]
    exact hp.pos c2 e (hmem c2 e he)

theorem rook_squares_ne (style : SpecialMoveTag) (c : PieceColor) :
    rook_destination style c ≠ rook_initial style c := by
  cases style <;> cases c <;> decide

theorem pending_castle {s s3 : Chessboard} {pc : PieceId} {d : Position} {c : PieceColor}
    {style : SpecialMoveTag} (hp : Pending s pc d c) (hd : d ≠ rook_initial style c)
    (h : castle s style c = Except.ok s3) : Pending s3 pc d c := by
  obtain ⟨rook, r, hrook, hr, rfl⟩ := castle_stages h
  have hrook_mem := Map.mem_of_at? hrook
  have hr_mem := Map.mem_erase.mp (Map.mem_of_at? hr)
  -- the rook is not the moving piece
  have hrook_pos : rook ≠ pc ∧ (s.piece rook).position = rook_initial style c := by
    rcases hp.pos c _ hrook_mem with ⟨_, h2⟩ | ⟨h1, h2⟩
    · exact absurd h2.symm hd
    · exact ⟨h1, h2⟩
  have hlen : (s.heap.set r { deref s.heap r with position := rook_destination style c }).length
      = s.heap.length := by simp
  -- the pieces of the heap after the rook's `set_position`
  have hpiece : ∀ j, deref (s.heap.set r { deref s.heap r with position := rook_destination style c }) j
      = if r = j ∧ r < s.heap.length then { deref s.heap r with position := rook_destination style c }
        else deref s.heap j := fun j => deref_set _ _ _ _
  have hcolor : ∀ j,
      (deref (s.heap.set r { deref s.heap r with position := rook_destination style c }) j).color
        = (s.piece j).color := by
    intro j
    rw [hpiece]
    by_cases hj : r = j ∧ r < s.heap.length
    · rw [if_pos hj]
      obtain ⟨rfl, _⟩ := hj
      rfl
    · rw [if_neg hj]
      rfl
  -- what the own map holds after the rook's relocation
  have hmem : ∀ c2, ∀ e ∈ (with_pieces s c (Map.erase (Map.insert (s.pieces c)
      (rook_destination style c) rook) (rook_initial style c))).pieces c2,
      (e ∈ s.pieces c2 ∧ (c2 = c → e.1 ≠ rook_initial style c)) ∨
        (c2 = c ∧ e = (rook_destination style c, rook) ∧
          rook_destination style c ∉ Map.keys (s.pieces c)) := by
    intro c2 e he
    rcases mem_with_pieces he with ⟨rfl, hm⟩ | ⟨hc, hm⟩
    · have hm2 := Map.mem_erase.mp hm
      rcases Map.mem_insert hm2.1 with h1 | ⟨h1, h2⟩
      · exact Or.inl ⟨h1, fun _ => hm2.2⟩
      · exact Or.inr ⟨rfl, h1, h2⟩
    · exact Or.inl ⟨hm, fun h => absurd h hc⟩
  -- the piece found under the rook's destination
  have hr_cases : (rook_destination style c, r) ∈ s.pieces c ∨
      (r = rook ∧ rook_destination style c ∉ Map.keys (s.pieces c)) := by
    rcases Map.mem_insert hr_mem.1 with h1 | ⟨h1, h2⟩
    · exact Or.inl h1
    · exact Or.inr ⟨(Prod.mk.inj h1).2, h2⟩
  have hr_valid : r < s.heap.length := by
    rcases hr_cases with h1 | ⟨h1, _⟩
    · exact hp.valid c _ h1
    · rw [h1]
      exact hp.valid c _ hrook_mem
  have hr_color : (s.piece r).color = c := by
    rcases hr_cases with h1 | ⟨h1, _⟩
    · exact hp.color c _ h1
    · rw [h1]
      exact hp.color c _ hrook_mem
  refine ⟨?_, ?_, ?_, ?_, ?_⟩
  · intro c2 e he
    show e.2 < (s.heap.set r _).length
    rw [hlen]
    rcases hmem c2 e he with ⟨h1, _⟩ | ⟨_, h1, _⟩
    · exact hp.valid c2 e h1
    · rw [h1]
      exact hp.valid c (rook_initial style c, rook) hrook_mem
  · show pc < (s.heap.set r _).length
    rw [hlen]
    exact hp.pc_valid
  · show (deref (s.heap.set r _) pc).color = c
    rw [hcolor]
    exact hp.pc_color
  · intro c2 e he
    show (deref (s.heap.set r _) e.2).color = c2
    rw [hcolor]
    rcases hmem c2 e he with ⟨h1, _⟩ | ⟨h0, h1, _⟩
    · exact hp.color c2 e h1
    · rw [h1, h0]
      exact hp.color c (rook_initial style c, rook) hrook_mem
  · intro c2 e he
    show (e.2 = pc ∧ e.1 = d) ∨ (e.2 ≠ pc ∧ (deref (s.heap.set r _) e.2).position = e.1)
    rw [hpiece]
    rcases hmem c2 e he with ⟨h1, h2⟩ | ⟨h0, h1, h2⟩
    · rcases hp.pos c2 e h1 with h3 | ⟨h3, h4⟩
      · exact Or.inl h3
      · right
        refine ⟨h3, ?_⟩
        by_cases hj : r = e.2 ∧ r < s.heap.length
        · rw [if_pos hj]
          show rook_destination style c = e.1
          have hre : e.2 = r := hj.1.symm
          have hc2 : c2 = c := by
            rw [← hp.color c2 e h1, hre]
            exact hr_color
          rcases hr_cases with h5 | ⟨h5, _⟩
          · rcases hp.pos c _ h5 with ⟨h6, _⟩ | ⟨_, h6⟩
            · exact absurd (hre.trans h6) h3
            · rw [← h4, hre]
              exact h6.symm
          · exfalso
            apply h2 hc2
            rw [← h4, hre, h5]
            exact hrook_pos.2
        · rw [if_neg hj]
          exact h4
    · right
      rw [h1]
      have hrr : r = rook := by
        rcases hr_cases with h5 | ⟨h5, _⟩
        · exact absurd (Map.mem_keys_of_mem h5) h2
        · exact h5
      refine ⟨hrook_pos.1, ?_⟩
      rw [if_pos ⟨hrr, hr_valid⟩]

/-- The capture cascade keeps the maps consistent with the pending move. -/
theorem pending_resolve_capture {s s3 : Chessboard} {pc : PieceId} {d : Position}
    {c : PieceColor} (hp : Pending s pc d c)
    (hsp : ∀ e ∈ s.special_moves_, e.1 ≠ SpecialMoveTag.EN_PASSANT → e.2.file_ = castling_file e.1)
    (h : resolve_capture s c d = Except.ok s3) : Pending s3 pc d c := by
  rcases resolve_capture_cases h with ⟨x, rfl, _⟩ | ⟨_, style, hst, hat, hc⟩ | ⟨_, rfl⟩
  · exact pending_erase hp
  · refine pending_castle hp ?_ hc
    have hf := hsp _ (Map.mem_of_at? hat) hst
    intro hd
    rw [hd] at hf
    revert hf
    cases style <;> cases c <;> decide
  · exact hp

theorem resolve_capture_selected {s s3 : Chessboard} {c : PieceColor} {d : Position}
    (h : resolve_capture s c d = Except.ok s3) : s3.selected_piece_ = s.selected_piece_ := by
  rcases resolve_capture_cases h with ⟨x, rfl, _⟩ | ⟨_, style, _, _, hc⟩ | ⟨_, rfl⟩
  · exact with_pieces_selected _ _ _
  · obtain ⟨rook, r, _, _, rfl⟩ := castle_stages hc
    exact with_pieces_selected _ _ _
  · rfl

/-- `move_piece` in terms of the board it is called on. -/
theorem move_piece_eq (R : PieceRules) (s : Chessboard) (pc : PieceId) (d : Position) :
    move_piece R s pc d =
      if (on_board (s.piece pc).position && on_board d) = true then
        match resolve_capture (relocate (record_move s pc d) pc d) (s.piece pc).color d with
        | Except.error e => Except.error e
        | Except.ok s3 => Except.ok (finish_move R s3 pc d (s.piece pc).color)
      else Except.error Fault.out_of_bounds := by
  unfold move_piece
  simp only
  rw [(record_move_piece s pc pc d).1, (record_move_piece s pc pc d).2.1]

/-- A `move_piece` call that returns has indexed `squares_` in bounds. -/
theorem move_piece_on_board {R : PieceRules} {s s1 : Chessboard} {pc : PieceId} {d : Position}
    (h : move_piece R s pc d = Except.ok s1) :
    on_board (s.piece pc).position = true ∧ on_board d = true := by
  rw [move_piece_eq] at h
  by_cases hb : (on_board (s.piece pc).position && on_board d) = true
  · exact Bool.and_eq_true_iff.mp hb
  · rw [if_neg hb] at h
    cases h

/-- With the piece or the destination off the board `move_piece` faults on
the index into `squares_`. -/
theorem move_piece_off_board (R : PieceRules) (s : Chessboard) (pc : PieceId) (d : Position)
    (h : ¬ (on_board (s.piece pc).position = true ∧ on_board d = true)) :
    move_piece R s pc d = Except.error Fault.out_of_bounds := by
  rw [move_piece_eq, if_neg (fun hb => h (Bool.and_eq_true_iff.mp hb))]

/-- The stages of a `move_piece` call that returns. -/
theorem move_piece_stages {R : PieceRules} {s s1 : Chessboard} {pc : PieceId} {d : Position}
    (h : move_piece R s pc d = Except.ok s1) :
    ∃ s3, resolve_capture (relocate (record_move s pc d) pc d) (s.piece pc).color d = Except.ok s3 ∧
      s1 = finish_move R s3 pc d (s.piece pc).color := by
  have hb := move_piece_on_board h
  rw [move_piece_eq, if_pos (Bool.and_eq_true_iff.mpr hb)] at h
  cases h3 : resolve_capture (relocate (record_move s pc d) pc d) (s.piece pc).color d with
  | error e => rw [h3] at h; cases h
  | ok s3 =>
    rw [h3] at h
    cases h
    exact ⟨s3, rfl, rfl⟩

theorem wellFormed_set_available_moves {R : PieceRules} {s : Chessboard} (hw : WellFormed s) :
    WellFormed (set_available_moves R s) := by
  refine ⟨?_, ?_, ?_, ?_, ?_⟩
  · intro c e he
    rw [set_available_moves_length]
    refine hw.valid c e ?_
    cases c <;> exact he
  · intro pc hpc
    rw [set_available_moves_length]
    exact hw.sel_valid pc hpc
  · intro c e he
    rw [(set_available_moves_core R s e.2).2.1]
    refine hw.color c e ?_
    cases c <;> exact he
  · intro c e he
    rw [(set_available_moves_core R s e.2).2.2.1]
    refine hw.pos c e ?_
    cases c <;> exact he
  · exact hw.special

theorem wellFormed_finish_move {R : PieceRules} {s : Chessboard} {pc : PieceId} {d : Position}
    {c c0 : PieceColor} (hp : Pending s pc d c)
    (hsel : ∀ j, s.selected_piece_ = some j → j < s.heap.length) :
    WellFormed (finish_move R s pc d c0) := by
  unfold finish_move
  apply wellFormed_set_available_moves
  have hpieces : ∀ c2, pieces (settle s pc d c0) c2 = s.pieces c2 := by
    intro c2
    cases c2 <;> rfl
  have hpiece : ∀ j, piece (settle s pc d c0) j
      = if pc = j ∧ pc < s.heap.length then { s.piece pc with position := d } else s.piece j :=
    fun j => deref_set _ _ _ _
  refine ⟨?_, ?_, ?_, ?_, ?_⟩
  · intro c2 e he
    rw [hpieces] at he
    show e.2 < (s.heap.set pc _).length
    rw [List.length_set]
    exact hp.valid c2 e he
  · intro j hj
    show j < (s.heap.set pc _).length
    rw [List.length_set]
    exact hsel j hj
  · intro c2 e he
    rw [hpieces] at he
    rw [hpiece]
    by_cases hj : pc = e.2 ∧ pc < s.heap.length
    · rw [if_pos hj]
      show (s.piece pc).color = c2
      rw [hj.1]
      exact hp.color c2 e he
    · rw [if_neg hj]
      exact hp.color c2 e he
  · intro c2 e he
    rw [hpieces] at he
    rw [hpiece]
    rcases hp.pos c2 e he with ⟨h1, h2⟩ | ⟨h1, h2⟩
    · rw [if_pos ⟨h1.symm, hp.pc_valid⟩]
      exact h2.symm
    · rw [if_neg (fun h => h1 h.1.symm)]
      exact h2
  · intro e he
    cases he

/-- A returning `move` keeps the board well formed. -/
theorem wellFormed_move {R : PieceRules} {s s1 : Chessboard} {d : Position} (hw : WellFormed s)
    (h : move R s d = Except.ok s1) : WellFormed s1 := by
  unfold move at h
  cases hsel : s.selected_piece_ with
  | none => rw [hsel] at h; cases h
  | some pc =>
    rw [hsel] at h
    simp only at h
    obtain ⟨s3, h3, rfl⟩ := move_piece_stages h
    have hp0 := pending_relocate d hw hsel
    have hsp : ∀ e ∈ (relocate (record_move s pc d) pc d).special_moves_,
        e.1 ≠ SpecialMoveTag.EN_PASSANT → e.2.file_ = castling_file e.1 := by
      unfold relocate
      rw [with_pieces_special]
      exact hw.special
    have hp3 := pending_resolve_capture hp0 hsp h3
    apply wellFormed_finish_move hp3
    intro j hj
    rw [resolve_capture_selected h3] at hj
    have : (relocate (record_move s pc d) pc d).selected_piece_ = s.selected_piece_ := by
      unfold relocate
      rw [with_pieces_selected]
      rfl
    rw [this, hsel] at hj
    cases hj
    exact hp3.pc_valid

theorem special_insert {sp : List (SpecialMoveTag × Position)} {tag : SpecialMoveTag}
    {p : Position}
    (hsp : ∀ e ∈ sp, e.1 ≠ SpecialMoveTag.EN_PASSANT → e.2.file_ = castling_file e.1)
    (hp : tag ≠ SpecialMoveTag.EN_PASSANT → p.file_ = castling_file tag) :
    ∀ e ∈ Map.insert sp tag p, e.1 ≠ SpecialMoveTag.EN_PASSANT → e.2.file_ = castling_file e.1 := by
  intro e he
  rcases Map.mem_insert he with h | ⟨rfl, _⟩
  · exact hsp e h
  · exact hp

theorem check_castling_special {s s1 : Chessboard} {style : SpecialMoveTag} {c : PieceColor}
    (hsp : ∀ e ∈ s.special_moves_, e.1 ≠ SpecialMoveTag.EN_PASSANT → e.2.file_ = castling_file e.1)
    (h : check_castling s style c = Except.ok s1) :
    ∀ e ∈ s1.special_moves_, e.1 ≠ SpecialMoveTag.EN_PASSANT → e.2.file_ = castling_file e.1 := by
  rcases check_castling_cases h with h1 | ⟨sel, _, _, _, _, h1⟩
  · rw [h1]
    exact hsp
  · rw [h1]
    exact special_insert hsp (fun _ => rfl)

/-- A returning `select_piece` keeps the board well formed. -/
theorem wellFormed_select_piece {R : PieceRules} {s s1 : Chessboard} {position : Position}
    {color : PieceColor} (hw : WellFormed s)
    (h : select_piece R s position color = Except.ok s1) : WellFormed s1 := by
  obtain ⟨hh, hwp, hbp, _, _, hs⟩ := select_piece_frame h
  have hpieces : ∀ c, s1.pieces c = s.pieces c := by
    intro c
    cases c
    · exact hwp
    · exact hbp
  have hpiece : ∀ j, s1.piece j = s.piece j := by
    intro j
    unfold piece
    rw [hh]
  refine ⟨?_, ?_, ?_, ?_, ?_⟩
  · intro c e he
    rw [hpieces] at he
    rw [hh]
    exact hw.valid c e he
  · intro pc hpc
    rw [hs] at hpc
    rw [hh]
    exact hw.valid color _ (Map.mem_of_at? hpc)
  · intro c e he
    rw [hpieces] at he
    rw [hpiece]
    exact hw.color c e he
  · intro c e he
    rw [hpieces] at he
    rw [hpiece]
    exact hw.pos c e he
  · obtain ⟨sel, s3, _, h3, h1⟩ := select_piece_stages h
    refine check_castling_special (check_castling_special ?_ h3) h1
    rcases select_en_passant_special R
      (with_selection s sel) sel
      with h0 | ⟨pos, h0⟩
    · rw [h0]
      exact hw.special
    · rw [h0]
      exact special_insert hw.special (fun hne => absurd rfl hne)

/-- The board the constructor builds is well formed. -/
theorem wellFormed_construct (R : PieceRules) (turn : PieceColor) :
    WellFormed (construct R turn) := by
  unfold construct
  apply wellFormed_set_available_moves
  refine ⟨?_, ?_, ?_, ?_, ?_⟩
  · intro c
    cases c <;> cases turn <;> decide
  · intro pc hpc
    cases turn <;> cases hpc
  · intro c
    cases c <;> cases turn <;> decide
  · intro c
    cases c <;> cases turn <;> decide
  · intro e he
    cases turn <;> cases he

/-- Every call that returns keeps the board well formed. -/
theorem wellFormed_run {R : PieceRules} {calls : List Call} {s s1 : Chessboard}
    (hw : WellFormed s) (h : run R s calls = Except.ok s1) : WellFormed s1 := by
  induction calls generalizing s with
  | nil =>
    simp only [run] at h
    cases h
    exact hw
  | cons c cs ih =>
    rw [run] at h
    cases hc : step R s c with
    | error e => rw [hc] at h; cases h
    | ok s2 =>
      rw [hc] at h
      simp only at h
      refine ih ?_ h
      cases c with
      | select position color => exact wellFormed_select_piece hw hc
      | move destination => exact wellFormed_move hw hc

end Chessboard

/-- C2: in every board reached from the constructor's setup by a sequence of
`select_piece` and `move` calls, each entry of `white_pieces_` and of
`black_pieces_` stores a piece whose `position()` is the entry's key. -/
theorem key_is_position_of_run (R : PieceRules) (turn : PieceColor) (calls : List Call)
    (s : Chessboard)
    (h : Chessboard.run R (Chessboard.construct R turn) calls = Except.ok s) :
    (∀ e ∈ s.white_pieces_, (s.piece e.2).position = e.1) ∧
      (∀ e ∈ s.black_pieces_, (s.piece e.2).position = e.1) := by
  have hw := Chessboard.wellFormed_run (Chessboard.wellFormed_construct R turn) h
  exact ⟨hw.pos PieceColor.WHITE, hw.pos PieceColor.BLACK⟩

set_option maxRecDepth 100000 in
theorem key_is_position_of_run_witness :
    Chessboard.run specRules (Chessboard.construct specRules PieceColor.WHITE) opening_calls
        = Except.ok (Chessboard.after specRules (Chessboard.construct specRules PieceColor.WHITE)
            opening_calls) ∧
      ((∀ e ∈ (Chessboard.after specRules (Chessboard.construct specRules PieceColor.WHITE)
            opening_calls).white_pieces_,
          ((Chessboard.after specRules (Chessboard.construct specRules PieceColor.WHITE)
            opening_calls).piece e.2).position = e.1) ∧
        (∀ e ∈ (Chessboard.after specRules (Chessboard.construct specRules PieceColor.WHITE)
            opening_calls).black_pieces_,
          ((Chessboard.after specRules (Chessboard.construct specRules PieceColor.WHITE)
            opening_calls).piece e.2).position = e.1)) :=
  ⟨by rfl, key_is_position_of_run specRules PieceColor.WHITE opening_calls _ (by rfl)⟩

/-! ## Disjointness of the two key sets -/

namespace Chessboard

theorem disjointKeys_of_color {s : Chessboard} (c : PieceColor)
    (h : ∀ p, p ∈ Map.keys (s.pieces c) → p ∉ Map.keys (s.pieces c.other)) : DisjointKeys s := by
  intro p hp
  cases c
  · exact h p hp.1 hp.2
  · exact h p hp.2 hp.1

theorem disjointKeys_color {s : Chessboard} (h : DisjointKeys s) (c : PieceColor) :
    ∀ p, p ∈ Map.keys (s.pieces c) → p ∉ Map.keys (s.pieces c.other) := by
  intro p h1 h2
  cases c
  · exact h p ⟨h1, h2⟩
  · exact h p ⟨h2, h1⟩

theorem other_other (c : PieceColor) : c.other.other = c := by cases c <;> rfl

theorem eq_or_eq_other (c c2 : PieceColor) : c2 = c ∨ c2 = c.other := by
  cases c <;> cases c2 <;> decide

/-- The keys of the mover's map after `relocate`. -/
theorem keys_relocate {s : Chessboard} {pc : PieceId} {d p : Position}
    (h : p ∈ Map.keys ((relocate s pc d).pieces (s.piece pc).color)) :
    p ∈ Map.keys (s.pieces (s.piece pc).color) ∨ p = d := by
  unfold relocate at h
  rw [pieces_with_pieces_same] at h
  rcases Map.mem_keys_insert.mp h with h1 | h1
  · exact Or.inl (Map.mem_keys_erase.mp h1).1
  · exact Or.inr h1

theorem relocate_other {s : Chessboard} {pc : PieceId} {d : Position} :
    (relocate s pc d).pieces (s.piece pc).color.other = s.pieces (s.piece pc).color.other := by
  unfold relocate
  rw [pieces_with_pieces_other _ _ _ _ (other_ne _)]

/-- The keys after `castle`: nothing but the rook's destination is new. -/
theorem keys_castle {s s3 : Chessboard} {style : SpecialMoveTag} {c : PieceColor}
    (h : castle s style c = Except.ok s3) :
    (∀ p, p ∈ Map.keys (s3.pieces c) → p ∈ Map.keys (s.pieces c) ∨ p = rook_destination style c) ∧
      s3.pieces c.other = s.pieces c.other := by
  obtain ⟨rook, r, _, _, rfl⟩ := castle_stages h
  have hp : ∀ c2, pieces { with_pieces s c (Map.erase (Map.insert (s.pieces c)
      (rook_destination style c) rook) (rook_initial style c)) with
      heap := s.heap.set r { deref s.heap r with position := rook_destination style c } } c2
      = (with_pieces s c (Map.erase (Map.insert (s.pieces c)
      (rook_destination style c) rook) (rook_initial style c))).pieces c2 := by
    intro c2
    cases c2 <;> rfl
  constructor
  · intro p hm
    rw [hp, pieces_with_pieces_same] at hm
    exact Map.mem_keys_insert.mp (Map.mem_keys_erase.mp hm).1
  · rw [hp, pieces_with_pieces_other _ _ _ _ (other_ne _)]

theorem rook_destination_in_loop (style : SpecialMoveTag) (c : PieceColor) :
    ∃ f, rook_destination style c = ⟨f, home_rank c⟩ ∧ loop_begin style ≤ f ∧
      f < loop_begin style + loop_count style := by
  cases style
  · exact ⟨File.F, rfl, by decide, by decide⟩
  · exact ⟨File.C, rfl, by decide, by decide⟩
  · exact ⟨File.F, rfl, by decide, by decide⟩

/-- When `check_castling` registers a target, the rook's destination is free. -/
theorem rook_destination_free {s : Chessboard} {style : SpecialMoveTag} {c : PieceColor}
    (hb : castling_blocked s (home_rank c) (loop_begin style) (loop_count style) = false) :
    ∀ c2, rook_destination style c ∉ Map.keys (s.pieces c2) := by
  obtain ⟨f, hf, h1, h2⟩ := rook_destination_in_loop style c
  have hnone : piece_at s ⟨f, home_rank c⟩ = none := by
    by_contra hne
    have := (castling_blocked_iff s (home_rank c) (loop_begin style) (loop_count style)).mpr
      ⟨f, h1, h2, Or.inl hne⟩
    rw [hb] at this
    cases this
  have := (piece_at_none_iff s _).mp hnone
  intro c2
  rw [hf]
  cases c2
  · exact this.1
  · exact this.2

theorem settle_pieces (s : Chessboard) (pc : PieceId) (d : Position) (c0 c2 : PieceColor) :
    (settle s pc d c0).pieces c2 = s.pieces c2 := by
  cases c2 <;> rfl

theorem finish_move_pieces (R : PieceRules) (s : Chessboard) (pc : PieceId) (d : Position)
    (c0 c2 : PieceColor) : (finish_move R s pc d c0).pieces c2 = s.pieces c2 := by
  cases c2 <;> rfl

theorem finish_move_special (R : PieceRules) (s : Chessboard) (pc : PieceId) (d : Position)
    (c0 : PieceColor) : (finish_move R s pc d c0).special_moves_ = [] := rfl

/-- The key sets stay disjoint through the capture cascade of a move. -/
theorem disjoint_resolve_capture {s s3 : Chessboard} {pc : PieceId} {d : Position}
    (hdj : DisjointKeys s)
    (hready : ∀ style, style ≠ SpecialMoveTag.EN_PASSANT →
      Map.at? s.special_moves_ style = some d →
      ∀ c2, rook_destination style (s.piece pc).color ∉ Map.keys (s.pieces c2))
    (h : resolve_capture (relocate (record_move s pc d) pc d) (s.piece pc).color d = Except.ok s3) :
    ∀ p, p ∈ Map.keys (s3.pieces (s.piece pc).color) →
      p ∉ Map.keys (s3.pieces (s.piece pc).color.other) := by
  have hcol : ((record_move s pc d).piece pc).color = (s.piece pc).color :=
    (record_move_piece s pc pc d).1
  have hown : ∀ p, p ∈ Map.keys ((relocate (record_move s pc d) pc d).pieces (s.piece pc).color) →
      p ∈ Map.keys (s.pieces (s.piece pc).color) ∨ p = d := by
    intro p hp
    rw [← hcol] at hp
    rcases keys_relocate hp with h1 | h1
    · rw [record_move_pieces, hcol] at h1
      exact Or.inl h1
    · exact Or.inr h1
  have hopp : (relocate (record_move s pc d) pc d).pieces (s.piece pc).color.other
      = s.pieces (s.piece pc).color.other := by
    rw [← hcol, relocate_other, record_move_pieces]
  have hdis := disjointKeys_color hdj (s.piece pc).color
  rcases resolve_capture_cases h with ⟨x, rfl, hx⟩ | ⟨hd, style, hst, hat, hc⟩ | ⟨hd, rfl⟩
  · intro p hp
    rw [pieces_with_pieces_other _ _ _ _ (Ne.symm (other_ne _))] at hp
    rw [pieces_with_pieces_same]
    rcases hown p hp with h1 | rfl
    · intro h2
      have := (Map.mem_keys_erase.mp h2).1
      rw [hopp] at this
      exact hdis p h1 this
    · exact hx
  · obtain ⟨hk, ho⟩ := keys_castle hc
    intro p hp
    rw [ho, hopp]
    rcases hk p hp with h1 | rfl
    · rcases hown p h1 with h2 | rfl
      · exact hdis p h2
      · rw [← hopp]
        exact hd
    · have hat2 : Map.at? s.special_moves_ style = some d := by
        have : (relocate (record_move s pc d) pc d).special_moves_ = s.special_moves_ := by
          unfold relocate
          rw [with_pieces_special]
          rfl
        rw [← this]
        exact hat
      exact hready style hst hat2 _
  · intro p hp
    rw [hopp]
    rcases hown p hp with h1 | rfl
    · exact hdis p h1
    · rw [← hopp]
      exact hd

/-- A returning `move`, to any destination, keeps the invariant. -/
theorem castlingReady_move {R : PieceRules} {s s1 : Chessboard} {d : Position}
    (hJ : CastlingReady s) (h : move R s d = Except.ok s1) : CastlingReady s1 := by
  unfold move at h
  cases hsel : s.selected_piece_ with
  | none => rw [hsel] at h; cases h
  | some pc =>
    rw [hsel] at h
    simp only at h
    obtain ⟨s3, h3, rfl⟩ := move_piece_stages h
    have hd := disjoint_resolve_capture hJ.disjoint (fun style hst hat => by
      obtain ⟨sel, hs, hfree⟩ := hJ.ready style d hst hat
      rw [hsel] at hs
      cases hs
      exact hfree) h3
    constructor
    · apply disjointKeys_of_color (s.piece pc).color
      intro p hp
      rw [finish_move_pieces] at hp ⊢
      exact hd p hp
    · intro style t _ hat
      rw [finish_move_special] at hat
      cases hat

/-- A `check_castling` call keeps: every registered castling entry has its
rook destination free. -/
theorem check_castling_ready {s s1 : Chessboard} {style : SpecialMoveTag} {c : PieceColor}
    (hsp : ∀ e ∈ s.special_moves_, e.1 ≠ SpecialMoveTag.EN_PASSANT →
      ∀ c2, rook_destination e.1 c ∉ Map.keys (s.pieces c2))
    (h : check_castling s style c = Except.ok s1) :
    ∀ e ∈ s1.special_moves_, e.1 ≠ SpecialMoveTag.EN_PASSANT →
      ∀ c2, rook_destination e.1 c ∉ Map.keys (s1.pieces c2) := by
  rcases check_castling_cases h with h1 | ⟨sel, _, _, _, hb, h1⟩
  · rw [h1]
    exact hsp
  · have hp : ∀ c2, s1.pieces c2 = s.pieces c2 := by
      intro c2
      rw [h1]
      cases c2 <;> rfl
    intro e he hne c2
    rw [hp]
    rw [h1] at he
    rcases Map.mem_insert he with h2 | ⟨rfl, _⟩
    · exact hsp e h2 hne c2
    · exact rook_destination_free hb c2

/-- A returning `select_piece` that found no special move pending keeps the
invariant. -/
theorem castlingReady_select {R : PieceRules} {s s1 : Chessboard} {position : Position}
    {color : PieceColor} (hJ : CastlingReady s) (hsp : s.special_moves_ = [])
    (h : select_piece R s position color = Except.ok s1) : CastlingReady s1 := by
  obtain ⟨hh, hwp, hbp, _, _, hs⟩ := select_piece_frame h
  obtain ⟨sel, s3, hsel, h3, h1⟩ := select_piece_stages h
  constructor
  · intro p
    rw [hwp, hbp]
    exact hJ.disjoint p
  · intro style t hst hat
    refine ⟨sel, by rw [hs, hsel], ?_⟩
    have hpiece : (s1.piece sel).color = (s.piece sel).color := by
      unfold piece
      rw [hh]
    rw [hpiece]
    refine check_castling_ready (check_castling_ready ?_ h3) h1 _ (Map.mem_of_at? hat) hst
    intro e he hne
    exfalso
    rcases select_en_passant_special R
      (with_selection s sel) sel
      with h0 | ⟨pos, h0⟩
    · rw [h0] at he
      change e ∈ s.special_moves_ at he
      rw [hsp] at he
      cases he
    · rw [h0] at he
      change e ∈ Map.insert s.special_moves_ SpecialMoveTag.EN_PASSANT pos at he
      rw [hsp] at he
      rcases Map.mem_insert he with h2 | ⟨rfl, _⟩
      · cases h2
      · exact hne rfl

/-- The board the constructor builds satisfies the invariant. -/
theorem castlingReady_construct (R : PieceRules) (turn : PieceColor) :
    CastlingReady (construct R turn) := by
  constructor
  · intro p hp
    have h1 : (construct R turn).white_pieces_ = (construct R PieceColor.WHITE).white_pieces_ := by
      cases turn <;> rfl
    have h2 : (construct R turn).black_pieces_ = (construct R PieceColor.WHITE).black_pieces_ := by
      cases turn <;> rfl
    rw [h1, h2] at hp
    have hall : ∀ q ∈ Map.keys ((List.range 8).foldl setup_file (empty_board PieceColor.WHITE)).white_pieces_,
        q ∉ Map.keys ((List.range 8).foldl setup_file (empty_board PieceColor.WHITE)).black_pieces_ := by
      decide
    exact hall p hp.1 hp.2
  · intro style t _ hat
    have : (construct R turn).special_moves_ = [] := by
      cases turn <;> rfl
    rw [this] at hat
    cases hat

/-- Call sequences whose selections find no special move pending keep the
invariant. -/
theorem castlingReady_run {R : PieceRules} {calls : List Call} {s s1 : Chessboard}
    (hJ : CastlingReady s) (hf : selects_fresh R s calls = true)
    (h : run R s calls = Except.ok s1) : CastlingReady s1 := by
  induction calls generalizing s with
  | nil =>
    simp only [run] at h
    cases h
    exact hJ
  | cons c cs ih =>
    rw [run] at h
    unfold selects_fresh at hf
    cases hc : step R s c with
    | error e => rw [hc] at h; cases h
    | ok s2 =>
      rw [hc] at h hf
      simp only at h
      have hf2 := Bool.and_eq_true_iff.mp hf
      refine ih ?_ hf2.2 h
      cases c with
      | select position color =>
        have hsp : s.special_moves_ = [] := by simpa using hf2.1
        exact castlingReady_select hJ hsp hc
      | move destination => exact castlingReady_move hJ hc

end Chessboard

/-- In every board reached from the constructor's setup by a sequence of
`move` calls, to any destination, and of `select_piece` calls, for either
color, that each find `special_moves_` empty, no position is a key of both
`white_pieces_` and `black_pieces_`. -/
theorem disjoint_keys_of_fresh_run (R : PieceRules) (turn : PieceColor) (calls : List Call)
    (s : Chessboard)
    (hf : Chessboard.selects_fresh R (Chessboard.construct R turn) calls = true)
    (h : Chessboard.run R (Chessboard.construct R turn) calls = Except.ok s) :
    ∀ p, ¬ (p ∈ Map.keys s.white_pieces_ ∧ p ∈ Map.keys s.black_pieces_) :=
  (Chessboard.castlingReady_run (Chessboard.castlingReady_construct R turn) hf h).disjoint

set_option maxRecDepth 100000 in
theorem disjoint_keys_of_fresh_run_witness :
    Chessboard.selects_fresh specRules (Chessboard.construct specRules PieceColor.WHITE)
        opening_calls = true ∧
      Chessboard.run specRules (Chessboard.construct specRules PieceColor.WHITE) opening_calls
        = Except.ok (Chessboard.after specRules Chessboard.start opening_calls) ∧
      ∀ p, ¬ (p ∈ Map.keys (Chessboard.after specRules Chessboard.start opening_calls).white_pieces_ ∧
        p ∈ Map.keys (Chessboard.after specRules Chessboard.start opening_calls).black_pieces_) :=
  ⟨by rfl, by rfl,
    disjoint_keys_of_fresh_run specRules PieceColor.WHITE opening_calls _ (by rfl) (by rfl)⟩

set_option maxRecDepth 100000 in
/-- C1 at a concrete board: after the calls `stale_castling_calls` the square
f8 is a key of both maps.  Before the last call the black pawn of h7 (piece
29) is the selected piece and `special_moves_` still holds the short-castling
entry registered for the white king, which no selection clears, and no
square is a key of both maps; `move(G1)` then takes the castling arm for the pawn, and `castle(SHORT_CASTLING, BLACK)`
puts the black rook on f8, where the white bishop stands. -/
theorem stale_castling_entry_breaks_disjoint_keys :
    ∃ s0 s, Chessboard.run specRules Chessboard.start stale_castling_calls.dropLast
        = Except.ok s0 ∧
      s0.selected_piece_ = some 29 ∧ (s0.piece 29).tag = PieceTag.PAWN ∧
      (s0.piece 29).color = PieceColor.BLACK ∧
      s0.special_moves_ = [(SpecialMoveTag.SHORT_CASTLING, ⟨File.G, 1⟩)] ∧
      (∀ p ∈ Map.keys s0.white_pieces_, p ∉ Map.keys s0.black_pieces_) ∧
      Chessboard.move specRules s0 ⟨File.G, 1⟩ = Except.ok s ∧
      Chessboard.run specRules Chessboard.start stale_castling_calls = Except.ok s ∧
      (⟨File.F, 8⟩ : Position) ∈ Map.keys s.white_pieces_ ∧
      (⟨File.F, 8⟩ : Position) ∈ Map.keys s.black_pieces_ :=
  ⟨Chessboard.after specRules Chessboard.start stale_castling_calls.dropLast,
    Chessboard.after specRules Chessboard.start stale_castling_calls,
    by rfl, by rfl, by decide, by decide, by decide, by decide, by rfl, by rfl, by decide,
    by decide⟩

/-! ## `move` does not validate its destination -/

namespace Chessboard

theorem with_pieces_self (s : Chessboard) (c : PieceColor) : with_pieces s c (s.pieces c) = s := by
  cases c <;> rfl

/-- Away from a registered castling target the capture cascade only changes
the opponent's map. -/
theorem resolve_capture_plain {s : Chessboard} {c : PieceColor} {d : Position}
    (hs : Map.at? s.special_moves_ SpecialMoveTag.SHORT_CASTLING ≠ some d)
    (hl : Map.at? s.special_moves_ SpecialMoveTag.LONG_CASTLING ≠ some d) :
    ∃ m, resolve_capture s c d = Except.ok (with_pieces s c.other m) := by
  unfold resolve_capture
  simp only
  by_cases h1 : Map.count (s.pieces c.other) d > 0
  · rw [if_pos h1]
    exact ⟨_, rfl⟩
  · rw [if_neg h1]
    by_cases h2 : Map.count s.special_moves_ SpecialMoveTag.EN_PASSANT > 0 ∧
        some d = Map.at? s.special_moves_ SpecialMoveTag.EN_PASSANT
    · rw [if_pos h2]
      exact ⟨_, rfl⟩
    · rw [if_neg h2, if_neg (fun h => hs h.2.symm), if_neg (fun h => hl h.2.symm)]
      exact ⟨s.pieces c.other, by rw [with_pieces_self]⟩

theorem with_pieces_piece (s : Chessboard) (c : PieceColor) (m : PieceMap) (j : PieceId) :
    (with_pieces s c m).piece j = s.piece j := by
  unfold piece
  rw [with_pieces_heap]

theorem settle_piece_self (s : Chessboard) (pc : PieceId) (d : Position) (c : PieceColor)
    (hv : pc < s.heap.length) :
    (settle s pc d c).piece pc = { s.piece pc with position := d } := by
  unfold settle piece
  simp only
  rw [deref_set_self _ hv]

/-- The effect of `move_piece` once the capture cascade has only changed the
opponent's map. -/
theorem move_piece_effect {R : PieceRules} {s : Chessboard} {pc : PieceId} {d : Position}
    {m : PieceMap} (hv : pc < s.heap.length)
    (hb : on_board (s.piece pc).position = true) (hd : on_board d = true)
    (h : resolve_capture (relocate (record_move s pc d) pc d) (s.piece pc).color d
      = Except.ok (with_pieces (relocate (record_move s pc d) pc d) (s.piece pc).color.other m)) :
    ∃ s1, move_piece R s pc d = Except.ok s1 ∧
      s1.last_move_ = { old_ := (s.piece pc).position, new_ := d, moved_piece_ := some pc } ∧
      s1.turn_ = (s.piece pc).color.other ∧
      (s1.piece pc).position = d ∧ (s1.piece pc).moved = true ∧
      s1.pieces (s.piece pc).color =
        Map.insert (Map.erase (s.pieces (s.piece pc).color) (s.piece pc).position) d pc ∧
      s1.pieces (s.piece pc).color.other = m := by
  have hcol : ((record_move s pc d).piece pc).color = (s.piece pc).color :=
    (record_move_piece s pc pc d).1
  have hpos : ((record_move s pc d).piece pc).position = (s.piece pc).position :=
    (record_move_piece s pc pc d).2.1
  have hmove : move_piece R s pc d = Except.ok (finish_move R
      (with_pieces (relocate (record_move s pc d) pc d) (s.piece pc).color.other m) pc d
      (s.piece pc).color) := by
    rw [move_piece_eq, if_pos (Bool.and_eq_true_iff.mpr ⟨hb, hd⟩), h]
  have hmoved : ((record_move s pc d).piece pc).moved = true := by
    unfold record_move piece
    simp only
    rw [deref_set_self _ hv]
  have hlen : (with_pieces (relocate (record_move s pc d) pc d)
      (s.piece pc).color.other m).heap.length = s.heap.length := by
    rw [with_pieces_heap]
    unfold relocate
    rw [with_pieces_heap, record_move_length]
  have hsettle : (settle (with_pieces (relocate (record_move s pc d) pc d)
      (s.piece pc).color.other m) pc d (s.piece pc).color).piece pc =
      { (record_move s pc d).piece pc with position := d } := by
    rw [settle_piece_self _ _ _ _ (hlen ▸ hv), with_pieces_piece, relocate_piece]
  refine ⟨_, hmove, ?_, ?_, ?_, ?_, ?_, ?_⟩
  · show (with_pieces (relocate (record_move s pc d) pc d) (s.piece pc).color.other m).last_move_ = _
    rw [with_pieces_last]
    unfold relocate
    rw [with_pieces_last]
    rfl
  · rfl
  · unfold finish_move
    rw [(set_available_moves_core R _ pc).2.2.1, hsettle]
  · unfold finish_move
    rw [(set_available_moves_core R _ pc).2.2.2, hsettle]
    exact hmoved
  · rw [finish_move_pieces, pieces_with_pieces_other _ _ _ _ (Ne.symm (other_ne _))]
    unfold relocate
    rw [hcol, hpos, pieces_with_pieces_same, record_move_pieces]
  · rw [finish_move_pieces, pieces_with_pieces_same]

end Chessboard

/-- C3 (amended): `move` does not validate its destination.  For every board
with a selected piece standing on a square of the board and every destination,
highlighted or not, that equals no registered castling target: when the
destination is a square of the board, `move(destination)` reports no failure
and applies the move (`last_move_` records the old position, the destination
and the piece, `turn_` becomes the color opposite to the piece's, the piece's
position is the destination and its moved flag is set, and the piece's own map
is the previous one with the old position erased and the destination
inserted); when it is not, the call ends in the out-of-bounds index
`at(destination)` into `squares_`. -/
theorem move_applies_any_destination (R : PieceRules) (s : Chessboard) (pc : PieceId)
    (d : Position) (hsel : s.selected_piece_ = some pc) (hv : pc < s.heap.length)
    (hb : Chessboard.on_board (s.piece pc).position = true)
    (hs : Map.at? s.special_moves_ SpecialMoveTag.SHORT_CASTLING ≠ some d)
    (hl : Map.at? s.special_moves_ SpecialMoveTag.LONG_CASTLING ≠ some d) :
    (Chessboard.on_board d = true →
      ∃ s1, Chessboard.move R s d = Except.ok s1 ∧
        s1.last_move_ = { old_ := (s.piece pc).position, new_ := d, moved_piece_ := some pc } ∧
        s1.turn_ = (s.piece pc).color.other ∧
        (s1.piece pc).position = d ∧ (s1.piece pc).moved = true ∧
        s1.pieces (s.piece pc).color =
          Map.insert (Map.erase (s.pieces (s.piece pc).color) (s.piece pc).position) d pc) ∧
      (Chessboard.on_board d = false →
        Chessboard.move R s d = Except.error Fault.out_of_bounds) := by
  have hmove : Chessboard.move R s d = Chessboard.move_piece R s pc d := by
    unfold Chessboard.move
    rw [hsel]
  constructor
  · intro hd
    have hsp : (Chessboard.relocate (Chessboard.record_move s pc d) pc d).special_moves_
        = s.special_moves_ := by
      unfold Chessboard.relocate
      rw [Chessboard.with_pieces_special]
      rfl
    obtain ⟨m, hm⟩ := Chessboard.resolve_capture_plain
      (s := Chessboard.relocate (Chessboard.record_move s pc d) pc d) (c := (s.piece pc).color)
      (d := d) (by rw [hsp]; exact hs) (by rw [hsp]; exact hl)
    obtain ⟨s1, h1, h2, h3, h4, h5, h6, _⟩ := Chessboard.move_piece_effect (R := R) hv hb hd hm
    exact ⟨s1, hmove.trans h1, h2, h3, h4, h5, h6⟩
  · intro hd
    rw [hmove]
    apply Chessboard.move_piece_off_board
    intro h
    rw [hd] at h
    cases h.2

set_option maxRecDepth 100000 in
theorem move_applies_any_destination_witness :
    knight_selected.selected_piece_ = some 6 ∧ 6 < knight_selected.heap.length ∧
      Chessboard.on_board (knight_selected.piece 6).position = true ∧
      (⟨File.B, 3⟩ : Position) ∉ knight_selected.highlighted_moves_ ∧
      Chessboard.on_board ⟨File.B, 3⟩ = true ∧ Chessboard.on_board ⟨File.B, 9⟩ = false ∧
      (∃ s1, Chessboard.move specRules knight_selected ⟨File.B, 3⟩ = Except.ok s1 ∧
        s1.last_move_ = { old_ := (knight_selected.piece 6).position, new_ := ⟨File.B, 3⟩,
                          moved_piece_ := some 6 } ∧
        s1.turn_ = (knight_selected.piece 6).color.other ∧
        (s1.piece 6).position = ⟨File.B, 3⟩ ∧ (s1.piece 6).moved = true ∧
        s1.pieces (knight_selected.piece 6).color =
          Map.insert (Map.erase (knight_selected.pieces (knight_selected.piece 6).color)
            (knight_selected.piece 6).position) ⟨File.B, 3⟩ 6) ∧
      Chessboard.move specRules knight_selected ⟨File.B, 9⟩ = Except.error Fault.out_of_bounds :=
  ⟨by rfl, by decide, by decide, by decide, by decide, by decide,
    (move_applies_any_destination specRules knight_selected 6 ⟨File.B, 3⟩ (by rfl) (by decide)
      (by decide) (by decide) (by decide)).1 (by decide),
    (move_applies_any_destination specRules knight_selected 6 ⟨File.B, 9⟩ (by rfl) (by decide)
      (by decide) (by decide) (by decide)).2 (by decide)⟩

set_option maxRecDepth 100000 in
/-- C3 (as stated) fails on Scenario 5: with the knight on b1 selected at the
start of a game, b3 is not highlighted, yet `move` to b3 returns without a
failure and the white map, `turn_`, `last_move_` and the knight's position and
moved flag have all changed. -/
theorem illegal_move_counterexample :
    ∃ s s1, Chessboard.select_piece specRules Chessboard.start ⟨File.B, 1⟩ PieceColor.WHITE
        = Except.ok s ∧
      s.selected_piece_ = some 6 ∧
      (⟨File.B, 3⟩ : Position) ∉ s.highlighted_moves_ ∧
      Chessboard.move specRules s ⟨File.B, 3⟩ = Except.ok s1 ∧
      s1.white_pieces_ ≠ s.white_pieces_ ∧ s1.turn_ ≠ s.turn_ ∧ s1.last_move_ ≠ s.last_move_ ∧
      (s1.piece 6).position ≠ (s.piece 6).position ∧ (s1.piece 6).moved ≠ (s.piece 6).moved :=
  ⟨knight_selected,
    Chessboard.after specRules Chessboard.start
      [Call.select ⟨File.B, 1⟩ PieceColor.WHITE, Call.move ⟨File.B, 3⟩],
    by rfl, by rfl, by decide, by rfl, by decide, by decide, by decide, by decide, by decide⟩

/-! ## Castling and the attack test at concrete boards -/

set_option maxRecDepth 100000 in
/-- C4 at a concrete board: after `queenside_calls` the long castling is
registered with target c1 for the unmoved white king (piece 18), the rook
(piece 2) standing on a1.  `move` to c1 stores the king on c1, but the rook is
stored nowhere: d1 holds no piece and no entry of the white map points to the
rook. -/
theorem queenside_castling_loses_rook :
    ∃ s s1, Chessboard.run specRules Chessboard.start queenside_calls = Except.ok s ∧
      Map.at? s.special_moves_ SpecialMoveTag.LONG_CASTLING = some ⟨File.C, 1⟩ ∧
      s.selected_piece_ = some 18 ∧ (s.piece 18).tag = PieceTag.KING ∧ (s.piece 18).moved = false ∧
      Map.at? s.white_pieces_ ⟨File.A, 1⟩ = some 2 ∧ (s.piece 2).tag = PieceTag.ROOK ∧
      Chessboard.move specRules s ⟨File.C, 1⟩ = Except.ok s1 ∧
      Map.at? s1.white_pieces_ ⟨File.C, 1⟩ = some 18 ∧
      Chessboard.piece_at s1 ⟨File.D, 1⟩ = none ∧
      (∀ e ∈ s1.white_pieces_, e.2 ≠ 2) :=
  ⟨Chessboard.after specRules Chessboard.start queenside_calls,
    Chessboard.after specRules Chessboard.start (queenside_calls ++ [Call.move ⟨File.C, 1⟩]),
    by rfl, by decide, by rfl, by decide, by decide, by decide, by decide, by rfl, by decide,
    by decide, by decide⟩

set_option maxRecDepth 100000 in
/-- C5 at a concrete board: after `rook_lift_calls` the white king (piece 18)
on e1 and the rook (piece 30) on h1 are unmoved, f1 and g1 are empty and not
reported attacked, and a1 is empty.  `select_piece` on the king ends in the
null dereference of `check_castling(LONG_CASTLING, WHITE)`: nothing is
recorded. -/
theorem kingside_castling_faults_without_queenside_rook :
    ∃ s, Chessboard.run specRules Chessboard.start rook_lift_calls = Except.ok s ∧
      Map.at? s.white_pieces_ ⟨File.E, 1⟩ = some 18 ∧ (s.piece 18).tag = PieceTag.KING ∧
      (s.piece 18).moved = false ∧
      Map.at? s.white_pieces_ ⟨File.H, 1⟩ = some 30 ∧ (s.piece 30).tag = PieceTag.ROOK ∧
      (s.piece 30).moved = false ∧
      Chessboard.piece_at s ⟨File.F, 1⟩ = none ∧ Chessboard.piece_at s ⟨File.G, 1⟩ = none ∧
      Chessboard.is_attacked s ⟨File.F, 1⟩ = false ∧ Chessboard.is_attacked s ⟨File.G, 1⟩ = false ∧
      Chessboard.piece_at s ⟨File.A, 1⟩ = none ∧
      Chessboard.select_piece specRules s ⟨File.E, 1⟩ PieceColor.WHITE
        = Except.error Fault.null_deref :=
  ⟨Chessboard.after specRules Chessboard.start rook_lift_calls,
    by rfl, by decide, by decide, by decide, by decide, by decide, by decide, by decide, by decide,
    by decide, by decide, by decide, by rfl⟩

set_option maxRecDepth 100000 in
/-- C6 at a concrete board: after `knight_a3_calls` the unmoved white king is
selected, the unmoved rook stands on a1, b1, c1 and d1 are empty, d1 and c1,
the squares the king passes through and lands on, are not reported attacked,
and b1 is.  `check_castling(LONG_CASTLING, WHITE)` returns the board
unchanged: c1 is not offered, the loop having applied `is_attacked` to b1
too. -/
theorem attack_on_file_b_blocks_queenside_castling :
    ∃ s, Chessboard.run specRules Chessboard.start knight_a3_calls = Except.ok s ∧
      s.selected_piece_ = some 18 ∧ (s.piece 18).tag = PieceTag.KING ∧ (s.piece 18).moved = false ∧
      Chessboard.piece_at s ⟨File.A, 1⟩ = some 2 ∧ (s.piece 2).moved = false ∧
      Chessboard.piece_at s ⟨File.B, 1⟩ = none ∧ Chessboard.piece_at s ⟨File.C, 1⟩ = none ∧
      Chessboard.piece_at s ⟨File.D, 1⟩ = none ∧
      Chessboard.is_attacked s ⟨File.D, 1⟩ = false ∧ Chessboard.is_attacked s ⟨File.C, 1⟩ = false ∧
      Chessboard.is_attacked s ⟨File.B, 1⟩ = true ∧
      Chessboard.check_castling s SpecialMoveTag.LONG_CASTLING PieceColor.WHITE = Except.ok s ∧
      (⟨File.C, 1⟩ : Position) ∉ s.highlighted_moves_ ∧
      Map.at? s.special_moves_ SpecialMoveTag.LONG_CASTLING = none :=
  ⟨Chessboard.after specRules Chessboard.start knight_a3_calls,
    by rfl, by rfl, by decide, by decide, by decide, by decide, by decide, by decide, by decide,
    by decide, by decide, by decide, by rfl, by decide, by decide⟩

set_option maxRecDepth 100000 in
/-- C8 at a concrete board: after 1. d4 it is Black's turn.  The white knight
on b1 has a3 among its legal moves and `is_attacked(a3)` is false; no white
piece has a6 among its legal moves and `is_attacked(a6)` is true (the black
knight on b8 has it). -/
theorem is_attacked_ignores_white_on_black_turn :
    ∃ s, Chessboard.run specRules Chessboard.start
          (ply PieceColor.WHITE ⟨File.D, 2⟩ ⟨File.D, 4⟩) = Except.ok s ∧
      s.turn_ = PieceColor.BLACK ∧
      (∃ e ∈ s.white_pieces_, (⟨File.A, 3⟩ : Position) ∈ (s.piece e.2).legal_moves) ∧
      Chessboard.is_attacked s ⟨File.A, 3⟩ = false ∧
      (∀ e ∈ s.white_pieces_, (⟨File.A, 6⟩ : Position) ∉ (s.piece e.2).legal_moves) ∧
      Chessboard.is_attacked s ⟨File.A, 6⟩ = true :=
  ⟨Chessboard.after specRules Chessboard.start (ply PieceColor.WHITE ⟨File.D, 2⟩ ⟨File.D, 4⟩),
    by rfl, by decide, by decide, by decide, by decide, by decide⟩

set_option maxRecDepth 100000 in
/-- C10 at a concrete board: after `kingside_calls` the white king is selected,
which registers the short castling with target g1; the pawn on a2 is selected
next.  No special move is detected for the pawn (selected on the board before
the king's selection it leaves `special_moves_` empty), yet `special_moves_`
still holds the castling entry. -/
theorem reselection_keeps_castling_entry :
    ∃ s s1 s2 s3, Chessboard.run specRules Chessboard.start kingside_calls = Except.ok s ∧
      s.special_moves_ = [] ∧
      Chessboard.select_piece specRules s ⟨File.E, 1⟩ PieceColor.WHITE = Except.ok s1 ∧
      s1.special_moves_ = [(SpecialMoveTag.SHORT_CASTLING, ⟨File.G, 1⟩)] ∧
      Chessboard.select_piece specRules s1 ⟨File.A, 2⟩ PieceColor.WHITE = Except.ok s2 ∧
      s2.selected_piece_ = some 0 ∧ (s2.piece 0).tag = PieceTag.PAWN ∧
      s2.special_moves_ = [(SpecialMoveTag.SHORT_CASTLING, ⟨File.G, 1⟩)] ∧
      Chessboard.select_piece specRules s ⟨File.A, 2⟩ PieceColor.WHITE = Except.ok s3 ∧
      s3.special_moves_ = [] :=
  ⟨Chessboard.after specRules Chessboard.start kingside_calls,
    Chessboard.after specRules Chessboard.start
      (kingside_calls ++ [Call.select ⟨File.E, 1⟩ PieceColor.WHITE]),
    Chessboard.after specRules Chessboard.start
      (kingside_calls ++ [Call.select ⟨File.E, 1⟩ PieceColor.WHITE,
        Call.select ⟨File.A, 2⟩ PieceColor.WHITE]),
    Chessboard.after specRules Chessboard.start
      (kingside_calls ++ [Call.select ⟨File.A, 2⟩ PieceColor.WHITE]),
    by rfl, by decide, by rfl, by decide, by rfl, by rfl, by decide, by decide, by rfl, by decide⟩

/-! ## When `check_castling` offers the target -/

namespace Chessboard

theorem castling_blocked_between (s : Chessboard) (style : SpecialMoveTag) (c : PieceColor) :
    castling_blocked s (home_rank c) (loop_begin style) (loop_count style) =
      (between_files style).any (fun f =>
        (piece_at s ⟨f, home_rank c⟩).isSome || is_attacked s ⟨f, home_rank c⟩) := by
  cases style <;> simp [loop_begin, loop_count, between_files, castling_blocked_succ, castling_blocked,
    File.B, File.C, File.D, File.E, File.F, File.G, File.H]

theorem castling_blocked_false_iff (s : Chessboard) (style : SpecialMoveTag) (c : PieceColor) :
    castling_blocked s (home_rank c) (loop_begin style) (loop_count style) = false ↔
      CastlingFree s style c := by
  rw [castling_blocked_between]
  unfold CastlingFree
  constructor
  · intro h f hf
    have h1 := List.any_eq_false.mp h f hf
    simpa using h1
  · intro h
    apply List.any_eq_false.mpr
    intro f hf
    obtain ⟨h1, h2⟩ := h f hf
    rw [h1, h2]
    simp

end Chessboard

/-- What the loop of `check_castling` tests.  For a selected unmoved king whose
rook square (file A for long, file H for short, on the home rank of `c`) holds
an unmoved piece, `check_castling(style, c)` returns, and it appends the
castling target (file C for long, file G for short) to `highlighted_moves_`
and inserts it into `special_moves_` under `style` if and only if every square
strictly between king and rook (files B, C, D for long; F, G for short) is
unoccupied and not reported attacked by `is_attacked`; otherwise the board is
unchanged.  The attack test of the source thus covers file B as well. -/
theorem check_castling_offers_iff (s : Chessboard) (style : SpecialMoveTag) (c : PieceColor)
    (sel rook : PieceId) (hsel : s.selected_piece_ = some sel)
    (hking : (s.piece sel).tag = PieceTag.KING) (hunmoved : (s.piece sel).moved = false)
    (hrook : Chessboard.piece_at s ⟨Chessboard.rook_file style, Chessboard.home_rank c⟩ = some rook)
    (hrm : (s.piece rook).moved = false) :
    ∃ s1, Chessboard.check_castling s style c = Except.ok s1 ∧
      (CastlingFree s style c →
        s1 = { s with
          highlighted_moves_ := s.highlighted_moves_ ++
            [⟨Chessboard.castling_file style, Chessboard.home_rank c⟩]
          special_moves_ := Map.insert s.special_moves_ style
            ⟨Chessboard.castling_file style, Chessboard.home_rank c⟩ }) ∧
      (¬ CastlingFree s style c → s1 = s) := by
  have hk : ¬ ((s.piece sel).tag ≠ PieceTag.KING ∨ (s.piece sel).moved = true) := by
    rw [hking, hunmoved]
    simp
  rw [Chessboard.check_castling_king hsel hk, hrook]
  simp only
  rw [if_neg (by rw [hrm]; simp)]
  by_cases hb : Chessboard.castling_blocked s (Chessboard.home_rank c) (Chessboard.loop_begin style)
      (Chessboard.loop_count style) = true
  · rw [if_pos hb]
    refine ⟨s, rfl, fun hfree => ?_, fun _ => rfl⟩
    have := (Chessboard.castling_blocked_false_iff s style c).mpr hfree
    rw [hb] at this
    cases this
  · rw [if_neg hb]
    refine ⟨_, rfl, fun _ => rfl, fun hnf => ?_⟩
    exfalso
    apply hnf
    apply (Chessboard.castling_blocked_false_iff s style c).mp
    simpa using hb

set_option maxRecDepth 100000 in
theorem check_castling_offers_iff_witness :
    king_just_selected.selected_piece_ = some 18 ∧
      (king_just_selected.piece 18).tag = PieceTag.KING ∧
      (king_just_selected.piece 18).moved = false ∧
      Chessboard.piece_at king_just_selected ⟨File.H, 1⟩ = some 30 ∧
      (king_just_selected.piece 30).moved = false ∧
      CastlingFree king_just_selected SpecialMoveTag.SHORT_CASTLING PieceColor.WHITE ∧
      ∃ s1, Chessboard.check_castling king_just_selected SpecialMoveTag.SHORT_CASTLING
          PieceColor.WHITE = Except.ok s1 ∧
        (CastlingFree king_just_selected SpecialMoveTag.SHORT_CASTLING PieceColor.WHITE →
          s1 = { king_just_selected with
            highlighted_moves_ := king_just_selected.highlighted_moves_ ++ [⟨File.G, 1⟩]
            special_moves_ := Map.insert king_just_selected.special_moves_
              SpecialMoveTag.SHORT_CASTLING ⟨File.G, 1⟩ }) ∧
        (¬ CastlingFree king_just_selected SpecialMoveTag.SHORT_CASTLING PieceColor.WHITE →
          s1 = king_just_selected) :=
  ⟨by rfl, by decide, by decide, by decide, by decide, by unfold CastlingFree; decide,
    check_castling_offers_iff king_just_selected SpecialMoveTag.SHORT_CASTLING PieceColor.WHITE
      18 30 (by rfl) (by decide) (by decide) (by decide) (by decide)⟩

/-- C7: for every board and either castling style, if some square strictly
between the king's home square and the corresponding rook's home square is
occupied by a piece of either color, a `check_castling` call that returns
leaves `highlighted_moves_` and `special_moves_` as they were; and it does
return, with the whole board unchanged, whenever a piece is selected and the
rook's home square is occupied. -/
theorem blocked_castling_not_offered (s : Chessboard) (style : SpecialMoveTag) (c : PieceColor)
    (f : Nat) (hf : f ∈ between_files style)
    (hocc : Chessboard.piece_at s ⟨f, Chessboard.home_rank c⟩ ≠ none) :
    (∀ s1, Chessboard.check_castling s style c = Except.ok s1 →
        s1.highlighted_moves_ = s.highlighted_moves_ ∧ s1.special_moves_ = s.special_moves_) ∧
      (∀ sel rook, s.selected_piece_ = some sel →
        Chessboard.piece_at s ⟨Chessboard.rook_file style, Chessboard.home_rank c⟩ = some rook →
        Chessboard.check_castling s style c = Except.ok s) := by
  have hblocked : Chessboard.castling_blocked s (Chessboard.home_rank c)
      (Chessboard.loop_begin style) (Chessboard.loop_count style) = true := by
    cases hb : Chessboard.castling_blocked s (Chessboard.home_rank c)
        (Chessboard.loop_begin style) (Chessboard.loop_count style) with
    | true => rfl
    | false => exact absurd ((Chessboard.castling_blocked_false_iff s style c).mp hb f hf).1 hocc
  constructor
  · intro s1 h
    rcases Chessboard.check_castling_cases h with h1 | ⟨_, _, _, _, hb, _⟩
    · rw [h1]
      exact ⟨rfl, rfl⟩
    · rw [hblocked] at hb
      cases hb
  · intro sel rook hsel hrook
    by_cases hk : (s.piece sel).tag ≠ PieceTag.KING ∨ (s.piece sel).moved = true
    · exact Chessboard.check_castling_not_king hsel hk
    · rw [Chessboard.check_castling_king hsel hk, hrook]
      simp only
      by_cases hm : (s.piece rook).moved = true
      · rw [if_pos hm]
      · rw [if_neg hm, if_pos hblocked]

set_option maxRecDepth 100000 in
theorem blocked_castling_not_offered_witness :
    File.F ∈ between_files SpecialMoveTag.SHORT_CASTLING ∧
      king_selected_at_start.selected_piece_ = some 18 ∧
      Chessboard.piece_at king_selected_at_start ⟨File.F, 1⟩ = some 22 ∧
      (∀ s1, Chessboard.check_castling king_selected_at_start SpecialMoveTag.SHORT_CASTLING
          PieceColor.WHITE = Except.ok s1 →
        s1.highlighted_moves_ = king_selected_at_start.highlighted_moves_ ∧
          s1.special_moves_ = king_selected_at_start.special_moves_) ∧
      (∀ sel rook, king_selected_at_start.selected_piece_ = some sel →
        Chessboard.piece_at king_selected_at_start
          ⟨Chessboard.rook_file SpecialMoveTag.SHORT_CASTLING,
            Chessboard.home_rank PieceColor.WHITE⟩ = some rook →
        Chessboard.check_castling king_selected_at_start SpecialMoveTag.SHORT_CASTLING
          PieceColor.WHITE = Except.ok king_selected_at_start) :=
  ⟨by decide, by rfl, by decide,
    blocked_castling_not_offered king_selected_at_start SpecialMoveTag.SHORT_CASTLING
      PieceColor.WHITE File.F (by decide) (by decide)⟩

/-! ## En passant -/

namespace Chessboard

/-- Selecting a piece that is not an unmoved king: both `check_castling` calls
return at once. -/
theorem select_piece_not_king {R : PieceRules} {s : Chessboard} {position : Position}
    {color : PieceColor} {sel : PieceId} (hsel : Map.at? (s.pieces color) position = some sel)
    (hk : (s.piece sel).tag ≠ PieceTag.KING ∨ (s.piece sel).moved = true) :
    select_piece R s position color =
      Except.ok (select_en_passant R (with_selection s sel) sel) := by
  have hfr := select_en_passant_frame R (with_selection s sel) sel
  have hpiece : (select_en_passant R (with_selection s sel) sel).piece sel = s.piece sel := by
    unfold piece
    rw [hfr.1]
    rfl
  have hcc : ∀ style c, check_castling (select_en_passant R (with_selection s sel) sel) style c
      = Except.ok (select_en_passant R (with_selection s sel) sel) := by
    intro style c
    apply @check_castling_not_king _ style c sel
    · rw [hfr.2.2.2.2.2]
      rfl
    · rw [hpiece]
      exact hk
  rw [select_piece_eq, hsel]
  simp only
  rw [hcc]
  simp only
  rw [hcc]

/-- The en-passant block of `select_piece` when the test succeeds. -/
theorem select_en_passant_eligible {R : PieceRules} {s : Chessboard} {sel last : PieceId}
    (hlast : s.last_move_.moved_piece_ = some last) (htag : (s.piece sel).tag = PieceTag.PAWN)
    (hep : R.check_en_passant s.last_move_.old_ s.last_move_.new_ (s.piece last) (s.piece sel)
      = true) :
    select_en_passant R s sel = en_passant_offered s (en_passant_target s sel) := by
  unfold select_en_passant
  split
  · rename_i h0
    rw [hlast] at h0
    cases h0
  · rename_i last2 h0
    rw [hlast] at h0
    cases h0
    rw [if_pos ⟨htag, hep⟩]

/-- A `move_piece` whose capture cascade returns ends in `finish_move`. -/
theorem move_piece_of_resolve {R : PieceRules} {s s3 : Chessboard} {pc : PieceId} {d : Position}
    (hb : on_board (s.piece pc).position = true) (hd : on_board d = true)
    (h : resolve_capture (relocate (record_move s pc d) pc d) (s.piece pc).color d = Except.ok s3) :
    move_piece R s pc d = Except.ok (finish_move R s3 pc d (s.piece pc).color) := by
  rw [move_piece_eq, if_pos (Bool.and_eq_true_iff.mpr ⟨hb, hd⟩), h]

/-- The en-passant arm of the capture cascade. -/
theorem resolve_capture_en_passant {s : Chessboard} {c : PieceColor} {d : Position}
    (hfree : d ∉ Map.keys (s.pieces c.other))
    (hep : Map.at? s.special_moves_ SpecialMoveTag.EN_PASSANT = some d) :
    resolve_capture s c d = Except.ok (with_pieces s c.other
      (Map.erase (s.pieces c.other) ⟨d.file_, en_passant_rank c⟩)) := by
  unfold resolve_capture
  simp only
  rw [if_neg (Map.count_eq_zero_iff.mpr hfree)]
  have hc : Map.count s.special_moves_ SpecialMoveTag.EN_PASSANT > 0 :=
    Map.count_pos_iff.mpr (Map.mem_keys_of_mem (Map.mem_of_at? hep))
  rw [if_pos ⟨hc, hep.symm⟩]

/-- The opponent's map seen from the board `relocate` leaves. -/
theorem relocate_record_other (s : Chessboard) (pc : PieceId) (d : Position) :
    (relocate (record_move s pc d) pc d).pieces (s.piece pc).color.other
      = s.pieces (s.piece pc).color.other := by
  have h := @relocate_other (record_move s pc d) pc d
  rw [(record_move_piece s pc pc d).1, record_move_pieces] at h
  exact h

theorem relocate_record_special (s : Chessboard) (pc : PieceId) (d : Position) :
    (relocate (record_move s pc d) pc d).special_moves_ = s.special_moves_ := by
  unfold relocate
  rw [with_pieces_special]
  rfl

/-- A move onto a registered en-passant target the opponent does not occupy. -/
theorem move_en_passant {R : PieceRules} {s : Chessboard} {pc : PieceId} {d : Position}
    (hsel : s.selected_piece_ = some pc)
    (hb : on_board (s.piece pc).position = true) (hd : on_board d = true)
    (hfree : d ∉ Map.keys (s.pieces (s.piece pc).color.other))
    (hep : Map.at? s.special_moves_ SpecialMoveTag.EN_PASSANT = some d) :
    ∃ s2, move R s d = Except.ok s2 ∧
      s2.pieces (s.piece pc).color.other =
        Map.erase (s.pieces (s.piece pc).color.other) ⟨d.file_, en_passant_rank (s.piece pc).color⟩ := by
  have hres := resolve_capture_en_passant (s := relocate (record_move s pc d) pc d)
    (c := (s.piece pc).color) (d := d)
    (by rw [relocate_record_other]; exact hfree)
    (by rw [relocate_record_special]; exact hep)
  have hmove : move R s d = move_piece R s pc d := by
    unfold move
    rw [hsel]
  rw [hmove, move_piece_of_resolve hb hd hres]
  refine ⟨_, rfl, ?_⟩
  rw [finish_move_pieces, pieces_with_pieces_same, relocate_record_other]

end Chessboard

/-- C9: let the last move be an opponent pawn's two-square advance on file
`f`, one of the files A to H (from rank 7 to rank 5 when White is to capture,
from rank 2 to rank 4 when Black is), let the selected pawn stand on a square
of the board and pass `check_en_passant`, and let `special_moves_` hold no
other en-passant target.  Then after `select_piece`
the target `t` on file `f`, rank 6 (white) or 3 (black), is registered under
`EN_PASSANT` and highlighted; and when the opponent has no piece on `t`,
`move` to `t` leaves the opponent's map as it was with exactly the entry on
file `f`, rank 5 (white mover) or 4 (black mover) erased, which is the square
`last_move_.new_` of the pawn that advanced. -/
theorem en_passant_removes_advanced_pawn (R : PieceRules) (s : Chessboard) (position : Position)
    (color : PieceColor) (sel last : PieceId) (f : Nat)
    (hsel : Map.at? (s.pieces color) position = some sel)
    (htag : (s.piece sel).tag = PieceTag.PAWN) (hcol : (s.piece sel).color = color)
    (hboard : Chessboard.on_board (s.piece sel).position = true) (hfile : f < 8)
    (hlast : s.last_move_.moved_piece_ = some last)
    (hold : s.last_move_.old_ = ⟨f, if color = PieceColor.WHITE then 7 else 2⟩)
    (hnew : s.last_move_.new_ = ⟨f, if color = PieceColor.WHITE then 5 else 4⟩)
    (hep : R.check_en_passant s.last_move_.old_ s.last_move_.new_ (s.piece last) (s.piece sel)
      = true)
    (hfresh : ∀ t, Map.at? s.special_moves_ SpecialMoveTag.EN_PASSANT = some t →
      t = ⟨f, if color = PieceColor.WHITE then 6 else 3⟩)
    (hfree : (⟨f, if color = PieceColor.WHITE then 6 else 3⟩ : Position)
      ∉ Map.keys (s.pieces color.other)) :
    ∃ s1 s2, Chessboard.select_piece R s position color = Except.ok s1 ∧
      Map.at? s1.special_moves_ SpecialMoveTag.EN_PASSANT
        = some ⟨f, if color = PieceColor.WHITE then 6 else 3⟩ ∧
      (⟨f, if color = PieceColor.WHITE then 6 else 3⟩ : Position) ∈ s1.highlighted_moves_ ∧
      Chessboard.move R s1 ⟨f, if color = PieceColor.WHITE then 6 else 3⟩ = Except.ok s2 ∧
      s2.pieces color.other =
        Map.erase (s1.pieces color.other) ⟨f, if color = PieceColor.WHITE then 5 else 4⟩ ∧
      (⟨f, if color = PieceColor.WHITE then 5 else 4⟩ : Position) = s1.last_move_.new_ := by
  have hrank : Chessboard.en_passant_rank color = if color = PieceColor.WHITE then 5 else 4 := by
    cases color <;> rfl
  have htarget : Chessboard.en_passant_target (Chessboard.with_selection s sel) sel
      = ⟨f, if color = PieceColor.WHITE then 6 else 3⟩ := by
    show (⟨s.last_move_.old_.file_, if (s.piece sel).color = PieceColor.WHITE then 6 else 3⟩ : Position) = _
    rw [hcol, hold]
  have hs1 : Chessboard.select_piece R s position color = Except.ok
      (Chessboard.en_passant_offered (Chessboard.with_selection s sel)
        ⟨f, if color = PieceColor.WHITE then 6 else 3⟩) := by
    rw [Chessboard.select_piece_not_king hsel (Or.inl (by rw [htag]; decide)),
      @Chessboard.select_en_passant_eligible R (Chessboard.with_selection s sel) sel last
        hlast htag hep, htarget]
  have hat : Map.at? (Chessboard.en_passant_offered (Chessboard.with_selection s sel)
      ⟨f, if color = PieceColor.WHITE then 6 else 3⟩).special_moves_ SpecialMoveTag.EN_PASSANT
      = some ⟨f, if color = PieceColor.WHITE then 6 else 3⟩ :=
    Map.at?_insert_of_unique hfresh
  have hpieces : ∀ c2, (Chessboard.en_passant_offered (Chessboard.with_selection s sel)
      ⟨f, if color = PieceColor.WHITE then 6 else 3⟩).pieces c2 = s.pieces c2 := by
    intro c2
    cases c2 <;> rfl
  have hpc : (Chessboard.en_passant_offered (Chessboard.with_selection s sel)
      ⟨f, if color = PieceColor.WHITE then 6 else 3⟩).piece sel = s.piece sel := rfl
  obtain ⟨s2, hm, hopp⟩ := @Chessboard.move_en_passant R
    (Chessboard.en_passant_offered (Chessboard.with_selection s sel)
      ⟨f, if color = PieceColor.WHITE then 6 else 3⟩)
    sel ⟨f, if color = PieceColor.WHITE then 6 else 3⟩ rfl
    (by rw [hpc]; exact hboard)
    (by
      unfold Chessboard.on_board
      cases color <;> simp [hfile])
    (by rw [hpc, hcol, hpieces]; exact hfree) hat
  rw [hpc, hcol, hrank] at hopp
  exact ⟨_, s2, hs1, hat, List.mem_append.mpr (Or.inr (List.mem_singleton.mpr rfl)), hm, hopp,
    hnew.symm⟩

set_option maxRecDepth 100000 in
theorem en_passant_removes_advanced_pawn_witness :
    Map.at? (en_passant_board.pieces PieceColor.BLACK) ⟨File.D, 4⟩ = some 13 ∧
      (en_passant_board.piece 13).tag = PieceTag.PAWN ∧
      Chessboard.on_board (en_passant_board.piece 13).position = true ∧
      en_passant_board.last_move_ = { old_ := ⟨File.E, 2⟩, new_ := ⟨File.E, 4⟩, moved_piece_ := some 16 } ∧
      Map.at? en_passant_board.white_pieces_ ⟨File.E, 4⟩ = some 16 ∧
      ∃ s1 s2, Chessboard.select_piece specRules en_passant_board ⟨File.D, 4⟩ PieceColor.BLACK
          = Except.ok s1 ∧
        Map.at? s1.special_moves_ SpecialMoveTag.EN_PASSANT = some ⟨File.E, 3⟩ ∧
        (⟨File.E, 3⟩ : Position) ∈ s1.highlighted_moves_ ∧
        Chessboard.move specRules s1 ⟨File.E, 3⟩ = Except.ok s2 ∧
        s2.pieces PieceColor.WHITE = Map.erase (s1.pieces PieceColor.WHITE) ⟨File.E, 4⟩ ∧
        (⟨File.E, 4⟩ : Position) = s1.last_move_.new_ :=
  ⟨by decide, by decide, by decide, by decide, by decide,
    en_passant_removes_advanced_pawn specRules en_passant_board ⟨File.D, 4⟩ PieceColor.BLACK
      13 16 File.E (by decide) (by decide) (by decide) (by decide) (by decide) (by decide)
      (by decide) (by decide) (by decide)
      (fun t h => by
        have h0 : Map.at? en_passant_board.special_moves_ SpecialMoveTag.EN_PASSANT = none := by
          decide
        rw [h0] at h
        cases h)
      (by decide)⟩

/-! ## Kingside castling when the queen's rook square is occupied -/

namespace Chessboard

theorem position_ne {f g : Nat} (r : Nat) (h : f ≠ g) : (⟨f, r⟩ : Position) ≠ ⟨g, r⟩ := by
  intro hp
  injection hp with h1 _
  exact h h1

/-- The attack test reads `black_pieces_` and the heap only. -/
theorem is_attacked_eq (s : Chessboard) (p : Position) :
    is_attacked s p =
      s.black_pieces_.any (fun pair => (s.piece pair.2).legal_moves.any (fun mv => decide (mv = p))) := by
  unfold is_attacked
  cases s.turn_ <;> rfl

theorem is_attacked_congr {s t : Chessboard} (hh : t.heap = s.heap)
    (hb : t.black_pieces_ = s.black_pieces_) (p : Position) : is_attacked t p = is_attacked s p := by
  rw [is_attacked_eq, is_attacked_eq, hb]
  unfold piece
  rw [hh]

theorem piece_at_congr {s t : Chessboard} (hw : t.white_pieces_ = s.white_pieces_)
    (hb : t.black_pieces_ = s.black_pieces_) (p : Position) : piece_at t p = piece_at s p := by
  unfold piece_at
  rw [hw, hb]

theorem castling_blocked_congr {s t : Chessboard} (hh : t.heap = s.heap)
    (hw : t.white_pieces_ = s.white_pieces_) (hb : t.black_pieces_ = s.black_pieces_)
    (rank b n : Nat) : castling_blocked t rank b n = castling_blocked s rank b n := by
  induction n generalizing b with
  | zero => rfl
  | succ n ih =>
    rw [castling_blocked_succ, castling_blocked_succ, ih, piece_at_congr hw hb,
      is_attacked_congr hh hb]

/-- The en-passant block leaves the board alone when the selected piece is no
pawn. -/
theorem select_en_passant_not_pawn (R : PieceRules) (s : Chessboard) (sel : PieceId)
    (h : (s.piece sel).tag ≠ PieceTag.PAWN) : select_en_passant R s sel = s := by
  unfold select_en_passant
  split
  · rfl
  · rw [if_neg (fun hc => h hc.1)]

/-- `check_castling` returns when a piece is selected and the rook square is
occupied: with the board as it was or with the target offered. -/
theorem check_castling_total {s : Chessboard} {sel : PieceId} (style : SpecialMoveTag)
    (c : PieceColor) (hsel : s.selected_piece_ = some sel)
    (hrook : piece_at s ⟨rook_file style, home_rank c⟩ ≠ none) :
    check_castling s style c = Except.ok s ∨
      check_castling s style c = Except.ok (castling_offered s style c) := by
  by_cases hk : (s.piece sel).tag ≠ PieceTag.KING ∨ (s.piece sel).moved = true
  · exact Or.inl (check_castling_not_king hsel hk)
  · rw [check_castling_king hsel hk]
    cases hr : piece_at s ⟨rook_file style, home_rank c⟩ with
    | none => exact absurd hr hrook
    | some rook =>
      simp only
      by_cases hm : (s.piece rook).moved = true
      · rw [if_pos hm]
        exact Or.inl rfl
      · rw [if_neg hm]
        by_cases hb : castling_blocked s (home_rank c) (loop_begin style) (loop_count style) = true
        · rw [if_pos hb]
          exact Or.inl rfl
        · rw [if_neg hb]
          exact Or.inr rfl

/-- `check_castling` offers the target for an unmoved king and rook with free
squares between them. -/
theorem check_castling_free {s : Chessboard} {sel rook : PieceId} {style : SpecialMoveTag}
    {c : PieceColor} (hsel : s.selected_piece_ = some sel)
    (hking : (s.piece sel).tag = PieceTag.KING) (hunmoved : (s.piece sel).moved = false)
    (hrook : piece_at s ⟨rook_file style, home_rank c⟩ = some rook)
    (hrm : (s.piece rook).moved = false) (hfree : CastlingFree s style c) :
    check_castling s style c = Except.ok (castling_offered s style c) := by
  have hk : ¬ ((s.piece sel).tag ≠ PieceTag.KING ∨ (s.piece sel).moved = true) := by
    rw [hking, hunmoved]
    simp
  rw [check_castling_king hsel hk, hrook]
  simp only
  rw [if_neg (by rw [hrm]; simp),
    if_neg (by rw [(castling_blocked_false_iff s style c).mpr hfree]; simp)]

/-- The castling arm of the capture cascade for the short castling. -/
theorem resolve_capture_short {s : Chessboard} {c : PieceColor} {d : Position}
    (hfree : d ∉ Map.keys (s.pieces c.other))
    (hep : Map.at? s.special_moves_ SpecialMoveTag.EN_PASSANT ≠ some d)
    (hs : Map.at? s.special_moves_ SpecialMoveTag.SHORT_CASTLING = some d) :
    resolve_capture s c d = castle s SpecialMoveTag.SHORT_CASTLING c := by
  unfold resolve_capture
  simp only
  rw [if_neg (Map.count_eq_zero_iff.mpr hfree), if_neg (fun h => hep h.2.symm)]
  have hc : Map.count s.special_moves_ SpecialMoveTag.SHORT_CASTLING > 0 :=
    Map.count_pos_iff.mpr (Map.mem_keys_of_mem (Map.mem_of_at? hs))
  rw [if_pos ⟨hc, hs.symm⟩]

/-- `castle` when the rook is at home and its destination is free in the
mover's map. -/
theorem castle_of_free {s : Chessboard} {style : SpecialMoveTag} {c : PieceColor} {rook : PieceId}
    (hr : Map.at? (s.pieces c) (rook_initial style c) = some rook)
    (hd : rook_destination style c ∉ Map.keys (s.pieces c)) :
    castle s style c = Except.ok
      { with_pieces s c (Map.erase (Map.insert (s.pieces c) (rook_destination style c) rook)
          (rook_initial style c)) with
        heap := s.heap.set rook { deref s.heap rook with position := rook_destination style c } } := by
  have h2 : Map.at? (Map.erase (Map.insert (s.pieces c) (rook_destination style c) rook)
      (rook_initial style c)) (rook_destination style c) = some rook := by
    rw [Map.at?_erase_of_ne (rook_squares_ne style c), Map.at?_insert_self hd]
  unfold castle
  simp only
  unfold rook_initial at hr h2
  unfold rook_destination at h2
  rw [hr]
  simp only
  rw [h2]
  rfl

theorem piece_at_none_of_color (s : Chessboard) (c : PieceColor) (p : Position)
    (h1 : p ∉ Map.keys (s.pieces c)) (h2 : p ∉ Map.keys (s.pieces c.other)) :
    piece_at s p = none := by
  apply (piece_at_none_iff s p).mpr
  cases c
  · exact ⟨h1, h2⟩
  · exact ⟨h2, h1⟩

theorem piece_at_of_color (s : Chessboard) (c : PieceColor) (p : Position) (v : PieceId)
    (h1 : Map.at? (s.pieces c) p = some v) (h2 : p ∉ Map.keys (s.pieces c.other)) :
    piece_at s p = some v := by
  unfold piece_at
  cases c
  · have hc : Map.count s.white_pieces_ p > 0 :=
      Map.count_pos_iff.mpr (Map.mem_keys_of_mem (Map.mem_of_at? h1))
    rw [if_pos hc]
    exact h1
  · have h0 : ¬ Map.count s.white_pieces_ p > 0 := Map.count_eq_zero_iff.mpr h2
    rw [if_neg h0]
    have hc : Map.count s.black_pieces_ p > 0 :=
      Map.count_pos_iff.mpr (Map.mem_keys_of_mem (Map.mem_of_at? h1))
    rw [if_pos hc]
    exact h1

theorem not_mem_keys_of_piece_at_none {s : Chessboard} {p : Position} (h : piece_at s p = none)
    (c : PieceColor) : p ∉ Map.keys (s.pieces c) := by
  have := (piece_at_none_iff s p).mp h
  cases c
  · exact this.1
  · exact this.2

theorem castled_pieces_same (s : Chessboard) (style : SpecialMoveTag) (c : PieceColor)
    (rook : PieceId) :
    (castled s style c rook).pieces c =
      Map.erase (Map.insert (s.pieces c) (rook_destination style c) rook) (rook_initial style c) := by
  cases c <;> rfl

theorem castled_pieces_other (s : Chessboard) (style : SpecialMoveTag) (c : PieceColor)
    (rook : PieceId) : (castled s style c rook).pieces c.other = s.pieces c.other := by
  cases c <;> rfl

theorem castled_heap (s : Chessboard) (style : SpecialMoveTag) (c : PieceColor) (rook : PieceId) :
    (castled s style c rook).heap =
      s.heap.set rook { deref s.heap rook with position := rook_destination style c } := rfl

/-- The short castling of an unmoved king on file E with an unmoved rook on
file H, on a board where a piece is selected as the king and no short-castling
or en-passant entry is registered: `check_castling` offers file G, and `move`
to it stores the king on file G and the rook on file F and empties files E
and H. -/
theorem kingside_core (R : PieceRules) (t : Chessboard) (c : PieceColor) (king rook : PieceId)
    (hsel : t.selected_piece_ = some king)
    (hktag : (t.piece king).tag = PieceTag.KING) (hkcol : (t.piece king).color = c)
    (hkpos : (t.piece king).position = ⟨File.E, home_rank c⟩)
    (hkm : (t.piece king).moved = false) (hkv : king < t.heap.length)
    (hr : Map.at? (t.pieces c) ⟨File.H, home_rank c⟩ = some rook)
    (hrm : (t.piece rook).moved = false) (hrv : rook < t.heap.length) (hne : king ≠ rook)
    (hoE : (⟨File.E, home_rank c⟩ : Position) ∉ Map.keys (t.pieces c.other))
    (hoH : (⟨File.H, home_rank c⟩ : Position) ∉ Map.keys (t.pieces c.other))
    (hfree : CastlingFree t SpecialMoveTag.SHORT_CASTLING c)
    (hs : Map.at? t.special_moves_ SpecialMoveTag.SHORT_CASTLING = none)
    (he : Map.at? t.special_moves_ SpecialMoveTag.EN_PASSANT = none) :
    check_castling t SpecialMoveTag.SHORT_CASTLING c
        = Except.ok (castling_offered t SpecialMoveTag.SHORT_CASTLING c) ∧
      ∃ s2, move R (castling_offered t SpecialMoveTag.SHORT_CASTLING c) ⟨File.G, home_rank c⟩
          = Except.ok s2 ∧
        Map.at? (s2.pieces c) ⟨File.G, home_rank c⟩ = some king ∧
        (s2.piece king).position = ⟨File.G, home_rank c⟩ ∧
        Map.at? (s2.pieces c) ⟨File.F, home_rank c⟩ = some rook ∧
        (s2.piece rook).position = ⟨File.F, home_rank c⟩ ∧
        piece_at s2 ⟨File.E, home_rank c⟩ = none ∧ piece_at s2 ⟨File.H, home_rank c⟩ = none := by
  -- the squares
  have hF : piece_at t ⟨File.F, home_rank c⟩ = none := (hfree File.F (by decide)).1
  have hG : piece_at t ⟨File.G, home_rank c⟩ = none := (hfree File.G (by decide)).1
  have hEG : (⟨File.E, home_rank c⟩ : Position) ≠ ⟨File.G, home_rank c⟩ := position_ne _ (by decide)
  have hEF : (⟨File.E, home_rank c⟩ : Position) ≠ ⟨File.F, home_rank c⟩ := position_ne _ (by decide)
  have hHG : (⟨File.H, home_rank c⟩ : Position) ≠ ⟨File.G, home_rank c⟩ := position_ne _ (by decide)
  have hHE : (⟨File.H, home_rank c⟩ : Position) ≠ ⟨File.E, home_rank c⟩ := position_ne _ (by decide)
  have hFG : (⟨File.F, home_rank c⟩ : Position) ≠ ⟨File.G, home_rank c⟩ := position_ne _ (by decide)
  have hFH : (⟨File.F, home_rank c⟩ : Position) ≠ ⟨File.H, home_rank c⟩ := position_ne _ (by decide)
  have hGH : (⟨File.G, home_rank c⟩ : Position) ≠ ⟨File.H, home_rank c⟩ := position_ne _ (by decide)
  have hGF : (⟨File.G, home_rank c⟩ : Position) ≠ ⟨File.F, home_rank c⟩ := position_ne _ (by decide)
  -- the selection offers g
  have hoffer : check_castling t SpecialMoveTag.SHORT_CASTLING c
      = Except.ok (castling_offered t SpecialMoveTag.SHORT_CASTLING c) :=
    check_castling_free hsel hktag hkm (piece_at_of_color t c _ rook hr hoH) hrm hfree
  refine ⟨hoffer, ?_⟩
  -- the board with the offer, and the board after `relocate`
  have hu_piece : ∀ j, (castling_offered t SpecialMoveTag.SHORT_CASTLING c).piece j = t.piece j :=
    fun _ => rfl
  have hu_pieces : ∀ c2, (castling_offered t SpecialMoveTag.SHORT_CASTLING c).pieces c2
      = t.pieces c2 := by
    intro c2
    cases c2 <;> rfl
  have hu_s : Map.at? (castling_offered t SpecialMoveTag.SHORT_CASTLING c).special_moves_
      SpecialMoveTag.SHORT_CASTLING = some ⟨File.G, home_rank c⟩ :=
    Map.at?_insert_self (Map.at?_none_iff.mp hs)
  have hu_e : Map.at? (castling_offered t SpecialMoveTag.SHORT_CASTLING c).special_moves_
      SpecialMoveTag.EN_PASSANT ≠ some ⟨File.G, home_rank c⟩ := by
    have : Map.at? (castling_offered t SpecialMoveTag.SHORT_CASTLING c).special_moves_
        SpecialMoveTag.EN_PASSANT = Map.at? t.special_moves_ SpecialMoveTag.EN_PASSANT :=
      Map.at?_insert_of_ne (by decide)
    rw [this, he]
    exact fun h => by cases h
  obtain ⟨t2, ht2⟩ : ∃ t2, t2 = relocate (record_move
      (castling_offered t SpecialMoveTag.SHORT_CASTLING c) king ⟨File.G, home_rank c⟩) king
      ⟨File.G, home_rank c⟩ := ⟨_, rfl⟩
  have ht2_own : t2.pieces c = Map.insert (Map.erase (t.pieces c) ⟨File.E, home_rank c⟩)
      ⟨File.G, home_rank c⟩ king := by
    rw [ht2]
    unfold relocate
    rw [(record_move_piece _ king king _).1, (record_move_piece _ king king _).2.1, hu_piece,
      hkcol, hkpos, pieces_with_pieces_same, record_move_pieces, hu_pieces]
  have ht2_opp : t2.pieces c.other = t.pieces c.other := by
    have h := relocate_record_other (castling_offered t SpecialMoveTag.SHORT_CASTLING c) king
      ⟨File.G, home_rank c⟩
    rw [hu_piece, hkcol, hu_pieces] at h
    rw [ht2]
    exact h
  have ht2_special : t2.special_moves_
      = (castling_offered t SpecialMoveTag.SHORT_CASTLING c).special_moves_ := by
    rw [ht2]
    exact relocate_record_special _ _ _
  have ht2_len : t2.heap.length = t.heap.length := by
    rw [ht2]
    unfold relocate
    rw [with_pieces_heap, record_move_length]
    rfl
  -- the capture cascade is the castling
  have hG_own : (⟨File.G, home_rank c⟩ : Position) ∉ Map.keys (Map.erase (t.pieces c)
      ⟨File.E, home_rank c⟩) :=
    fun h => not_mem_keys_of_piece_at_none hG c (Map.mem_keys_erase.mp h).1
  have hF_t2 : rook_destination SpecialMoveTag.SHORT_CASTLING c ∉ Map.keys (t2.pieces c) := by
    rw [ht2_own]
    intro h
    rcases Map.mem_keys_insert.mp h with h1 | h1
    · exact not_mem_keys_of_piece_at_none hF c (Map.mem_keys_erase.mp h1).1
    · exact hFG h1
  have hH_t2 : Map.at? (t2.pieces c) (rook_initial SpecialMoveTag.SHORT_CASTLING c) = some rook := by
    rw [ht2_own]
    show Map.at? _ (⟨File.H, home_rank c⟩ : Position) = some rook
    rw [Map.at?_insert_of_ne hHG, Map.at?_erase_of_ne hHE]
    exact hr
  have hres : resolve_capture t2 c ⟨File.G, home_rank c⟩
      = Except.ok (castled t2 SpecialMoveTag.SHORT_CASTLING c rook) := by
    rw [resolve_capture_short (by rw [ht2_opp]; exact not_mem_keys_of_piece_at_none hG c.other)
      (by rw [ht2_special]; exact hu_e) (by rw [ht2_special]; exact hu_s)]
    exact castle_of_free hH_t2 hF_t2
  have hmove : move R (castling_offered t SpecialMoveTag.SHORT_CASTLING c) ⟨File.G, home_rank c⟩
      = Except.ok (finish_move R (castled t2 SpecialMoveTag.SHORT_CASTLING c rook) king
          ⟨File.G, home_rank c⟩ c) := by
    have h1 : move R (castling_offered t SpecialMoveTag.SHORT_CASTLING c) ⟨File.G, home_rank c⟩
        = move_piece R (castling_offered t SpecialMoveTag.SHORT_CASTLING c) king
            ⟨File.G, home_rank c⟩ := by
      unfold move
      have : (castling_offered t SpecialMoveTag.SHORT_CASTLING c).selected_piece_ = some king := hsel
      rw [this]
    rw [h1]
    have h2 := @move_piece_of_resolve R (castling_offered t SpecialMoveTag.SHORT_CASTLING c)
      (castled t2 SpecialMoveTag.SHORT_CASTLING c rook) king ⟨File.G, home_rank c⟩
    rw [hu_piece, hkcol, ← ht2] at h2
    exact h2 (by rw [hkpos]; cases c <;> rfl) (by cases c <;> rfl) hres
  -- the maps and the pieces after the move
  have hown : (finish_move R (castled t2 SpecialMoveTag.SHORT_CASTLING c rook) king
      ⟨File.G, home_rank c⟩ c).pieces c =
      Map.erase (Map.insert (Map.insert (Map.erase (t.pieces c) ⟨File.E, home_rank c⟩)
        ⟨File.G, home_rank c⟩ king) ⟨File.F, home_rank c⟩ rook) ⟨File.H, home_rank c⟩ := by
    rw [finish_move_pieces, castled_pieces_same, ht2_own]
    rfl
  have hopp : (finish_move R (castled t2 SpecialMoveTag.SHORT_CASTLING c rook) king
      ⟨File.G, home_rank c⟩ c).pieces c.other = t.pieces c.other := by
    rw [finish_move_pieces, castled_pieces_other, ht2_opp]
  have hF_mid : (⟨File.F, home_rank c⟩ : Position) ∉ Map.keys (Map.insert
      (Map.erase (t.pieces c) ⟨File.E, home_rank c⟩) ⟨File.G, home_rank c⟩ king) := by
    have := hF_t2
    rw [ht2_own] at this
    exact this
  have hlen : (castled t2 SpecialMoveTag.SHORT_CASTLING c rook).heap.length = t.heap.length := by
    rw [castled_heap, List.length_set, ht2_len]
  have hking : (settle (castled t2 SpecialMoveTag.SHORT_CASTLING c rook) king
      ⟨File.G, home_rank c⟩ c).piece king
      = { (castled t2 SpecialMoveTag.SHORT_CASTLING c rook).piece king with
          position := ⟨File.G, home_rank c⟩ } :=
    settle_piece_self _ _ _ _ (hlen ▸ hkv)
  have hrook : (settle (castled t2 SpecialMoveTag.SHORT_CASTLING c rook) king
      ⟨File.G, home_rank c⟩ c).piece rook
      = { deref t2.heap rook with position := rook_destination SpecialMoveTag.SHORT_CASTLING c } := by
    unfold settle piece
    simp only
    rw [deref_set_ne _ hne, castled_heap, deref_set_self _ (ht2_len ▸ hrv)]
  refine ⟨_, hmove, ?_, ?_, ?_, ?_, ?_, ?_⟩
  · rw [hown, Map.at?_erase_of_ne hGH, Map.at?_insert_of_ne hGF, Map.at?_insert_self hG_own]
  · unfold finish_move
    rw [(set_available_moves_core R _ king).2.2.1, hking]
  · rw [hown, Map.at?_erase_of_ne hFH, Map.at?_insert_self hF_mid]
  · unfold finish_move
    rw [(set_available_moves_core R _ rook).2.2.1, hrook]
    rfl
  · apply piece_at_none_of_color _ c
    · rw [hown]
      intro h
      rcases Map.mem_keys_insert.mp (Map.mem_keys_erase.mp h).1 with h1 | h1
      · rcases Map.mem_keys_insert.mp h1 with h2 | h2
        · exact (Map.mem_keys_erase.mp h2).2 rfl
        · exact hEG h2
      · exact hEF h1
    · rw [hopp]
      exact hoE
  · apply piece_at_none_of_color _ c
    · rw [hown]
      exact fun h => (Map.mem_keys_erase.mp h).2 rfl
    · rw [hopp]
      exact hoH

end Chessboard


/-- Kingside castling on a board with no special move pending and a piece on
the queen's rook square (file A of the home rank): with the unmoved king on
file E and an unmoved rook on file H of the home rank of `c`, files F and G
empty and not reported attacked, `select_piece` on the king records file G
under `SHORT_CASTLING` and highlights it, and the following `move` to that
square stores the king on file G and the rook on file F, each with its
position equal to its key, and leaves no piece on files E and H. -/
theorem kingside_castling_completes (R : PieceRules) (s : Chessboard) (c : PieceColor)
    (king rook : PieceId)
    (hk : Map.at? (s.pieces c) ⟨File.E, Chessboard.home_rank c⟩ = some king)
    (hktag : (s.piece king).tag = PieceTag.KING) (hkcol : (s.piece king).color = c)
    (hkpos : (s.piece king).position = ⟨File.E, Chessboard.home_rank c⟩)
    (hkm : (s.piece king).moved = false) (hkv : king < s.heap.length)
    (hr : Map.at? (s.pieces c) ⟨File.H, Chessboard.home_rank c⟩ = some rook)
    (hrm : (s.piece rook).moved = false) (hrv : rook < s.heap.length) (hne : king ≠ rook)
    (hoE : (⟨File.E, Chessboard.home_rank c⟩ : Position) ∉ Map.keys (s.pieces c.other))
    (hoH : (⟨File.H, Chessboard.home_rank c⟩ : Position) ∉ Map.keys (s.pieces c.other))
    (hfree : CastlingFree s SpecialMoveTag.SHORT_CASTLING c)
    (hq : Chessboard.piece_at s ⟨File.A, Chessboard.home_rank c⟩ ≠ none)
    (hsp : s.special_moves_ = []) :
    ∃ s1 s2, Chessboard.select_piece R s ⟨File.E, Chessboard.home_rank c⟩ c = Except.ok s1 ∧
      Map.at? s1.special_moves_ SpecialMoveTag.SHORT_CASTLING
        = some ⟨File.G, Chessboard.home_rank c⟩ ∧
      (⟨File.G, Chessboard.home_rank c⟩ : Position) ∈ s1.highlighted_moves_ ∧
      Chessboard.move R s1 ⟨File.G, Chessboard.home_rank c⟩ = Except.ok s2 ∧
      Map.at? (s2.pieces c) ⟨File.G, Chessboard.home_rank c⟩ = some king ∧
      (s2.piece king).position = ⟨File.G, Chessboard.home_rank c⟩ ∧
      Map.at? (s2.pieces c) ⟨File.F, Chessboard.home_rank c⟩ = some rook ∧
      (s2.piece rook).position = ⟨File.F, Chessboard.home_rank c⟩ ∧
      Chessboard.piece_at s2 ⟨File.E, Chessboard.home_rank c⟩ = none ∧
      Chessboard.piece_at s2 ⟨File.H, Chessboard.home_rank c⟩ = none := by
  -- the board before the second `check_castling` call: with or without the long castling
  have hlong := @Chessboard.check_castling_total (Chessboard.with_selection s king) king
    SpecialMoveTag.LONG_CASTLING c rfl hq
  have hstep : ∃ t, Chessboard.check_castling (Chessboard.with_selection s king)
        SpecialMoveTag.LONG_CASTLING c = Except.ok t ∧
      t.selected_piece_ = some king ∧ t.heap = s.heap ∧ t.white_pieces_ = s.white_pieces_ ∧
      t.black_pieces_ = s.black_pieces_ ∧
      Map.at? t.special_moves_ SpecialMoveTag.SHORT_CASTLING = none ∧
      Map.at? t.special_moves_ SpecialMoveTag.EN_PASSANT = none := by
    rcases hlong with h | h
    · refine ⟨_, h, rfl, rfl, rfl, rfl, ?_, ?_⟩
      · show Map.at? s.special_moves_ _ = none
        rw [hsp]
        rfl
      · show Map.at? s.special_moves_ _ = none
        rw [hsp]
        rfl
    · refine ⟨_, h, rfl, rfl, rfl, rfl, ?_, ?_⟩
      · show Map.at? (Map.insert s.special_moves_ SpecialMoveTag.LONG_CASTLING _) _ = none
        rw [Map.at?_insert_of_ne (by decide), hsp]
        rfl
      · show Map.at? (Map.insert s.special_moves_ SpecialMoveTag.LONG_CASTLING _) _ = none
        rw [Map.at?_insert_of_ne (by decide), hsp]
        rfl
  obtain ⟨t, ht, htsel, hth, htw, htb, hts, hte⟩ := hstep
  have htpiece : ∀ j, t.piece j = s.piece j := by
    intro j
    unfold Chessboard.piece
    rw [hth]
  have htpieces : ∀ c2, t.pieces c2 = s.pieces c2 := by
    intro c2
    cases c2
    · exact htw
    · exact htb
  have htfree : CastlingFree t SpecialMoveTag.SHORT_CASTLING c := by
    intro f hf
    rw [Chessboard.piece_at_congr htw htb, Chessboard.is_attacked_congr hth htb]
    exact hfree f hf
  obtain ⟨hoffer, s2, hmove, h1, h2, h3, h4, h5, h6⟩ := Chessboard.kingside_core R t c king rook
    htsel (by rw [htpiece]; exact hktag) (by rw [htpiece]; exact hkcol)
    (by rw [htpiece]; exact hkpos) (by rw [htpiece]; exact hkm) (by rw [hth]; exact hkv)
    (by rw [htpieces]; exact hr) (by rw [htpiece]; exact hrm) (by rw [hth]; exact hrv) hne
    (by rw [htpieces]; exact hoE) (by rw [htpieces]; exact hoH) htfree hts hte
  have hselect : Chessboard.select_piece R s ⟨File.E, Chessboard.home_rank c⟩ c
      = Except.ok (Chessboard.castling_offered t SpecialMoveTag.SHORT_CASTLING c) := by
    rw [Chessboard.select_piece_eq, hk]
    simp only
    rw [Chessboard.select_en_passant_not_pawn R _ king (by
      show (s.piece king).tag ≠ PieceTag.PAWN
      rw [hktag]
      decide), hkcol, ht]
    simp only
    exact hoffer
  exact ⟨_, s2, hselect, Map.at?_insert_self (Map.at?_none_iff.mp hts),
    List.mem_append.mpr (Or.inr (List.mem_singleton.mpr rfl)), hmove, h1, h2, h3, h4, h5, h6⟩

set_option maxRecDepth 100000 in
theorem kingside_castling_completes_witness :
    CastlingFree (Chessboard.after specRules Chessboard.start kingside_calls)
        SpecialMoveTag.SHORT_CASTLING PieceColor.WHITE ∧
      ∃ s1 s2, Chessboard.select_piece specRules
          (Chessboard.after specRules Chessboard.start kingside_calls) ⟨File.E, 1⟩ PieceColor.WHITE
            = Except.ok s1 ∧
        Map.at? s1.special_moves_ SpecialMoveTag.SHORT_CASTLING = some ⟨File.G, 1⟩ ∧
        (⟨File.G, 1⟩ : Position) ∈ s1.highlighted_moves_ ∧
        Chessboard.move specRules s1 ⟨File.G, 1⟩ = Except.ok s2 ∧
        Map.at? (s2.pieces PieceColor.WHITE) ⟨File.G, 1⟩ = some 18 ∧
        (s2.piece 18).position = ⟨File.G, 1⟩ ∧
        Map.at? (s2.pieces PieceColor.WHITE) ⟨File.F, 1⟩ = some 30 ∧
        (s2.piece 30).position = ⟨File.F, 1⟩ ∧
        Chessboard.piece_at s2 ⟨File.E, 1⟩ = none ∧ Chessboard.piece_at s2 ⟨File.H, 1⟩ = none :=
  ⟨by unfold CastlingFree; decide,
    kingside_castling_completes specRules (Chessboard.after specRules Chessboard.start kingside_calls)
      PieceColor.WHITE 18 30 (by decide) (by decide) (by decide) (by decide) (by decide)
      (by decide) (by decide) (by decide) (by decide) (by decide) (by decide) (by decide)
      (by unfold CastlingFree; decide) (by decide) (by decide)⟩

/-! ## Disjointness when the side to move selects -/

namespace Chessboard

theorem finish_move_disjoint {R : PieceRules} {s3 : Chessboard} {pc : PieceId} {d : Position}
    {c : PieceColor}
    (h : ∀ p, p ∈ Map.keys (s3.pieces c) → p ∉ Map.keys (s3.pieces c.other)) :
    DisjointKeys (finish_move R s3 pc d c) := by
  apply disjointKeys_of_color c
  intro p hp
  rw [finish_move_pieces] at hp ⊢
  exact h p hp

/-- A returning `move`, to any destination, keeps the invariant. -/
theorem turnReady_move {R : PieceRules} {s s1 : Chessboard} {d : Position}
    (hT : TurnReady s) (h : move R s d = Except.ok s1) : TurnReady s1 := by
  have hwf := wellFormed_move hT.wf h
  unfold move at h
  cases hsel : s.selected_piece_ with
  | none => rw [hsel] at h; cases h
  | some pc =>
    rw [hsel] at h
    simp only at h
    obtain ⟨s3, h3, rfl⟩ := move_piece_stages h
    have hd := disjoint_resolve_capture hT.disjoint (fun style hst hat c2 => by
      obtain ⟨⟨sel, hs, hc⟩, hfree⟩ := hT.ready _ (Map.mem_of_at? hat) hst
      rw [hsel] at hs
      cases hs
      rw [hc]
      exact hfree c2) h3
    refine ⟨hwf, finish_move_disjoint hd, ?_⟩
    intro e he
    rw [finish_move_special] at he
    cases he

/-- A returning `select_piece` made for the side to move keeps the invariant. -/
theorem turnReady_select {R : PieceRules} {s s1 : Chessboard} {position : Position}
    {color : PieceColor} (hT : TurnReady s) (hturn : color = s.turn_)
    (h : select_piece R s position color = Except.ok s1) : TurnReady s1 := by
  obtain ⟨hh, hwp, hbp, htn, _, hs⟩ := select_piece_frame h
  obtain ⟨sel, s3, hsel, h3, h1⟩ := select_piece_stages h
  have hcolor : (s.piece sel).color = s.turn_ := by
    rw [← hturn]
    exact hT.wf.color color _ (Map.mem_of_at? hsel)
  have hpieces : ∀ c2, s1.pieces c2 = s.pieces c2 := by
    intro c2
    cases c2
    · exact hwp
    · exact hbp
  refine ⟨wellFormed_select_piece hT.wf h, ?_, ?_⟩
  · intro p
    rw [hwp, hbp]
    exact hT.disjoint p
  · intro e he hne
    constructor
    · refine ⟨sel, by rw [hs, hsel], ?_⟩
      rw [htn]
      unfold piece
      rw [hh]
      exact hcolor
    · rw [htn, ← hcolor]
      refine check_castling_ready (check_castling_ready ?_ h3) h1 e he hne
      intro e0 he0 hne0 c2
      have hp0 : (select_en_passant R (with_selection s sel) sel).pieces c2 = s.pieces c2 := by
        have hfr := select_en_passant_frame R (with_selection s sel) sel
        cases c2
        · exact hfr.2.1
        · exact hfr.2.2.1
      rw [hp0, hcolor]
      rcases select_en_passant_special R (with_selection s sel) sel with h0 | ⟨pos, h0⟩
      · rw [h0] at he0
        exact (hT.ready e0 he0 hne0).2 c2
      · rw [h0] at he0
        rcases Map.mem_insert he0 with h2 | ⟨h2, _⟩
        · exact (hT.ready e0 h2 hne0).2 c2
        · rw [h2] at hne0
          exact absurd rfl hne0

/-- The board the constructor builds satisfies the invariant. -/
theorem turnReady_construct (R : PieceRules) (turn : PieceColor) :
    TurnReady (construct R turn) := by
  refine ⟨wellFormed_construct R turn, (castlingReady_construct R turn).disjoint, ?_⟩
  intro e he
  have : (construct R turn).special_moves_ = [] := by
    cases turn <;> rfl
  rw [this] at he
  cases he

/-- Call sequences whose selections are made for the side to move keep the
invariant. -/
theorem turnReady_run {R : PieceRules} {calls : List Call} {s s1 : Chessboard}
    (hT : TurnReady s) (hf : selects_side_to_move R s calls = true)
    (h : run R s calls = Except.ok s1) : TurnReady s1 := by
  induction calls generalizing s with
  | nil =>
    simp only [run] at h
    cases h
    exact hT
  | cons c cs ih =>
    rw [run] at h
    unfold selects_side_to_move at hf
    cases hc : step R s c with
    | error e => rw [hc] at h; cases h
    | ok s2 =>
      rw [hc] at h hf
      simp only at h
      have hf2 := Bool.and_eq_true_iff.mp hf
      refine ih ?_ hf2.2 h
      cases c with
      | select position color =>
        have hturn : color = s.turn_ := by simpa using hf2.1
        exact turnReady_select hT hturn hc
      | move destination => exact turnReady_move hT hc

end Chessboard

/-- In every board reached from the constructor's setup by a sequence of
`move` calls, to any destination, and of `select_piece` calls made for the
side to move (`color == turn_`), no position is a key of both `white_pieces_`
and `black_pieces_`. -/
theorem disjoint_keys_of_turn_run (R : PieceRules) (turn : PieceColor) (calls : List Call)
    (s : Chessboard)
    (hf : Chessboard.selects_side_to_move R (Chessboard.construct R turn) calls = true)
    (h : Chessboard.run R (Chessboard.construct R turn) calls = Except.ok s) :
    ∀ p, ¬ (p ∈ Map.keys s.white_pieces_ ∧ p ∈ Map.keys s.black_pieces_) :=
  (Chessboard.turnReady_run (Chessboard.turnReady_construct R turn) hf h).disjoint

set_option maxRecDepth 100000 in
theorem disjoint_keys_of_turn_run_witness :
    Chessboard.selects_side_to_move specRules (Chessboard.construct specRules PieceColor.WHITE)
        reselect_calls = true ∧
      Chessboard.run specRules (Chessboard.construct specRules PieceColor.WHITE) reselect_calls
        = Except.ok (Chessboard.after specRules Chessboard.start reselect_calls) ∧
      ∀ p, ¬ (p ∈ Map.keys (Chessboard.after specRules Chessboard.start reselect_calls).white_pieces_ ∧
        p ∈ Map.keys (Chessboard.after specRules Chessboard.start reselect_calls).black_pieces_) :=
  ⟨by rfl, by rfl,
    disjoint_keys_of_turn_run specRules PieceColor.WHITE reselect_calls _ (by rfl) (by rfl)⟩

/-! ## Turn alternation, captures and plain moves -/

namespace Chessboard

/-- The mover's map seen from the board `relocate` leaves. -/
theorem relocate_record_own (s : Chessboard) (pc : PieceId) (d : Position) :
    (relocate (record_move s pc d) pc d).pieces (s.piece pc).color
      = Map.insert (Map.erase (s.pieces (s.piece pc).color) (s.piece pc).position) d pc := by
  unfold relocate
  rw [(record_move_piece s pc pc d).1, (record_move_piece s pc pc d).2.1,
    pieces_with_pieces_same, record_move_pieces]

/-- A returning `move(piece, destination)` hands the turn to the color
opposite to the piece's. -/
theorem move_piece_turn {R : PieceRules} {s s1 : Chessboard} {d : Position} {pc : PieceId}
    (h : move_piece R s pc d = Except.ok s1) : s1.turn_ = (s.piece pc).color.other := by
  obtain ⟨s3, _, rfl⟩ := move_piece_stages h
  rfl

/-- The capture arm of the capture cascade. -/
theorem resolve_capture_capture {s : Chessboard} {c : PieceColor} {d : Position}
    (h : d ∈ Map.keys (s.pieces c.other)) :
    resolve_capture s c d
      = Except.ok (with_pieces s c.other (Map.erase (s.pieces c.other) d)) := by
  unfold resolve_capture
  simp only
  rw [if_pos (Map.count_pos_iff.mpr h)]

/-- The pieces other than the mover keep their tag, color, position and moved
flag when the capture cascade has only changed a map. -/
theorem finish_move_others (R : PieceRules) (s : Chessboard) (pc j : PieceId) (d : Position)
    (c c2 : PieceColor) (m : PieceMap) (hj : pc ≠ j) :
    same_core ((finish_move R (with_pieces (relocate (record_move s pc d) pc d) c2 m) pc d c).piece j)
      (s.piece j) := by
  unfold finish_move
  refine same_core_trans (set_available_moves_core R _ j) ?_
  have h1 : (settle (with_pieces (relocate (record_move s pc d) pc d) c2 m) pc d c).piece j
      = (record_move s pc d).piece j := by
    unfold settle piece
    simp only
    rw [deref_set_ne _ hj, with_pieces_heap]
    unfold relocate
    rw [with_pieces_heap]
  have h2 : (record_move s pc d).piece j = s.piece j := by
    unfold record_move piece
    simp only
    rw [deref_set_ne _ hj]
  rw [h1, h2]
  exact same_core_refl _

end Chessboard

/-- C11: a completed `move(piece, destination)` of a piece whose color is
`turn_` sets `turn_` to the other color, and a second completed move, of a
piece of the side then to move, brings `turn_` back: from WHITE to BLACK and
then to WHITE again. -/
theorem turn_alternation (R : PieceRules) (s s1 s2 : Chessboard) (pc1 pc2 : PieceId)
    (d1 d2 : Position)
    (hc1 : (s.piece pc1).color = s.turn_)
    (hm1 : Chessboard.move_piece R s pc1 d1 = Except.ok s1)
    (hc2 : (s1.piece pc2).color = s1.turn_)
    (hm2 : Chessboard.move_piece R s1 pc2 d2 = Except.ok s2) :
    s1.turn_ = s.turn_.other ∧ s2.turn_ = s.turn_ ∧
      (s.turn_ = PieceColor.WHITE → s1.turn_ = PieceColor.BLACK ∧ s2.turn_ = PieceColor.WHITE) := by
  have h1 : s1.turn_ = s.turn_.other := by
    rw [Chessboard.move_piece_turn hm1, hc1]
  have h2 : s2.turn_ = s.turn_ := by
    rw [Chessboard.move_piece_turn hm2, hc2, h1, Chessboard.other_other]
  refine ⟨h1, h2, fun hw => ?_⟩
  rw [h1, h2, hw]
  exact ⟨rfl, rfl⟩

/-- C13: standard capture.  For every piece standing on a square of the board
and every destination on the board that is a key of the opponent's map and
not of the mover's own map, `move(piece, destination)` returns; the opponent's map is the one before with exactly the
destination erased, the mover's map is the one before with the old position
erased and the destination inserted, holding the moved piece there, and every
other piece keeps its position: nothing is removed en passant and no rook is
relocated, whatever `special_moves_` holds. -/
theorem standard_capture (R : PieceRules) (s : Chessboard) (pc : PieceId) (d : Position)
    (hb : Chessboard.on_board (s.piece pc).position = true) (hd : Chessboard.on_board d = true)
    (hopp : d ∈ Map.keys (s.pieces (s.piece pc).color.other))
    (hown : d ∉ Map.keys (s.pieces (s.piece pc).color)) :
    ∃ s1, Chessboard.move_piece R s pc d = Except.ok s1 ∧
      s1.pieces (s.piece pc).color.other = Map.erase (s.pieces (s.piece pc).color.other) d ∧
      s1.pieces (s.piece pc).color =
        Map.insert (Map.erase (s.pieces (s.piece pc).color) (s.piece pc).position) d pc ∧
      Map.at? (s1.pieces (s.piece pc).color) d = some pc ∧
      ∀ j, pc ≠ j → same_core (s1.piece j) (s.piece j) := by
  have hres := @Chessboard.resolve_capture_capture
    (Chessboard.relocate (Chessboard.record_move s pc d) pc d) (s.piece pc).color d
    (by rw [Chessboard.relocate_record_other]; exact hopp)
  have hownmap : (Chessboard.finish_move R
      (Chessboard.with_pieces (Chessboard.relocate (Chessboard.record_move s pc d) pc d)
        (s.piece pc).color.other
        (Map.erase ((Chessboard.relocate (Chessboard.record_move s pc d) pc d).pieces
          (s.piece pc).color.other) d)) pc d (s.piece pc).color).pieces (s.piece pc).color =
      Map.insert (Map.erase (s.pieces (s.piece pc).color) (s.piece pc).position) d pc := by
    rw [Chessboard.finish_move_pieces,
      Chessboard.pieces_with_pieces_other _ _ _ _ (Ne.symm (Chessboard.other_ne _)),
      Chessboard.relocate_record_own]
  refine ⟨_, Chessboard.move_piece_of_resolve hb hd hres, ?_, hownmap, ?_, ?_⟩
  · rw [Chessboard.finish_move_pieces, Chessboard.pieces_with_pieces_same,
      Chessboard.relocate_record_other]
  · rw [hownmap]
    exact Map.at?_insert_self (fun h => hown (Map.mem_keys_erase.mp h).1)
  · intro j hj
    exact Chessboard.finish_move_others R s pc j d _ _ _ hj

set_option maxRecDepth 100000 in
theorem turn_alternation_witness :
    (Chessboard.start.piece 16).color = Chessboard.start.turn_ ∧
      Chessboard.start.turn_ = PieceColor.WHITE ∧
      (Chessboard.moved specRules Chessboard.start 16 ⟨File.E, 4⟩).turn_ = PieceColor.BLACK ∧
      (Chessboard.moved specRules (Chessboard.moved specRules Chessboard.start 16 ⟨File.E, 4⟩)
        13 ⟨File.D, 5⟩).turn_ = PieceColor.WHITE :=
  ⟨by decide, by decide,
    ((turn_alternation specRules Chessboard.start
      (Chessboard.moved specRules Chessboard.start 16 ⟨File.E, 4⟩)
      (Chessboard.moved specRules (Chessboard.moved specRules Chessboard.start 16 ⟨File.E, 4⟩)
        13 ⟨File.D, 5⟩) 16 13 ⟨File.E, 4⟩ ⟨File.D, 5⟩
      (by decide) (by rfl) (by decide) (by rfl)).2.2 (by decide)).1,
    ((turn_alternation specRules Chessboard.start
      (Chessboard.moved specRules Chessboard.start 16 ⟨File.E, 4⟩)
      (Chessboard.moved specRules (Chessboard.moved specRules Chessboard.start 16 ⟨File.E, 4⟩)
        13 ⟨File.D, 5⟩) 16 13 ⟨File.E, 4⟩ ⟨File.D, 5⟩
      (by decide) (by rfl) (by decide) (by rfl)).2.2 (by decide)).2⟩

set_option maxRecDepth 100000 in
theorem standard_capture_witness :
    Chessboard.on_board (center_pawns_board.piece 16).position = true ∧
      Chessboard.on_board ⟨File.D, 5⟩ = true ∧
      (⟨File.D, 5⟩ : Position) ∈
        Map.keys (center_pawns_board.pieces (center_pawns_board.piece 16).color.other) ∧
      (⟨File.D, 5⟩ : Position) ∉
        Map.keys (center_pawns_board.pieces (center_pawns_board.piece 16).color) ∧
      ∃ s1, Chessboard.move_piece specRules center_pawns_board 16 ⟨File.D, 5⟩ = Except.ok s1 ∧
        s1.pieces (center_pawns_board.piece 16).color.other =
          Map.erase (center_pawns_board.pieces (center_pawns_board.piece 16).color.other)
            ⟨File.D, 5⟩ ∧
        s1.pieces (center_pawns_board.piece 16).color =
          Map.insert (Map.erase (center_pawns_board.pieces (center_pawns_board.piece 16).color)
            (center_pawns_board.piece 16).position) ⟨File.D, 5⟩ 16 ∧
        Map.at? (s1.pieces (center_pawns_board.piece 16).color) ⟨File.D, 5⟩ = some 16 ∧
        ∀ j, 16 ≠ j → same_core (s1.piece j) (center_pawns_board.piece j) :=
  ⟨by decide, by decide, by decide, by decide,
    standard_capture specRules center_pawns_board 16 ⟨File.D, 5⟩ (by decide) (by decide)
      (by decide) (by decide)⟩

namespace Chessboard

theorem construct_piece (R : PieceRules) (turn : PieceColor) (j : PieceId) :
    ((construct R turn).piece j).tag = ((setup turn).piece j).tag ∧
      ((construct R turn).piece j).color = ((setup turn).piece j).color ∧
      ((construct R turn).piece j).position = ((setup turn).piece j).position := by
  have h := set_available_moves_core R (setup turn) j
  exact ⟨h.1, h.2.1, h.2.2.1⟩

theorem construct_eq (R : PieceRules) (turn : PieceColor) :
    construct R turn = set_available_moves R (setup turn) := by
  unfold construct setup
  rfl

end Chessboard

/-- C12: the board the constructor builds holds 32 distinct pieces, 16 in
`white_pieces_` and 16 in `black_pieces_`, no key twice; on every file the
squares of ranks 1 and 2 are white keys and those of ranks 7 and 8 black
keys; every white entry is a white piece stored under its own position, a
pawn on rank 2 or, on rank 1, the kind the order Rook, Knight, Bishop, Queen,
King, Bishop, Knight, Rook gives to its file, and likewise for Black on ranks
7 and 8. -/
theorem constructor_standard_setup (R : PieceRules) (turn : PieceColor) :
    (Chessboard.construct R turn).white_pieces_.length = 16 ∧
    (Chessboard.construct R turn).black_pieces_.length = 16 ∧
    (Map.keys (Chessboard.construct R turn).white_pieces_).Nodup ∧
    (Map.keys (Chessboard.construct R turn).black_pieces_).Nodup ∧
    ((Chessboard.construct R turn).white_pieces_.map Prod.snd ++
      (Chessboard.construct R turn).black_pieces_.map Prod.snd).Nodup ∧
    (∀ i : Fin 8,
      (⟨i.val, 1⟩ : Position) ∈ Map.keys (Chessboard.construct R turn).white_pieces_ ∧
      (⟨i.val, 2⟩ : Position) ∈ Map.keys (Chessboard.construct R turn).white_pieces_ ∧
      (⟨i.val, 7⟩ : Position) ∈ Map.keys (Chessboard.construct R turn).black_pieces_ ∧
      (⟨i.val, 8⟩ : Position) ∈ Map.keys (Chessboard.construct R turn).black_pieces_) ∧
    (∀ e ∈ (Chessboard.construct R turn).white_pieces_,
      ((Chessboard.construct R turn).piece e.2).color = PieceColor.WHITE ∧
      ((Chessboard.construct R turn).piece e.2).position = e.1 ∧ e.1.file_ < 8 ∧
      ((e.1.rank_ = 2 ∧ ((Chessboard.construct R turn).piece e.2).tag = PieceTag.PAWN) ∨
        (e.1.rank_ = 1 ∧ some ((Chessboard.construct R turn).piece e.2).tag
          = Spec.back_rank_order.get? e.1.file_))) ∧
    (∀ e ∈ (Chessboard.construct R turn).black_pieces_,
      ((Chessboard.construct R turn).piece e.2).color = PieceColor.BLACK ∧
      ((Chessboard.construct R turn).piece e.2).position = e.1 ∧ e.1.file_ < 8 ∧
      ((e.1.rank_ = 7 ∧ ((Chessboard.construct R turn).piece e.2).tag = PieceTag.PAWN) ∨
        (e.1.rank_ = 8 ∧ some ((Chessboard.construct R turn).piece e.2).tag
          = Spec.back_rank_order.get? e.1.file_))) := by
  have hw : (Chessboard.construct R turn).white_pieces_ = (Chessboard.setup turn).white_pieces_ := by
    rw [Chessboard.construct_eq, Chessboard.set_available_moves_white]
  have hb : (Chessboard.construct R turn).black_pieces_ = (Chessboard.setup turn).black_pieces_ := by
    rw [Chessboard.construct_eq, Chessboard.set_available_moves_black]
  have ht := fun j => (Chessboard.construct_piece R turn j).1
  have hc := fun j => (Chessboard.construct_piece R turn j).2.1
  have hp := fun j => (Chessboard.construct_piece R turn j).2.2
  simp only [hw, hb, ht, hc, hp]
  cases turn <;> decide

/-- C16: `piece_at` is a function of the board and the position that always
returns: the pointer stored under `p` in `white_pieces_` when `p` is a white
key, otherwise the pointer stored under `p` in `black_pieces_` when `p` is a
black key, otherwise the null pointer; it returns a piece exactly when `p` is
a key of one of the maps, and that piece is an entry of the map. -/
theorem piece_at_query (s : Chessboard) (p : Position) :
    Chessboard.piece_at s p =
        (if p ∈ Map.keys s.white_pieces_ then Map.at? s.white_pieces_ p
         else if p ∈ Map.keys s.black_pieces_ then Map.at? s.black_pieces_ p
         else none) ∧
      (Chessboard.piece_at s p = none ↔
        p ∉ Map.keys s.white_pieces_ ∧ p ∉ Map.keys s.black_pieces_) ∧
      (∀ id, Chessboard.piece_at s p = some id →
        (p, id) ∈ s.white_pieces_ ∨ (p, id) ∈ s.black_pieces_) := by
  have h1 : Chessboard.piece_at s p =
      (if p ∈ Map.keys s.white_pieces_ then Map.at? s.white_pieces_ p
       else if p ∈ Map.keys s.black_pieces_ then Map.at? s.black_pieces_ p
       else none) := by
    unfold Chessboard.piece_at
    by_cases hw : p ∈ Map.keys s.white_pieces_
    · rw [if_pos (Map.count_pos_iff.mpr hw), if_pos hw]
    · rw [if_neg (Map.count_eq_zero_iff.mpr hw), if_neg hw]
      by_cases hb : p ∈ Map.keys s.black_pieces_
      · rw [if_pos (Map.count_pos_iff.mpr hb), if_pos hb]
      · rw [if_neg (Map.count_eq_zero_iff.mpr hb), if_neg hb]
  refine ⟨h1, Chessboard.piece_at_none_iff s p, ?_⟩
  intro id hid
  rw [h1] at hid
  by_cases hw : p ∈ Map.keys s.white_pieces_
  · rw [if_pos hw] at hid
    exact Or.inl (Map.mem_of_at? hid)
  · rw [if_neg hw] at hid
    by_cases hb : p ∈ Map.keys s.black_pieces_
    · rw [if_pos hb] at hid
      exact Or.inr (Map.mem_of_at? hid)
    · rw [if_neg hb] at hid
      cases hid

/-- C17: for every board and every entry `sel` of the map of `color` at
`position` that is neither a pawn nor an unmoved king, `select_piece` returns;
`highlighted_moves_` is then exactly the cached list `legal_moves` of `sel`
(empty when that list is empty), `special_moves_` is as before and
`selected_piece_` is `sel`. -/
theorem select_plain_piece (R : PieceRules) (s : Chessboard) (position : Position)
    (color : PieceColor) (sel : PieceId)
    (hsel : Map.at? (s.pieces color) position = some sel)
    (hp : (s.piece sel).tag ≠ PieceTag.PAWN)
    (hk : (s.piece sel).tag ≠ PieceTag.KING ∨ (s.piece sel).moved = true) :
    ∃ s1, Chessboard.select_piece R s position color = Except.ok s1 ∧
      s1.highlighted_moves_ = (s.piece sel).legal_moves ∧
      s1.special_moves_ = s.special_moves_ ∧ s1.selected_piece_ = some sel ∧
      ((s.piece sel).legal_moves = [] → s1.highlighted_moves_ = []) := by
  refine ⟨Chessboard.with_selection s sel, ?_, rfl, rfl, rfl, fun h => h⟩
  rw [Chessboard.select_piece_not_king hsel hk,
    Chessboard.select_en_passant_not_pawn R (Chessboard.with_selection s sel) sel hp]

/-- C19: `is_attacked(p)` is true exactly when some piece of `black_pieces_`
has `p` in its `legal_moves`, whatever `turn_` is, and two boards with the
same `black_pieces_` whose black pieces have the same `legal_moves` give the
same answer: `turn_`, `white_pieces_` and the lists of the white pieces are
not read. -/
theorem is_attacked_reads_black_only (s : Chessboard) (p : Position) :
    (Chessboard.is_attacked s p = true ↔
        ∃ e ∈ s.black_pieces_, p ∈ (s.piece e.2).legal_moves) ∧
      (∀ turn, Chessboard.is_attacked { s with turn_ := turn } p = true ↔
        ∃ e ∈ s.black_pieces_, p ∈ (s.piece e.2).legal_moves) ∧
      (∀ t : Chessboard, t.black_pieces_ = s.black_pieces_ →
        (∀ e ∈ s.black_pieces_, (t.piece e.2).legal_moves = (s.piece e.2).legal_moves) →
        Chessboard.is_attacked t p = Chessboard.is_attacked s p) := by
  have key : ∀ t : Chessboard, Chessboard.is_attacked t p = true ↔
      ∃ e ∈ t.black_pieces_, p ∈ (t.piece e.2).legal_moves := by
    intro t
    rw [Chessboard.is_attacked_eq]
    simp only [List.any_eq_true, decide_eq_true_eq]
    constructor
    · rintro ⟨e, he, mv, hmv, rfl⟩
      exact ⟨e, he, hmv⟩
    · rintro ⟨e, he, hmv⟩
      exact ⟨e, he, p, hmv, rfl⟩
  refine ⟨key s, fun turn => key { s with turn_ := turn }, ?_⟩
  intro t hb hl
  rw [Bool.eq_iff_iff, key t, key s, hb]
  constructor
  · rintro ⟨e, he, hmv⟩
    exact ⟨e, he, by rw [← hl e he]; exact hmv⟩
  · rintro ⟨e, he, hmv⟩
    exact ⟨e, he, by rw [hl e he]; exact hmv⟩

/-! ## Selections and moves that fault -/

namespace Chessboard

/-- `select_piece` on a square where the map of `color` has no entry: the
`at(position)` of its first statement throws. -/
theorem select_piece_no_entry (R : PieceRules) (s : Chessboard) (position : Position)
    (color : PieceColor) (h : Map.at? (s.pieces color) position = none) :
    select_piece R s position color = Except.error Fault.out_of_range := by
  rw [select_piece_eq, h]

/-- `select_piece` returns with the entry selected when both rook squares of
the piece's home rank are occupied. -/
theorem select_piece_returns {R : PieceRules} {s : Chessboard} {position : Position}
    {color : PieceColor} {sel : PieceId} (hsel : Map.at? (s.pieces color) position = some sel)
    (hl : piece_at s ⟨rook_file SpecialMoveTag.LONG_CASTLING, home_rank (s.piece sel).color⟩ ≠ none)
    (hs : piece_at s ⟨rook_file SpecialMoveTag.SHORT_CASTLING, home_rank (s.piece sel).color⟩ ≠ none) :
    ∃ s1, select_piece R s position color = Except.ok s1 ∧ s1.selected_piece_ = some sel := by
  have f0 := select_en_passant_frame R (with_selection s sel) sel
  have hsel2 : (select_en_passant R (with_selection s sel) sel).selected_piece_ = some sel := by
    rw [f0.2.2.2.2.2]
    rfl
  have hl2 : piece_at (select_en_passant R (with_selection s sel) sel)
      ⟨rook_file SpecialMoveTag.LONG_CASTLING, home_rank (s.piece sel).color⟩ ≠ none := by
    rw [piece_at_congr f0.2.1 f0.2.2.1]
    exact hl
  have h3 : ∃ s3, check_castling (select_en_passant R (with_selection s sel) sel)
      SpecialMoveTag.LONG_CASTLING (s.piece sel).color = Except.ok s3 := by
    rcases check_castling_total SpecialMoveTag.LONG_CASTLING (s.piece sel).color hsel2 hl2 with h | h
    · exact ⟨_, h⟩
    · exact ⟨_, h⟩
  obtain ⟨s3, h3⟩ := h3
  have f3 := check_castling_frame h3
  have hsel3 : s3.selected_piece_ = some sel := by
    rw [f3.2.2.2.2.2, hsel2]
  have hs3 : piece_at s3
      ⟨rook_file SpecialMoveTag.SHORT_CASTLING, home_rank (s.piece sel).color⟩ ≠ none := by
    rw [piece_at_congr f3.2.1 f3.2.2.1, piece_at_congr f0.2.1 f0.2.2.1]
    exact hs
  have h1 : ∃ s1, check_castling s3 SpecialMoveTag.SHORT_CASTLING (s.piece sel).color
      = Except.ok s1 := by
    rcases check_castling_total SpecialMoveTag.SHORT_CASTLING (s.piece sel).color hsel3 hs3 with h | h
    · exact ⟨_, h⟩
    · exact ⟨_, h⟩
  obtain ⟨s1, h1⟩ := h1
  refine ⟨s1, ?_, ?_⟩
  · rw [select_piece_eq, hsel]
    simp only
    rw [h3]
    exact h1
  · rw [(check_castling_frame h1).2.2.2.2.2, hsel3]

end Chessboard

set_option maxRecDepth 100000 in
theorem select_plain_piece_witness :
    Map.at? (Chessboard.start.pieces PieceColor.WHITE) ⟨File.A, 1⟩ = some 2 ∧
      (Chessboard.start.piece 2).tag = PieceTag.ROOK ∧
      (Chessboard.start.piece 2).legal_moves = [] ∧
      ∃ s1, Chessboard.select_piece specRules Chessboard.start ⟨File.A, 1⟩ PieceColor.WHITE
          = Except.ok s1 ∧
        s1.highlighted_moves_ = (Chessboard.start.piece 2).legal_moves ∧
        s1.special_moves_ = Chessboard.start.special_moves_ ∧ s1.selected_piece_ = some 2 ∧
        ((Chessboard.start.piece 2).legal_moves = [] → s1.highlighted_moves_ = []) :=
  ⟨by decide, by decide, by decide,
    select_plain_piece specRules Chessboard.start ⟨File.A, 1⟩ PieceColor.WHITE 2 (by decide)
      (by decide) (Or.inl (by decide))⟩

set_option maxRecDepth 100000 in
/-- C15 at a concrete board: after `rooks_lifted_calls` the white map holds
the king (piece 18) at e1, on its home square and unmoved, and h1 is empty.
`select_piece(E1, WHITE)` finds the entry and yet ends in the null
dereference of `check_castling(SHORT_CASTLING, WHITE)`; `select_piece(E8,
BLACK)` finds the black king and ends in that of
`check_castling(LONG_CASTLING, BLACK)`. -/
theorem select_piece_faults_on_stored_king :
    ∃ s, Chessboard.run specRules Chessboard.start rooks_lifted_calls = Except.ok s ∧
      Map.at? (s.pieces PieceColor.WHITE) ⟨File.E, 1⟩ = some 18 ∧
      (s.piece 18).tag = PieceTag.KING ∧ (s.piece 18).moved = false ∧
      Chessboard.piece_at s ⟨File.A, 1⟩ = some 2 ∧ Chessboard.piece_at s ⟨File.H, 1⟩ = none ∧
      Chessboard.select_piece specRules s ⟨File.E, 1⟩ PieceColor.WHITE
        = Except.error Fault.null_deref ∧
      Map.at? (s.pieces PieceColor.BLACK) ⟨File.E, 8⟩ = some 19 ∧
      Chessboard.piece_at s ⟨File.A, 8⟩ = none ∧
      Chessboard.select_piece specRules s ⟨File.E, 8⟩ PieceColor.BLACK
        = Except.error Fault.null_deref :=
  ⟨Chessboard.after specRules Chessboard.start rooks_lifted_calls,
    by rfl, by decide, by decide, by decide, by decide, by decide, by rfl, by decide, by decide,
    by rfl⟩

/-- C18: for every board on which an unmoved king is the selected piece and
no piece stands on the rook's home square of the side examined (file A for
the long castling, file H for the short one, on the home rank of `c`),
`check_castling` does not complete: it ends in the null dereference of
`piece_at(rook_pos)->moved()`. -/
theorem check_castling_faults_on_empty_rook_square (s : Chessboard) (style : SpecialMoveTag)
    (c : PieceColor) (sel : PieceId)
    (hsel : s.selected_piece_ = some sel)
    (hking : (s.piece sel).tag = PieceTag.KING) (hmoved : (s.piece sel).moved = false)
    (hrook : Chessboard.piece_at s ⟨Chessboard.rook_file style, Chessboard.home_rank c⟩ = none) :
    Chessboard.check_castling s style c = Except.error Fault.null_deref := by
  unfold Chessboard.check_castling
  split
  · rfl
  · rename_i sel2 hsel2
    rw [hsel] at hsel2
    cases hsel2
    rw [if_neg (by rw [hking, hmoved]; simp)]
    split
    · rfl
    · rename_i rook hr
      rw [hrook] at hr
      cases hr

set_option maxRecDepth 100000 in
theorem check_castling_faults_on_empty_rook_square_witness :
    black_king_just_selected.selected_piece_ = some 19 ∧
      (black_king_just_selected.piece 19).tag = PieceTag.KING ∧
      (black_king_just_selected.piece 19).color = PieceColor.BLACK ∧
      (black_king_just_selected.piece 19).moved = false ∧
      Chessboard.piece_at black_king_just_selected ⟨File.A, 8⟩ = none ∧
      Chessboard.check_castling black_king_just_selected SpecialMoveTag.LONG_CASTLING
        PieceColor.BLACK = Except.error Fault.null_deref :=
  ⟨by rfl, by decide, by decide, by decide, by decide,
    check_castling_faults_on_empty_rook_square black_king_just_selected
      SpecialMoveTag.LONG_CASTLING PieceColor.BLACK 19 (by rfl) (by decide) (by decide)
      (by decide)⟩

set_option maxRecDepth 100000 in
/-- C20 at a concrete board: after `kingside_calls` the white king is
selected, which registers the short castling with target g1, and then the
rook on h1 (piece 30), whose cached moves hold g1.  With g1 highlighted for
the rook, `move(G1)` takes the castling branch and the lookup `at(H1)` of
`castle(SHORT_CASTLING, WHITE)` throws: the rook has just left h1. -/
theorem move_to_highlighted_square_faults :
    ∃ s, Chessboard.run specRules Chessboard.start king_then_rook_calls = Except.ok s ∧
      s.selected_piece_ = some 30 ∧ (s.piece 30).tag = PieceTag.ROOK ∧
      (s.piece 30).position = ⟨File.H, 1⟩ ∧
      (⟨File.G, 1⟩ : Position) ∈ (s.piece 30).legal_moves ∧
      (⟨File.G, 1⟩ : Position) ∈ s.highlighted_moves_ ∧
      Chessboard.piece_at s ⟨File.G, 1⟩ = none ∧
      s.special_moves_ = [(SpecialMoveTag.SHORT_CASTLING, ⟨File.G, 1⟩)] ∧
      Chessboard.move specRules s ⟨File.G, 1⟩ = Except.error Fault.out_of_range :=
  ⟨Chessboard.after specRules Chessboard.start king_then_rook_calls,
    by rfl, by rfl, by decide, by decide, by decide, by decide, by decide, by decide, by rfl⟩

/-! ## The squares of the board -/

namespace Chessboard

theorem rook_destination_on_board (style : SpecialMoveTag) (c : PieceColor) :
    on_board (rook_destination style c) = true := by
  cases style <;> cases c <;> rfl

theorem keysOnBoard_relocate {s : Chessboard} {pc : PieceId} {d : Position}
    (hk : KeysOnBoard s) (hd : on_board d = true) :
    KeysOnBoard (relocate (record_move s pc d) pc d) := by
  intro c2 p hp
  rcases eq_or_eq_other ((record_move s pc d).piece pc).color c2 with hc | hc
  · rw [hc] at hp
    rcases keys_relocate hp with h1 | h1
    · rw [record_move_pieces] at h1
      exact hk _ p h1
    · rw [h1]
      exact hd
  · rw [hc, relocate_other, record_move_pieces] at hp
    exact hk _ p hp

theorem keysOnBoard_resolve_capture {s s3 : Chessboard} {c : PieceColor} {d : Position}
    (hk : KeysOnBoard s) (h : resolve_capture s c d = Except.ok s3) : KeysOnBoard s3 := by
  rcases resolve_capture_cases h with ⟨x, rfl, _⟩ | ⟨_, style, _, _, hc⟩ | ⟨_, rfl⟩
  · intro c2 p hp
    by_cases h2 : c2 = c.other
    · rw [h2, pieces_with_pieces_same] at hp
      exact hk _ p (Map.mem_keys_erase.mp hp).1
    · rw [pieces_with_pieces_other _ _ _ _ h2] at hp
      exact hk _ p hp
  · obtain ⟨hown, hopp⟩ := keys_castle hc
    intro c2 p hp
    rcases eq_or_eq_other c c2 with h2 | h2
    · rw [h2] at hp
      rcases hown p hp with h1 | h1
      · exact hk _ p h1
      · rw [h1]
        exact rook_destination_on_board style c
    · rw [h2, hopp] at hp
      exact hk _ p hp
  · exact hk

theorem keysOnBoard_move {R : PieceRules} {s s1 : Chessboard} {d : Position}
    (hk : KeysOnBoard s) (h : move R s d = Except.ok s1) : KeysOnBoard s1 := by
  unfold move at h
  cases hsel : s.selected_piece_ with
  | none => rw [hsel] at h; cases h
  | some pc =>
    rw [hsel] at h
    simp only at h
    have hd := (move_piece_on_board h).2
    obtain ⟨s3, h3, rfl⟩ := move_piece_stages h
    have hk3 := keysOnBoard_resolve_capture (keysOnBoard_relocate hk hd) h3
    intro c2 p hp
    rw [finish_move_pieces] at hp
    exact hk3 c2 p hp

theorem keysOnBoard_select {R : PieceRules} {s s1 : Chessboard} {position : Position}
    {color : PieceColor} (hk : KeysOnBoard s)
    (h : select_piece R s position color = Except.ok s1) : KeysOnBoard s1 := by
  have hf := select_piece_frame h
  have hp : ∀ c, s1.pieces c = s.pieces c := by
    intro c
    cases c
    · exact hf.2.1
    · exact hf.2.2.1
  intro c p hm
  rw [hp] at hm
  exact hk c p hm

theorem keysOnBoard_construct (R : PieceRules) (turn : PieceColor) :
    KeysOnBoard (construct R turn) := by
  have hp : ∀ c, (construct R turn).pieces c = (setup turn).pieces c := by
    intro c
    rw [construct_eq]
    cases c
    · exact set_available_moves_white R _
    · exact set_available_moves_black R _
  intro c p hm
  rw [hp] at hm
  have hall : ∀ c, ∀ p ∈ Map.keys ((setup turn).pieces c), on_board p = true := by
    intro c
    cases turn <;> cases c <;> decide
  exact hall c p hm

theorem keysOnBoard_run {R : PieceRules} {calls : List Call} {s s1 : Chessboard}
    (hk : KeysOnBoard s) (h : run R s calls = Except.ok s1) : KeysOnBoard s1 := by
  induction calls generalizing s with
  | nil =>
    simp only [run] at h
    cases h
    exact hk
  | cons c cs ih =>
    rw [run] at h
    cases hc : step R s c with
    | error e => rw [hc] at h; cases h
    | ok s2 =>
      rw [hc] at h
      simp only at h
      refine ih ?_ h
      cases c with
      | select position color => exact keysOnBoard_select hk hc
      | move destination => exact keysOnBoard_move hk hc

end Chessboard

/-- In every board reached from the constructor's setup by a sequence of
`select_piece` and `move` calls that return, every key of `white_pieces_` and
of `black_pieces_` is a square of the board, and so is the position of the
piece stored under it: the premises `on_board` of the statements on `move`
hold for every stored piece and every key of such a board. -/
theorem on_board_of_run (R : PieceRules) (turn : PieceColor) (calls : List Call)
    (s : Chessboard)
    (h : Chessboard.run R (Chessboard.construct R turn) calls = Except.ok s) :
    ∀ c, ∀ e ∈ s.pieces c,
      Chessboard.on_board e.1 = true ∧ Chessboard.on_board (s.piece e.2).position = true := by
  have hw := Chessboard.wellFormed_run (Chessboard.wellFormed_construct R turn) h
  have hk := Chessboard.keysOnBoard_run (Chessboard.keysOnBoard_construct R turn) h
  intro c e he
  have h1 := hk c e.1 (Map.mem_keys_of_mem he)
  refine ⟨h1, ?_⟩
  rw [hw.pos c e he]
  exact h1

end Chess
